import Mathlib

/-! # ToyC: a shallow embedding of `src/semantic.cpp` and `src/codegen.cpp`

The abstract syntax tree of `include/ast.h` is embedded as two inductive types
(`Expr` for the expression structs, `Stmt` for the statement structs), the
`SemanticContext` class as a structure, and the functions `checkExpr`,
`checkStmt`, `checkAllPathsReturn` and `SemanticAnalyzer::analyze` as total
functions into `Except SemanticError`.

Conventions of the embedding

* `ASTNodePtr` fields that the grammar allows to be null (`VarDecl::initExpr`,
  `IfStmt::elseStmt`, `ReturnStmt::expr`) are `Option`s; the other children are
  plain nodes.  Expression positions hold expression nodes and statement
  positions hold statement nodes, as produced by the grammar.
* `Program::functions` is a list of `FunctionDef`s.
* `std::unordered_map` is an association list in which the most recent
  binding of a key comes first, `std::unordered_set` is a list.
* `varScopes` is a list whose head is `varScopes.back()` (the innermost scope).
* A call of `error(msg)` aborts the analysis; the aborting call site is recorded
  as a `SemanticError`.
* The code generator is a function on the record of the fields of the class
  `CodeGenerator`; its output is the list of the lines written, each an
  instruction, a label or a comment, with the printed text given by `Line.text`.
-/

namespace ToyC

/-! ## The syntax tree (`include/ast.h`) -/

/-- Expression nodes: `IntLiteral`, `VarRef`, `BinaryExpr`, `UnaryExpr`, `FuncCall`. -/
inductive Expr where
  | IntLiteral (value : Int)
  | VarRef (name : String)
  | BinaryExpr (op : String) (lhs rhs : Expr)
  | UnaryExpr (op : String) (expr : Expr)
  | FuncCall (name : String) (args : List Expr)
  deriving Repr

/-- Statement nodes: `Block`, `VarDecl`, `Assign`, `IfStmt`, `WhileStmt`, `BreakStmt`,
`ContinueStmt`, `ReturnStmt`, `ExprStmt`. -/
inductive Stmt where
  | Block (stmts : List Stmt)
  | VarDecl (type name : String) (initExpr : Option Expr)
  | Assign (name : String) (expr : Expr)
  | IfStmt (cond : Expr) (thenStmt : Stmt) (elseStmt : Option Stmt)
  | WhileStmt (cond : Expr) (body : Stmt)
  | BreakStmt
  | ContinueStmt
  | ReturnStmt (expr : Option Expr)
  | ExprStmt (expr : Expr)
  deriving Repr

/-- The struct `FunctionDef`: return type, name, `(type, name)` parameter pairs, body. -/
structure FunctionDef where
  retType : String
  name : String
  params : List (String × String)
  body : Stmt
  deriving Repr

/-- The struct `Program`: the functions in declaration order. -/
structure Program where
  functions : List FunctionDef
  deriving Repr

/-! ## Errors -/

/-- Modelled from the spec: `error` is called throughout `semantic.cpp` but is defined
nowhere in the sources at hand.  Following the error-handling section of the
specification (every semantic error aborts compilation on first detection) a call of
`error` ends the analysis; the constructors name the call sites of `semantic.cpp`, with
the identifier that the source appends to the message. -/
inductive SemanticError where
  /-- line 46, "函数名重复" -/
  | duplicateFunction (name : String)
  /-- line 52, "main函数必须返回int" -/
  | mainMustReturnInt
  /-- line 53, "main函数参数必须为空" -/
  | mainParamsNotEmpty
  /-- line 56, "必须有且只有一个main函数" -/
  | mainCountNotOne
  /-- line 67, "形参名与局部变量冲突" -/
  | paramConflict (name : String)
  /-- line 73, "int函数所有路径必须return int" -/
  | notAllPathsReturn (func : String)
  /-- line 87, "变量重复声明" -/
  | duplicateVar (name : String)
  /-- lines 91 and 120, "变量未声明" -/
  | undeclaredVar (name : String)
  /-- line 95, "void函数不能return带值" -/
  | voidReturnWithValue (func : String)
  /-- line 96, "int函数return必须带值" -/
  | intReturnWithoutValue (func : String)
  /-- line 111, "break/continue只能出现在循环中" -/
  | breakContinueOutsideLoop
  /-- line 126, "除数不能为零" -/
  | divideByZero
  /-- line 132, "函数未声明" -/
  | undeclaredFunction (name : String)
  /-- line 133, "函数调用必须在声明后" -/
  | callBeforeDeclaration (name : String)
  /-- line 134, "void函数调用不能作为条件或右值" -/
  | voidCallAsValue (name : String)
  deriving DecidableEq, Repr

/-- Result of a checking step: the value, or the error that aborted the analysis. -/
abbrev Check (α : Type) := Except SemanticError α

instance {α : Type} [DecidableEq α] : DecidableEq (Check α) := fun a b =>
  match a, b with
  | .ok x, .ok y => if h : x = y then isTrue (by rw [h]) else isFalse (by intro h1; cases h1; exact h rfl)
  | .error x, .error y =>
      if h : x = y then isTrue (by rw [h]) else isFalse (by intro h1; cases h1; exact h rfl)
  | .ok _, .error _ => isFalse (by intro h; cases h)
  | .error _, .ok _ => isFalse (by intro h; cases h)

/-- Whether a checking step ran to its end without calling `error`. -/
def Check.accepted {α : Type} : Check α → Bool
  | .ok _ => true
  | .error _ => false

/-- Whether a checking step was aborted by a call of `error`. -/
def Check.rejected {α : Type} : Check α → Bool
  | .ok _ => false
  | .error _ => true

/-! ## `SemanticContext` (semantic.cpp, lines 9-29) -/

/-- The class `SemanticContext`. -/
structure SemanticContext where
  funcRetType : List (String × String) := []
  funcDeclaredOrder : List (String × Nat) := []
  varScopes : List (List String) := []
  funcNames : List String := []
  funcOrder : Nat := 0
  inLoop : Bool := false
  curFunc : String := ""
  curFuncRetType : String := ""
  hasReturn : Bool := false
  deriving Repr

namespace SemanticContext

/-- `enterScope`: `varScopes.push_back({})`. -/
def enterScope (ctx : SemanticContext) : SemanticContext :=
  { ctx with varScopes := [] :: ctx.varScopes }

/-- `leaveScope`: `varScopes.pop_back()`. -/
def leaveScope (ctx : SemanticContext) : SemanticContext :=
  { ctx with varScopes := ctx.varScopes.tail }

/-- `declareVar`: `varScopes.back()[name] = true`.  The source never calls it on an
empty scope stack; there the embedding leaves the stack as it is. -/
def declareVar (ctx : SemanticContext) (name : String) : SemanticContext :=
  match ctx.varScopes with
  | [] => ctx
  | s :: rest => { ctx with varScopes := (name :: s) :: rest }

/-- `isVarDeclared`: some scope of the stack holds the name. -/
def isVarDeclared (ctx : SemanticContext) (name : String) : Bool :=
  ctx.varScopes.any (fun s => decide (name ∈ s))

/-- `varScopes.back().count(name)`: the innermost scope holds the name. -/
def inInnermost (ctx : SemanticContext) (name : String) : Bool :=
  decide (name ∈ ctx.varScopes.headD [])

/-- `funcRetType.count(name)`. -/
def funcDeclared (ctx : SemanticContext) (name : String) : Bool :=
  (ctx.funcRetType.lookup name).isSome

/-- `funcDeclaredOrder[name]`; `operator[]` yields 0 for a missing key. -/
def orderOf (ctx : SemanticContext) (name : String) : Nat :=
  (ctx.funcDeclaredOrder.lookup name).getD 0

/-- `funcRetType[name]`; `operator[]` yields the empty string for a missing key. -/
def retTypeOf (ctx : SemanticContext) (name : String) : String :=
  (ctx.funcRetType.lookup name).getD ""

end SemanticContext

/-- The statement `if (cond) error(msg);`: abort with the error when the condition holds. -/
def failIf (cond : Bool) (e : SemanticError) : Check Unit :=
  if cond then .error e else .ok ()

/-! ## `checkExpr` (semantic.cpp, lines 115-137) -/

/-- The test of lines 124-126: the operator is `/` or `%` and the right operand is an
`IntLiteral` whose value is 0. -/
def literalZeroDivisor (op : String) (rhs : Expr) : Bool :=
  (op == "/" || op == "%") &&
    (match rhs with
     | .IntLiteral value => value == 0
     | _ => false)

mutual
/-- `checkExpr(node, ctx, allowVoidCall)` for a non-null node. -/
def checkExpr (ctx : SemanticContext) : Expr → Bool → Check Unit
  | .IntLiteral _, _ => pure ()
  | .VarRef name, _ => failIf (!ctx.isVarDeclared name) (.undeclaredVar name)
  | .BinaryExpr op lhs rhs, _ => do
      checkExpr ctx lhs false
      checkExpr ctx rhs false
      failIf (literalZeroDivisor op rhs) .divideByZero
  | .UnaryExpr _ expr, _ => checkExpr ctx expr false
  | .FuncCall name args, allowVoidCall => do
      failIf (!ctx.funcDeclared name) (.undeclaredFunction name)
      failIf (decide (ctx.orderOf name > ctx.orderOf ctx.curFunc)) (.callBeforeDeclaration name)
      failIf (ctx.retTypeOf name == "void" && !allowVoidCall) (.voidCallAsValue name)
      checkArgs ctx args
/-- The loop `for (auto& arg : call->args) checkExpr(arg, ctx);` of line 135. -/
def checkArgs (ctx : SemanticContext) : List Expr → Check Unit
  | [] => pure ()
  | arg :: rest => do
      checkExpr ctx arg false
      checkArgs ctx rest
end

/-- `checkExpr(node, ctx)` for a node that may be null (line 116: a null node is accepted). -/
def checkExprOpt (ctx : SemanticContext) : Option Expr → Check Unit
  | none => pure ()
  | some e => checkExpr ctx e false

/-! ## `checkStmt` (semantic.cpp, lines 80-113) -/

mutual
/-- `checkStmt(node, ctx)`; the result is the context as the statement leaves it. -/
def checkStmt : SemanticContext → Stmt → Check SemanticContext
  | ctx, .Block stmts => do
      let ctx1 ← checkStmts ctx.enterScope stmts
      pure ctx1.leaveScope
  | ctx, .VarDecl _ name initExpr => do
      failIf (ctx.inInnermost name) (.duplicateVar name)
      checkExprOpt ctx initExpr
      pure (ctx.declareVar name)
  | ctx, .Assign name expr => do
      failIf (!ctx.isVarDeclared name) (.undeclaredVar name)
      checkExpr ctx expr false
      pure ctx
  | ctx, .ReturnStmt expr => do
      let ctx1 := { ctx with hasReturn := true }
      failIf (ctx1.curFuncRetType == "void" && expr.isSome) (.voidReturnWithValue ctx1.curFunc)
      failIf (ctx1.curFuncRetType == "int" && expr.isNone) (.intReturnWithoutValue ctx1.curFunc)
      checkExprOpt ctx1 expr
      pure ctx1
  | ctx, .ExprStmt expr => do
      checkExpr ctx expr true
      pure ctx
  | ctx, .IfStmt cond thenStmt elseStmt => do
      checkExpr ctx cond false
      let ctx1 ← checkStmt ctx thenStmt
      checkElse ctx1 elseStmt
  | ctx, .WhileStmt cond body => do
      checkExpr ctx cond false
      let oldInLoop := ctx.inLoop
      let ctx1 ← checkStmt { ctx with inLoop := true } body
      pure { ctx1 with inLoop := oldInLoop }
  | ctx, .BreakStmt => do
      failIf (!ctx.inLoop) .breakContinueOutsideLoop
      pure ctx
  | ctx, .ContinueStmt => do
      failIf (!ctx.inLoop) .breakContinueOutsideLoop
      pure ctx
/-- The loop `for (auto& stmt : block->stmts) checkStmt(stmt, ctx);` of line 84. -/
def checkStmts : SemanticContext → List Stmt → Check SemanticContext
  | ctx, [] => pure ctx
  | ctx, stmt :: rest => do
      let ctx1 ← checkStmt ctx stmt
      checkStmts ctx1 rest
/-- Line 103: `if (ifs->elseStmt) checkStmt(ifs->elseStmt, ctx);`. -/
def checkElse : SemanticContext → Option Stmt → Check SemanticContext
  | ctx, none => pure ctx
  | ctx, some s => checkStmt ctx s
end

/-! ## `checkAllPathsReturn` (semantic.cpp, lines 139-157) -/

mutual
/-- `checkAllPathsReturn(node)` for a non-null node. -/
def checkAllPathsReturn : Stmt → Bool
  | .ReturnStmt _ => true
  | .Block stmts => anyPathsReturn stmts
  | .IfStmt _ thenStmt elseStmt =>
      match elseStmt with
      | none => false
      | some e => checkAllPathsReturn thenStmt && checkAllPathsReturn e
  | .WhileStmt _ _ => false
  | _ => false
/-- The loop of lines 143-146: true at the first statement that returns on all paths. -/
def anyPathsReturn : List Stmt → Bool
  | [] => false
  | stmt :: rest => if checkAllPathsReturn stmt then true else anyPathsReturn rest
end

/-! ## `SemanticAnalyzer::analyze` (semantic.cpp, lines 36-78) -/

/-- One iteration of the first loop (lines 44-54) on the context, `mainCount` and
`order`. -/
def registerFunction (st : SemanticContext × Nat × Nat) (func : FunctionDef) :
    Check (SemanticContext × Nat × Nat) := do
  let (ctx, mainCount, order) := st
  failIf (decide (func.name ∈ ctx.funcNames)) (.duplicateFunction func.name)
  let ctx1 : SemanticContext :=
    { ctx with
      funcNames := func.name :: ctx.funcNames
      funcRetType := (func.name, func.retType) :: ctx.funcRetType
      funcDeclaredOrder := (func.name, order) :: ctx.funcDeclaredOrder }
  if func.name = "main" then do
    failIf (func.retType != "int") .mainMustReturnInt
    failIf (!func.params.isEmpty) .mainParamsNotEmpty
    pure (ctx1, mainCount + 1, order + 1)
  else
    pure (ctx1, mainCount, order + 1)

/-- The first loop (lines 43-55). -/
def registerFunctions : SemanticContext × Nat × Nat → List FunctionDef →
    Check (SemanticContext × Nat × Nat)
  | st, [] => pure st
  | st, func :: rest => do
      let st1 ← registerFunction st func
      registerFunctions st1 rest

/-- The parameter loop (lines 66-69). -/
def declareParams : SemanticContext → List (String × String) → Check SemanticContext
  | ctx, [] => pure ctx
  | ctx, p :: rest => do
      failIf (ctx.isVarDeclared p.2) (.paramConflict p.2)
      declareParams (ctx.declareVar p.2) rest

/-- One iteration of the second loop (lines 60-76); the counter `order` of that loop is
never read and is left out. -/
def checkFunction (ctx : SemanticContext) (func : FunctionDef) : Check SemanticContext := do
  let ctx1 : SemanticContext :=
    { ctx with curFunc := func.name, curFuncRetType := func.retType, hasReturn := false }
  let ctx2 ← declareParams ctx1.enterScope func.params
  let ctx3 ← checkStmt ctx2 func.body
  let ctx4 := ctx3.leaveScope
  failIf (func.retType == "int" && !checkAllPathsReturn func.body)
    (.notAllPathsReturn func.name)
  pure ctx4

/-- The second loop (lines 59-77). -/
def checkFunctions : SemanticContext → List FunctionDef → Check SemanticContext
  | ctx, [] => pure ctx
  | ctx, func :: rest => do
      let ctx1 ← checkFunction ctx func
      checkFunctions ctx1 rest

/-- `SemanticAnalyzer::analyze` on a `Program` root. -/
def analyze (prog : Program) : Check Unit := do
  let (ctx1, mainCount, _) ← registerFunctions ({}, 0, 0) prog.functions
  failIf (mainCount != 1) .mainCountNotOne
  let _ ← checkFunctions ctx1 prog.functions
  pure ()

/-! ## Sample programs -/

/-- `int main(){ return 0; }` -/
def mainReturns0 : FunctionDef :=
  ⟨"int", "main", [], .Block [.ReturnStmt (some (.IntLiteral 0))]⟩

/-- `int main(){ if (1) { return 0; } }` -/
def progIfNoElse : Program :=
  ⟨[⟨"int", "main", [],
      .Block [.IfStmt (.IntLiteral 1) (.Block [.ReturnStmt (some (.IntLiteral 0))]) none]⟩]⟩

/-- `int main(){ if (1) { return 0; } else { return 1; } }` -/
def progIfElse : Program :=
  ⟨[⟨"int", "main", [],
      .Block [.IfStmt (.IntLiteral 1) (.Block [.ReturnStmt (some (.IntLiteral 0))])
        (some (.Block [.ReturnStmt (some (.IntLiteral 1))]))]⟩]⟩

/-! ## Relations between contexts and reference predicates -/

/-- The fields of the context that are set once per function and read by the checks:
the two function tables, the current function and its return type. -/
def SameFunc (c1 c2 : SemanticContext) : Prop :=
  c1.funcRetType = c2.funcRetType ∧ c1.funcDeclaredOrder = c2.funcDeclaredOrder ∧
    c1.curFunc = c2.curFunc ∧ c1.curFuncRetType = c2.curFuncRetType

/-- What `checkStmt` keeps: the per-function fields, the loop flag, and the scope stack
below the innermost scope (with its height). -/
def Keeps (c1 c2 : SemanticContext) : Prop :=
  SameFunc c1 c2 ∧ c2.inLoop = c1.inLoop ∧ c2.varScopes.tail = c1.varScopes.tail ∧
    c2.varScopes.length = c1.varScopes.length ∧ c2.funcNames = c1.funcNames

/-- What the second loop keeps from one function to the next: the tables, the loop flag
and the scope stack. -/
def SameGlobal (c1 c2 : SemanticContext) : Prop :=
  c2.funcRetType = c1.funcRetType ∧ c2.funcDeclaredOrder = c1.funcDeclaredOrder ∧
    c2.funcNames = c1.funcNames ∧ c2.inLoop = c1.inLoop ∧ c2.varScopes = c1.varScopes

/-- The context in which the body of `func` is entered: lines 61-64 applied to `ctx`. -/
def funcEntry (ctx : SemanticContext) (func : FunctionDef) : SemanticContext :=
  ({ ctx with curFunc := func.name, curFuncRetType := func.retType,
              hasReturn := false } : SemanticContext).enterScope

/-- The all-paths-return analysis in the words of the specification: a `ReturnStmt`
returns; a `Block` returns when at least one of its statements returns; an `IfStmt`
returns when it has an else branch and both branches return; no other statement
returns. -/
inductive ReturnsOnAllPaths : Stmt → Prop where
  | returnStmt (expr : Option Expr) : ReturnsOnAllPaths (.ReturnStmt expr)
  | block (stmts : List Stmt) (s : Stmt) :
      s ∈ stmts → ReturnsOnAllPaths s → ReturnsOnAllPaths (.Block stmts)
  | ifStmt (cond : Expr) (thenStmt elseStmt : Stmt) :
      ReturnsOnAllPaths thenStmt → ReturnsOnAllPaths elseStmt →
      ReturnsOnAllPaths (.IfStmt cond thenStmt (some elseStmt))

/-! ## The function tables after the first pass -/

/-- The context after lines 47-49 have registered `func` under the index `order`. -/
def addFunction (ctx : SemanticContext) (order : Nat) (func : FunctionDef) : SemanticContext :=
  { ctx with
    funcNames := func.name :: ctx.funcNames
    funcRetType := (func.name, func.retType) :: ctx.funcRetType
    funcDeclaredOrder := (func.name, order) :: ctx.funcDeclaredOrder }

/-- The context after the first loop has registered all of `fs`, counting from `order`. -/
def addFunctions : SemanticContext → Nat → List FunctionDef → SemanticContext
  | ctx, _, [] => ctx
  | ctx, order, func :: rest => addFunctions (addFunction ctx order func) (order + 1) rest

/-- The main rule for one function (lines 50-54): a function named `main` returns `int`
and has no parameters. -/
def MainOK (func : FunctionDef) : Prop :=
  func.name = "main" → func.retType = "int" ∧ func.params = []

/-- The number of functions named `main`. -/
def countMain (fs : List FunctionDef) : Nat :=
  fs.countP (fun f => f.name == "main")

/-- `void main(){ } void main(){ }` -/
def progTwoVoidMains : Program :=
  ⟨[⟨"void", "main", [], .Block []⟩, ⟨"void", "main", [], .Block []⟩]⟩

/-- `void main(){} int f(){ return 0; } int f(){ return 0; }` -/
def progVoidMainDupF : Program :=
  ⟨[⟨"void", "main", [], .Block []⟩,
    ⟨"int", "f", [], .Block [.ReturnStmt (some (.IntLiteral 0))]⟩,
    ⟨"int", "f", [], .Block [.ReturnStmt (some (.IntLiteral 0))]⟩]⟩

/-- `int f(){ return 0; } int f(){ return 1; } int main(){ return 0; }` -/
def progDupF : Program :=
  ⟨[⟨"int", "f", [], .Block [.ReturnStmt (some (.IntLiteral 0))]⟩,
    ⟨"int", "f", [], .Block [.ReturnStmt (some (.IntLiteral 1))]⟩,
    mainReturns0]⟩

/-! ## Occurrence of nodes in a tree -/

/-- `ExprOccurs e1 a1 e a`: the node `e1` occurs in the expression `e`.  The flags tell
whether the value of the node is discarded: `a` for `e` itself, and `a1` for `e1`, which
is `a` when `e1` is the whole of `e` and `false` for every operand and argument. -/
inductive ExprOccurs : Expr → Bool → Expr → Bool → Prop where
  | root (e : Expr) (a : Bool) : ExprOccurs e a e a
  | lhs {e1 : Expr} {a1 : Bool} (op : String) (lhs rhs : Expr) (a : Bool) :
      ExprOccurs e1 a1 lhs false → ExprOccurs e1 a1 (.BinaryExpr op lhs rhs) a
  | rhs {e1 : Expr} {a1 : Bool} (op : String) (lhs rhs : Expr) (a : Bool) :
      ExprOccurs e1 a1 rhs false → ExprOccurs e1 a1 (.BinaryExpr op lhs rhs) a
  | operand {e1 : Expr} {a1 : Bool} (op : String) (expr : Expr) (a : Bool) :
      ExprOccurs e1 a1 expr false → ExprOccurs e1 a1 (.UnaryExpr op expr) a
  | arg {e1 : Expr} {a1 : Bool} (name : String) (args : List Expr) (arg : Expr) (a : Bool) :
      arg ∈ args → ExprOccurs e1 a1 arg false → ExprOccurs e1 a1 (.FuncCall name args) a

/-- `StmtExpr s e a`: the statement `s` directly holds the expression `e`; `a` is `true`
for the expression of an `ExprStmt` (its value is discarded) and `false` for an
initializer, an assigned value, a returned value and a condition. -/
inductive StmtExpr : Stmt → Expr → Bool → Prop where
  | initExpr (type name : String) (e : Expr) : StmtExpr (.VarDecl type name (some e)) e false
  | assigned (name : String) (e : Expr) : StmtExpr (.Assign name e) e false
  | returned (e : Expr) : StmtExpr (.ReturnStmt (some e)) e false
  | discarded (e : Expr) : StmtExpr (.ExprStmt e) e true
  | ifCond (cond : Expr) (thenStmt : Stmt) (elseStmt : Option Stmt) :
      StmtExpr (.IfStmt cond thenStmt elseStmt) cond false
  | whileCond (cond : Expr) (body : Stmt) : StmtExpr (.WhileStmt cond body) cond false

/-- `SubStmt t s`: the statement `t` occurs in `s`, at any nesting depth of blocks,
branches and loop bodies (`s` itself included). -/
inductive SubStmt : Stmt → Stmt → Prop where
  | root (s : Stmt) : SubStmt s s
  | block {t : Stmt} (stmts : List Stmt) (s : Stmt) :
      s ∈ stmts → SubStmt t s → SubStmt t (.Block stmts)
  | thenStmt {t : Stmt} (cond : Expr) (thenStmt : Stmt) (elseStmt : Option Stmt) :
      SubStmt t thenStmt → SubStmt t (.IfStmt cond thenStmt elseStmt)
  | elseStmt {t : Stmt} (cond : Expr) (thenStmt elseStmt : Stmt) :
      SubStmt t elseStmt → SubStmt t (.IfStmt cond thenStmt (some elseStmt))
  | body {t : Stmt} (cond : Expr) (body : Stmt) :
      SubStmt t body → SubStmt t (.WhileStmt cond body)

/-- `ExprIn e a s`: the expression node `e` occurs somewhere in the statement `s`; `a` is
`true` exactly when `e` is the whole expression of an `ExprStmt`. -/
def ExprIn (e : Expr) (a : Bool) (s : Stmt) : Prop :=
  ∃ t e0 a0, SubStmt t s ∧ StmtExpr t e0 a0 ∧ ExprOccurs e a e0 a0

/-- `BreakOutsideLoop s`: the statement `s` contains a `BreakStmt` or `ContinueStmt` that
is not inside the body of a `WhileStmt` of `s`. -/
inductive BreakOutsideLoop : Stmt → Prop where
  | breakStmt : BreakOutsideLoop .BreakStmt
  | continueStmt : BreakOutsideLoop .ContinueStmt
  | block (stmts : List Stmt) (s : Stmt) :
      s ∈ stmts → BreakOutsideLoop s → BreakOutsideLoop (.Block stmts)
  | thenStmt (cond : Expr) (thenStmt : Stmt) (elseStmt : Option Stmt) :
      BreakOutsideLoop thenStmt → BreakOutsideLoop (.IfStmt cond thenStmt elseStmt)
  | elseStmt (cond : Expr) (thenStmt elseStmt : Stmt) :
      BreakOutsideLoop elseStmt → BreakOutsideLoop (.IfStmt cond thenStmt (some elseStmt))

/-- The context left by the first pass of `analyze` on an accepted first pass: every
function of the program registered in order, starting from the empty context. -/
def tablesOf (prog : Program) : SemanticContext :=
  addFunctions {} 0 prog.functions

/-- `AtBody prog f c`: `c` is a context in which the second pass checks the body of the
function `f` of `prog`: the tables of the first pass, `f` as the current function, and
the loop flag not set. -/
def AtBody (prog : Program) (f : FunctionDef) (c : SemanticContext) : Prop :=
  c.funcRetType = (tablesOf prog).funcRetType ∧
    c.funcDeclaredOrder = (tablesOf prog).funcDeclaredOrder ∧
    c.curFunc = f.name ∧ c.curFuncRetType = f.retType ∧ c.inLoop = false

/-- `void f(){ return 1; }` -/
def voidFReturn1 : FunctionDef :=
  ⟨"void", "f", [], .Block [.ReturnStmt (some (.IntLiteral 1))]⟩

/-- `int f(){ return; }` -/
def intFReturnNothing : FunctionDef :=
  ⟨"int", "f", [], .Block [.ReturnStmt none]⟩

/-- `int f(){ return 0; }` -/
def intFReturn0 : FunctionDef :=
  ⟨"int", "f", [], .Block [.ReturnStmt (some (.IntLiteral 0))]⟩

/-- `int main(){ return 1/0; }` -/
def progDivZero : Program :=
  ⟨[⟨"int", "main", [],
      .Block [.ReturnStmt (some (.BinaryExpr "/" (.IntLiteral 1) (.IntLiteral 0)))]⟩]⟩

/-- `int main(){ int x = 0; return 1/x; }` -/
def progDivVar : Program :=
  ⟨[⟨"int", "main", [],
      .Block [.VarDecl "int" "x" (some (.IntLiteral 0)),
        .ReturnStmt (some (.BinaryExpr "/" (.IntLiteral 1) (.VarRef "x")))]⟩]⟩

/-- `void f(){ }` -/
def voidF : FunctionDef := ⟨"void", "f", [], .Block []⟩

/-- `void f(){ } int main(){ f(); return 0; }` -/
def progVoidCallStmt : Program :=
  ⟨[voidF, ⟨"int", "main", [],
      .Block [.ExprStmt (.FuncCall "f" []), .ReturnStmt (some (.IntLiteral 0))]⟩]⟩

/-- `int main(){ return f(); }` -/
def mainReturnsF : FunctionDef :=
  ⟨"int", "main", [], .Block [.ReturnStmt (some (.FuncCall "f" []))]⟩

/-- `void f(){ } int main(){ return f(); }` -/
def progVoidCallValue : Program := ⟨[voidF, mainReturnsF]⟩

/-- The errors raised inside `checkExpr` (lines 120-134). -/
def SemanticError.fromExpr : SemanticError → Bool
  | .undeclaredVar _ => true
  | .divideByZero => true
  | .undeclaredFunction _ => true
  | .callBeforeDeclaration _ => true
  | .voidCallAsValue _ => true
  | _ => false

/-- `int main(){ while (1) { break; } break; return 0; }` -/
def progBreakAfterLoop : Program :=
  ⟨[⟨"int", "main", [],
      .Block [.WhileStmt (.IntLiteral 1) (.Block [.BreakStmt]), .BreakStmt,
        .ReturnStmt (some (.IntLiteral 0))]⟩]⟩

/-- `int main(){ while (1) { if (1) { break; } continue; } return 0; }` -/
def progBreakInLoop : Program :=
  ⟨[⟨"int", "main", [],
      .Block [.WhileStmt (.IntLiteral 1)
          (.Block [.IfStmt (.IntLiteral 1) (.Block [.BreakStmt]) none, .ContinueStmt]),
        .ReturnStmt (some (.IntLiteral 0))]⟩]⟩

/-! ## The static rules in the words of the specification -/

/-- A declaration binds its name in the innermost scope of the stack (the head). -/
def bindVar (name : String) : List (List String) → List (List String)
  | [] => []
  | s :: rest => (name :: s) :: rest

/-- A name resolves when some scope of the stack holds it. -/
def visible (name : String) (scopes : List (List String)) : Bool :=
  scopes.any (fun s => decide (name ∈ s))

mutual
/-- The scope stack after a statement: a `VarDecl` binds its name in the innermost scope;
the branches of an `IfStmt` and the body of a `WhileStmt` are statements of the
enclosing scope; a `Block` opens a scope of its own and closes it, so it leaves the stack
as it was; no other statement declares anything. -/
def scopesAfter : List (List String) → Stmt → List (List String)
  | sc, .VarDecl _ name _ => bindVar name sc
  | sc, .IfStmt _ thenStmt elseStmt => scopesAfterElse (scopesAfter sc thenStmt) elseStmt
  | sc, .WhileStmt _ body => scopesAfter sc body
  | sc, _ => sc
/-- The scope stack after an optional else branch. -/
def scopesAfterElse : List (List String) → Option Stmt → List (List String)
  | sc, none => sc
  | sc, some s => scopesAfter sc s
end

mutual
/-- Every `VarRef` of the expression names a variable of the scope stack. -/
def exprResolved (sc : List (List String)) : Expr → Bool
  | .IntLiteral _ => true
  | .VarRef name => visible name sc
  | .BinaryExpr _ lhs rhs => exprResolved sc lhs && exprResolved sc rhs
  | .UnaryExpr _ expr => exprResolved sc expr
  | .FuncCall _ args => argsResolved sc args
/-- Every `VarRef` of the argument list names a variable of the scope stack. -/
def argsResolved (sc : List (List String)) : List Expr → Bool
  | [] => true
  | arg :: rest => exprResolved sc arg && argsResolved sc rest
end

/-- Every `VarRef` of an optional expression names a variable of the scope stack. -/
def optResolved (sc : List (List String)) : Option Expr → Bool
  | none => true
  | some e => exprResolved sc e

mutual
/-- Rule (a): every variable reference of the statement (a `VarRef`, the target of an
`Assign`) names a variable that is declared, before the reference, in a scope that
encloses it.  The initializer of a `VarDecl` is read before the name is bound. -/
def stmtResolved : List (List String) → Stmt → Bool
  | sc, .Block stmts => stmtsResolved ([] :: sc) stmts
  | sc, .VarDecl _ _ initExpr => optResolved sc initExpr
  | sc, .Assign name expr => visible name sc && exprResolved sc expr
  | sc, .ReturnStmt expr => optResolved sc expr
  | sc, .ExprStmt expr => exprResolved sc expr
  | sc, .IfStmt cond thenStmt elseStmt =>
      exprResolved sc cond && stmtResolved sc thenStmt &&
        elseResolved (scopesAfter sc thenStmt) elseStmt
  | sc, .WhileStmt cond body => exprResolved sc cond && stmtResolved sc body
  | _, .BreakStmt => true
  | _, .ContinueStmt => true
/-- Rule (a) for the statements of a block, each read in the scopes left by the ones
before it. -/
def stmtsResolved : List (List String) → List Stmt → Bool
  | _, [] => true
  | sc, s :: rest => stmtResolved sc s && stmtsResolved (scopesAfter sc s) rest
/-- Rule (a) for an optional else branch. -/
def elseResolved : List (List String) → Option Stmt → Bool
  | _, none => true
  | sc, some s => stmtResolved sc s
end

mutual
/-- No `VarDecl` of the statement declares a name that its innermost scope already
holds. -/
def stmtFresh : List (List String) → Stmt → Bool
  | sc, .Block stmts => stmtsFresh ([] :: sc) stmts
  | sc, .VarDecl _ name _ => !decide (name ∈ sc.headD [])
  | sc, .IfStmt _ thenStmt elseStmt =>
      stmtFresh sc thenStmt && elseFresh (scopesAfter sc thenStmt) elseStmt
  | sc, .WhileStmt _ body => stmtFresh sc body
  | _, _ => true
/-- The rule for the statements of a block, each in the scopes left by the ones before
it. -/
def stmtsFresh : List (List String) → List Stmt → Bool
  | _, [] => true
  | sc, s :: rest => stmtFresh sc s && stmtsFresh (scopesAfter sc s) rest
/-- The rule for an optional else branch. -/
def elseFresh : List (List String) → Option Stmt → Bool
  | _, none => true
  | sc, some s => stmtFresh sc s
end

/-- The scope stack after the statements of a list, in order. -/
def scopesAfterList : List (List String) → List Stmt → List (List String)
  | sc, [] => sc
  | sc, s :: rest => scopesAfterList (scopesAfter sc s) rest

/-- The rule on a `ReturnStmt`: no value in a `void` function, a value in an `int`
function. -/
def ReturnOK (retType : String) (expr : Option Expr) : Prop :=
  (retType = "void" → expr = none) ∧ (retType = "int" → expr ≠ none)

/-- The rules that `checkExpr` enforces at a single node, apart from variable lookup: for
a call, the callee is declared, not declared after the current function, and returns a
value unless the result is discarded; for a binary node, no literal 0 under `/` or `%`. -/
def NodeOK (ctx : SemanticContext) : Expr → Bool → Prop
  | .FuncCall name _, a =>
      ctx.funcDeclared name = true ∧ ctx.orderOf name ≤ ctx.orderOf ctx.curFunc ∧
        (ctx.retTypeOf name = "void" → a = true)
  | .BinaryExpr op _ rhs, _ => literalZeroDivisor op rhs = false
  | _, _ => True

/-- The scope of the parameters of a function: their names, the last one first. -/
def paramScope (f : FunctionDef) : List String :=
  (f.params.map (·.2)).reverse

/-- The rules of the second pass for the function `f` declared right after the
functions `pre`: distinct parameter names; (a) every variable reference resolves;
(b) an `int` function returns on all paths; no redeclaration in the same scope; return
statements match the return type; `break` and `continue` only inside loops; every call
names a function declared at the position of `f` or before, a `void` one only where the
result is discarded; no literal 0 as divisor. -/
structure FunctionOK (pre : List FunctionDef) (f : FunctionDef) : Prop where
  params : (f.params.map (·.2)).Nodup
  resolved : stmtResolved [paramScope f] f.body = true
  returns : f.retType = "int" → ReturnsOnAllPaths f.body
  fresh : stmtFresh [paramScope f] f.body = true
  returnValues : ∀ e, SubStmt (.ReturnStmt e) f.body → ReturnOK f.retType e
  loops : ¬ BreakOutsideLoop f.body
  calls : ∀ n args a, ExprIn (.FuncCall n args) a f.body →
    ∃ g ∈ pre ++ [f], g.name = n ∧ (g.retType = "void" → a = true)
  divisors : ∀ op l a, ExprIn (.BinaryExpr op l (.IntLiteral 0)) a f.body →
    op ≠ "/" ∧ op ≠ "%"

/-- `int main(){ break; return 0; }` -/
def progBreakOnly : Program :=
  ⟨[⟨"int", "main", [], .Block [.BreakStmt, .ReturnStmt (some (.IntLiteral 0))]⟩]⟩

/-- The rules on a statement that do not depend on the scopes: every expression node
satisfies the call and division rules of `ctx`, every `ReturnStmt` matches the return type
of the current function, and, when the statement is not inside a loop, it has no
`break` or `continue` outside its own loops. -/
def StmtRules (ctx : SemanticContext) (inLoop : Bool) (s : Stmt) : Prop :=
  (∀ e a, ExprIn e a s → NodeOK ctx e a) ∧
    (∀ r, SubStmt (.ReturnStmt r) s → ReturnOK ctx.curFuncRetType r) ∧
    (inLoop = false → ¬ BreakOutsideLoop s)

/-- `NodeError ctx e a err`: the test that `checkExpr` makes at the node `e` itself, under
the flag `a`, fails with the error `err`. -/
def NodeError (ctx : SemanticContext) : Expr → Bool → SemanticError → Prop
  | .VarRef name, _, err => err = .undeclaredVar name ∧ ctx.isVarDeclared name = false
  | .BinaryExpr op _ rhs, _, err => err = .divideByZero ∧ literalZeroDivisor op rhs = true
  | .FuncCall name _, a, err =>
      (err = .undeclaredFunction name ∧ ctx.funcDeclared name = false) ∨
      (err = .callBeforeDeclaration name ∧ ctx.funcDeclared name = true ∧
        ctx.orderOf name > ctx.orderOf ctx.curFunc) ∨
      (err = .voidCallAsValue name ∧ ctx.funcDeclared name = true ∧
        ctx.retTypeOf name = "void" ∧ a = false)
  | _, _, _ => False

/-- The errors of the call rules and of the division rule (lines 126-134). -/
def SemanticError.fromCallOrDiv : SemanticError → Bool
  | .divideByZero => true
  | .undeclaredFunction _ => true
  | .callBeforeDeclaration _ => true
  | .voidCallAsValue _ => true
  | _ => false

/-- `int main(){ int x = 1; { int x = 2; x = 3; } return x; }` -/
def progShadow : Program :=
  ⟨[⟨"int", "main", [],
      .Block [.VarDecl "int" "x" (some (.IntLiteral 1)),
        .Block [.VarDecl "int" "x" (some (.IntLiteral 2)), .Assign "x" (.IntLiteral 3)],
        .ReturnStmt (some (.VarRef "x"))]⟩]⟩

/-- `int main(){ int x = 1; int x = 2; return x; }` -/
def progDupDecl : Program :=
  ⟨[⟨"int", "main", [],
      .Block [.VarDecl "int" "x" (some (.IntLiteral 1)),
        .VarDecl "int" "x" (some (.IntLiteral 2)),
        .ReturnStmt (some (.VarRef "x"))]⟩]⟩

/-- `int main(){ { int x = 1; } return x; }` -/
def progBlockLeak : Program :=
  ⟨[⟨"int", "main", [],
      .Block [.Block [.VarDecl "int" "x" (some (.IntLiteral 1))],
        .ReturnStmt (some (.VarRef "x"))]⟩]⟩

/-- `int f(){ int x = 1; return x; } int main(){ return x; }` -/
def progOtherFunction : Program :=
  ⟨[⟨"int", "f", [],
      .Block [.VarDecl "int" "x" (some (.IntLiteral 1)), .ReturnStmt (some (.VarRef "x"))]⟩,
    ⟨"int", "main", [], .Block [.ReturnStmt (some (.VarRef "x"))]⟩]⟩

/-- `int main(){ int x = x; return 0; }` -/
def progSelfInit : Program :=
  ⟨[⟨"int", "main", [],
      .Block [.VarDecl "int" "x" (some (.VarRef "x")),
        .ReturnStmt (some (.IntLiteral 0))]⟩]⟩

/-- `int f(int a){ a = a + 1; return a; } int main(){ return f(1); }` -/
def progParamUse : Program :=
  ⟨[⟨"int", "f", [("int", "a")],
      .Block [.Assign "a" (.BinaryExpr "+" (.VarRef "a") (.IntLiteral 1)),
        .ReturnStmt (some (.VarRef "a"))]⟩,
    ⟨"int", "main", [], .Block [.ReturnStmt (some (.FuncCall "f" [.IntLiteral 1]))]⟩]⟩

/-! ## The emitted text (`emit`, `emitLabel`, `emitComment`, codegen.cpp lines 284-294) -/

/-- The strings that `codegen.cpp` passes to `emit`, with their operands as fields;
`Instr.text` is the string itself. -/
inductive Instr where
  /-- the assembler directives and the empty line of the file header -/
  | directive (text : String)
  | addi (rd rs : String) (imm : Int)
  | sw (rs : String) (offset : Int) (base : String)
  | lw (rd : String) (offset : Int) (base : String)
  | beqz (rs : String) (label : String)
  | j (label : String)
  | mv (rd rs : String)
  | neg (rd rs : String)
  | seqz (rd rs : String)
  | li (rd : String) (imm : Int)
  | add (rd rs1 rs2 : String)
  | sub (rd rs1 rs2 : String)
  | mul (rd rs1 rs2 : String)
  | div (rd rs1 rs2 : String)
  | rem (rd rs1 rs2 : String)
  | call (name : String)
  | ret
  deriving DecidableEq, Repr

/-- The string passed to `emit`; integers are printed by `std::to_string`. -/
def Instr.text : Instr → String
  | .directive text => text
  | .addi rd rs imm => "addi " ++ rd ++ ", " ++ rs ++ ", " ++ toString imm
  | .sw rs offset base => "sw " ++ rs ++ ", " ++ toString offset ++ "(" ++ base ++ ")"
  | .lw rd offset base => "lw " ++ rd ++ ", " ++ toString offset ++ "(" ++ base ++ ")"
  | .beqz rs label => "beqz " ++ rs ++ ", " ++ label
  | .j label => "j " ++ label
  | .mv rd rs => "mv " ++ rd ++ ", " ++ rs
  | .neg rd rs => "neg " ++ rd ++ ", " ++ rs
  | .seqz rd rs => "seqz " ++ rd ++ ", " ++ rs
  | .li rd imm => "li " ++ rd ++ ", " ++ toString imm
  | .add rd rs1 rs2 => "add " ++ rd ++ ", " ++ rs1 ++ ", " ++ rs2
  | .sub rd rs1 rs2 => "sub " ++ rd ++ ", " ++ rs1 ++ ", " ++ rs2
  | .mul rd rs1 rs2 => "mul " ++ rd ++ ", " ++ rs1 ++ ", " ++ rs2
  | .div rd rs1 rs2 => "div " ++ rd ++ ", " ++ rs1 ++ ", " ++ rs2
  | .rem rd rs1 rs2 => "rem " ++ rd ++ ", " ++ rs1 ++ ", " ++ rs2
  | .call name => "call " ++ name
  | .ret => "ret"

/-- One line of the output file, by the function that wrote it. -/
inductive Line where
  /-- `emit(instruction)` -/
  | instr (i : Instr)
  /-- `emitLabel(label)` -/
  | label (name : String)
  /-- `emitComment(comment)` -/
  | comment (text : String)
  deriving DecidableEq, Repr

/-- The characters written for a line, without the line end. -/
def Line.text : Line → String
  | .instr i => "    " ++ i.text
  | .label name => name ++ ":"
  | .comment text => "    # " ++ text

/-- The label that a label line defines. -/
def Line.labelDef : Line → Option String
  | .label name => some name
  | _ => none

/-- The label that a `beqz` or `j` line names as its target. -/
def Line.target : Line → Option String
  | .instr (.beqz _ target) => some target
  | .instr (.j target) => some target
  | _ => none

/-- Whether the line is a comment line. -/
def Line.isComment : Line → Bool
  | .comment _ => true
  | _ => false

/-- The labels defined in a text, in order. -/
def labelDefs (lines : List Line) : List String := lines.filterMap Line.labelDef

/-- The targets of the `beqz` and `j` lines of a text, in order. -/
def targets (lines : List Line) : List String := lines.filterMap Line.target

/-- The lines of a text that are not comments. -/
def codeLines (lines : List Line) : List Line := lines.filter (fun l => !l.isComment)

/-! ## The code generator (`codegen.h`, `codegen.cpp`) -/

/-- The struct `Symbol`. -/
structure Symbol where
  name : String
  type : String
  offset : Int
  isParam : Bool := false
  deriving DecidableEq, Repr

/-- The struct `FunctionInfo`. -/
structure FunctionInfo where
  name : String
  paramNames : List String := []
  paramTypes : List String := []
  returnType : String := ""
  localVarCount : Int := 0
  stackSize : Int := 0
  deriving DecidableEq, Repr

/-- The fields of the class `CodeGenerator`.  `output` is the list of the lines written so
far; `currentFunction`, a pointer to an entry of `functions`, is the key of that entry;
the maps are association lists in which the most recent binding of a key comes first;
`labelCounter` and `tempVarCounter` are of type `int`. -/
structure CodeGenerator where
  output : List Line := []
  symbolTable : List (String × Symbol) := []
  functions : List (String × FunctionInfo) := []
  currentFunction : Option String := none
  labelCounter : Int := 0
  tempVarCounter : Int := 0
  deriving Repr

/-- The width of `size_t`, the type of the loop index in `visitFuncCall`: 64 bits. -/
def sizeBits : Nat := 64

/-- The value of the `size_t` expression `-(i + 1) * 4` of lines 271 and 276: unsigned
arithmetic modulo `2 ^ sizeBits`. -/
def argOffset (i : Nat) : Nat :=
  ((2 ^ sizeBits - (i + 1) % 2 ^ sizeBits) % 2 ^ sizeBits * 4) % 2 ^ sizeBits

/-- The 32-bit two's-complement integer congruent to an integer: the value in
`[-2 ^ 31, 2 ^ 31)`. -/
def toInt32 (v : Int) : Int := (v + 2 ^ 31) % 2 ^ 32 - 2 ^ 31

/-- The text of a generated label: `prefix + "_" + std::to_string(counter)`, the counter
being an `int`. -/
def labelText (pre : String) (counter : Int) : String :=
  pre ++ "_" ++ toString counter

namespace CodeGenerator

/-- `emit(instruction)`. -/
def emit (g : CodeGenerator) (i : Instr) : CodeGenerator :=
  { g with output := g.output ++ [.instr i] }

/-- `emitLabel(label)`. -/
def emitLabel (g : CodeGenerator) (name : String) : CodeGenerator :=
  { g with output := g.output ++ [.label name] }

/-- `emitComment(comment)`. -/
def emitComment (g : CodeGenerator) (text : String) : CodeGenerator :=
  { g with output := g.output ++ [.comment text] }

/-- `generateLabel(prefix)`: the label and the generator with the counter advanced.  The
counter is a 32-bit `int`: `labelCounter++` at `2 ^ 31 - 1` wraps around to `-2 ^ 31`. -/
def generateLabel (g : CodeGenerator) (pre : String) : String × CodeGenerator :=
  (labelText pre g.labelCounter, { g with labelCounter := toInt32 (g.labelCounter + 1) })

/-- `generateFunctionPrologue`. -/
def generateFunctionPrologue (g : CodeGenerator) : CodeGenerator :=
  ((((g.emitComment "函数序言").emit (.addi "sp" "sp" (-16))).emit (.sw "ra" 12 "sp")).emit
    (.sw "s0" 8 "sp")).emit (.addi "s0" "sp" 16)

/-- `generateFunctionEpilogue`. -/
def generateFunctionEpilogue (g : CodeGenerator) : CodeGenerator :=
  ((((g.emitComment "函数尾声").emit (.lw "ra" 12 "sp")).emit (.lw "s0" 8 "sp")).emit
    (.addi "sp" "sp" 16)).emit .ret

/-- `generateArithmeticOp(op, result, lhs, rhs)`: nothing is emitted for an operator other
than `+ - * / %`. -/
def generateArithmeticOp (g : CodeGenerator) (op result lhs rhs : String) : CodeGenerator :=
  if op = "+" then g.emit (.add result lhs rhs)
  else if op = "-" then g.emit (.sub result lhs rhs)
  else if op = "*" then g.emit (.mul result lhs rhs)
  else if op = "/" then g.emit (.div result lhs rhs)
  else if op = "%" then g.emit (.rem result lhs rhs)
  else g

/-- `enterScope`: empty in the source. -/
def enterScope (g : CodeGenerator) : CodeGenerator := g

/-- `exitScope`: empty in the source. -/
def exitScope (g : CodeGenerator) : CodeGenerator := g

/-- `allocateStackSpace(size)`: the offset returned and the generator with the stack size
of the current function advanced; 0 when there is no current function. -/
def allocateStackSpace (g : CodeGenerator) (size : Int) : Int × CodeGenerator :=
  match g.currentFunction with
  | none => (0, g)
  | some name =>
      match g.functions.lookup name with
      | none => (0, g)
      | some info =>
          let info1 := { info with stackSize := info.stackSize + size }
          (-info1.stackSize, { g with functions := (name, info1) :: g.functions })

/-- The second loop of `visitFuncCall` (lines 275-277): the first eight arguments are
loaded into `a0` .. `a7`. -/
def loadArgs (g : CodeGenerator) (argc : Nat) : CodeGenerator :=
  (List.range (min argc 8)).foldl
    (fun g i => g.emit (.lw ("a" ++ toString i) (argOffset i) "sp")) g

mutual
/-- `visit(node)` for an expression node: `visitIntLiteral`, `visitVarRef`,
`visitBinaryExpr`, `visitUnaryExpr`, `visitFuncCall`. -/
def visitExpr (g : CodeGenerator) : Expr → CodeGenerator
  | .IntLiteral value =>
      (g.emitComment ("整数字面量: " ++ toString value)).emit (.li "a0" value)
  | .VarRef name =>
      let g1 := g.emitComment ("变量引用: " ++ name)
      match g1.symbolTable.lookup name with
      | some sym => g1.emit (.lw "a0" sym.offset "sp")
      | none => g1
  | .BinaryExpr op lhs rhs =>
      let g1 := g.emitComment ("二元表达式: " ++ op)
      let g2 := (visitExpr g1 lhs).emit (.mv "t0" "a0")
      let g3 := (visitExpr g2 rhs).emit (.mv "t1" "a0")
      g3.generateArithmeticOp op "a0" "t0" "t1"
  | .UnaryExpr op expr =>
      let g1 := g.emitComment ("一元表达式: " ++ op)
      let g2 := visitExpr g1 expr
      if op = "-" then g2.emit (.neg "a0" "a0")
      else if op = "!" then g2.emit (.seqz "a0" "a0")
      else g2
  | .FuncCall name args =>
      let g1 := g.emitComment ("函数调用: " ++ name)
      let g2 := visitArgs g1 0 args
      let g3 := g2.loadArgs args.length
      g3.emit (.call name)
/-- The first loop of `visitFuncCall` (lines 268-272), from index `i` on: each argument is
evaluated and stored. -/
def visitArgs (g : CodeGenerator) (i : Nat) : List Expr → CodeGenerator
  | [] => g
  | arg :: rest =>
      let g1 := (visitExpr g arg).emit (.sw "a0" (argOffset i) "sp")
      visitArgs g1 (i + 1) rest
end

mutual
/-- `visit(node)` for a statement node: `visitBlock`, `visitVarDecl`, `visitAssign`,
`visitIfStmt`, `visitWhileStmt`, `visitBreakStmt`, `visitContinueStmt`, `visitReturnStmt`,
`visitExprStmt`. -/
def visitStmt (g : CodeGenerator) : Stmt → CodeGenerator
  | .Block stmts => (visitStmts g.enterScope stmts).exitScope
  | .VarDecl type name initExpr =>
      let g1 := g.emitComment ("变量声明: " ++ name)
      let (offset, g2) := g1.allocateStackSpace 4
      let g3 := { g2 with symbolTable := (name, ⟨name, type, offset, false⟩) :: g2.symbolTable }
      match initExpr with
      | some e => (visitExpr g3 e).emit (.sw "a0" offset "sp")
      | none => g3
  | .Assign name expr =>
      let g1 := g.emitComment ("赋值: " ++ name)
      let g2 := visitExpr g1 expr
      match g2.symbolTable.lookup name with
      | some sym => g2.emit (.sw "a0" sym.offset "sp")
      | none => g2
  | .IfStmt cond thenStmt elseStmt =>
      let (elseLabel, g1) := g.generateLabel "else"
      let (endLabel, g2) := g1.generateLabel "endif"
      let g3 := g2.emitComment "if语句开始"
      let g4 := (visitExpr g3 cond).emit (.beqz "a0" elseLabel)
      let g5 := (visitStmt g4 thenStmt).emit (.j endLabel)
      let g6 := g5.emitLabel elseLabel
      let g7 := visitElse g6 elseStmt
      (g7.emitLabel endLabel).emitComment "if语句结束"
  | .WhileStmt cond body =>
      let (loopLabel, g1) := g.generateLabel "while"
      let (endLabel, g2) := g1.generateLabel "endwhile"
      let g3 := (g2.emitComment "while循环开始").emitLabel loopLabel
      let g4 := (visitExpr g3 cond).emit (.beqz "a0" endLabel)
      let g5 := (visitStmt g4 body).emit (.j loopLabel)
      (g5.emitLabel endLabel).emitComment "while循环结束"
  | .BreakStmt => g.emitComment "break语句"
  | .ContinueStmt => g.emitComment "continue语句"
  | .ReturnStmt expr =>
      let g1 := g.emitComment "return语句"
      let g2 := match expr with
        | some e => visitExpr g1 e
        | none => g1
      g2.generateFunctionEpilogue
  | .ExprStmt expr => visitExpr g expr
/-- The loop of `visitBlock` (lines 109-111). -/
def visitStmts (g : CodeGenerator) : List Stmt → CodeGenerator
  | [] => g
  | stmt :: rest => visitStmts (visitStmt g stmt) rest
/-- Lines 162-164: the else branch, when there is one. -/
def visitElse (g : CodeGenerator) : Option Stmt → CodeGenerator
  | none => g
  | some s => visitStmt g s
end

/-- `visitFunctionDef`. -/
def visitFunctionDef (g : CodeGenerator) (node : FunctionDef) : CodeGenerator :=
  let g1 := (g.emit (.directive "")).emitComment ("函数定义: " ++ node.name)
  let funcInfo : FunctionInfo :=
    { name := node.name, returnType := node.retType,
      paramNames := node.params.map (·.2), paramTypes := node.params.map (·.1) }
  let g2 := { g1 with functions := (node.name, funcInfo) :: g1.functions,
                      currentFunction := some node.name }
  let g3 := g2.emitLabel node.name
  let g4 := g3.generateFunctionPrologue
  let g5 := visitStmt g4 node.body
  let g6 := g5.generateFunctionEpilogue
  { g6 with currentFunction := none }

/-- `visitProgram`. -/
def visitProgram (g : CodeGenerator) (node : Program) : CodeGenerator :=
  ((node.functions.foldl visitFunctionDef (g.emitComment "程序开始"))).emitComment "程序结束"

/-- The constructor: the counters at 0 and the file header written. -/
def init : CodeGenerator :=
  ((((((({} : CodeGenerator).emitComment "RISC-V 32位汇编代码").emitComment
    "由ToyC编译器生成").emit (.directive "")).emit (.directive ".text")).emit
    (.directive ".globl main")).emit (.directive ""))

/-- `generate(node)` on a `Program` root. -/
def generate (g : CodeGenerator) (node : Program) : CodeGenerator :=
  g.visitProgram node

end CodeGenerator

/-- The lines of the output file of `main.cpp` for a program: a generator is constructed
and `generate` is called on the tree. -/
def compile (prog : Program) : List Line :=
  (CodeGenerator.init.generate prog).output

/-! ## The meaning of straight-line code -/

/-- A register file: the 32-bit value of each register, by name. -/
abbrev Regs := String → Nat

/-- The 32-bit word of an integer: its value modulo `2 ^ 32`. -/
def wrap32 (v : Int) : Nat := (v % 2 ^ 32).toNat

/-- Writing a value to a register, with 32-bit wrap-around. -/
def Regs.write (r : Regs) (rd : String) (v : Int) : Regs :=
  fun x => if x = rd then wrap32 v else r x

/-- The effect on the registers of the RISC-V instructions `li`, `mv`, `neg`, `seqz`,
`add`, `sub` and `mul`; the other instructions are not interpreted. -/
def Instr.exec (r : Regs) : Instr → Regs
  | .li rd imm => r.write rd imm
  | .mv rd rs => r.write rd (r rs)
  | .neg rd rs => r.write rd (-(r rs : Int))
  | .seqz rd rs => r.write rd (if r rs = 0 then 1 else 0)
  | .add rd rs1 rs2 => r.write rd ((r rs1 : Int) + r rs2)
  | .sub rd rs1 rs2 => r.write rd ((r rs1 : Int) - r rs2)
  | .mul rd rs1 rs2 => r.write rd ((r rs1 : Int) * r rs2)
  | _ => r

/-- Executing the lines of a text in order; labels and comments do nothing. -/
def run (r : Regs) : List Line → Regs
  | [] => r
  | .instr i :: rest => run (i.exec r) rest
  | _ :: rest => run r rest

/-- The value of an expression built from integer literals, unary `-` and `!`, and
binary `+`, `-`, `*`, over the integers; 0 for every other expression. -/
def exprValue : Expr → Int
  | .IntLiteral value => value
  | .UnaryExpr op expr =>
      if op = "-" then -exprValue expr
      else if op = "!" then (if exprValue expr = 0 then 1 else 0)
      else 0
  | .BinaryExpr op lhs rhs =>
      if op = "+" then exprValue lhs + exprValue rhs
      else if op = "-" then exprValue lhs - exprValue rhs
      else if op = "*" then exprValue lhs * exprValue rhs
      else 0
  | _ => 0

/-- The lines that the code generator, in the state `g`, emits for an expression. -/
def exprCode (g : CodeGenerator) (e : Expr) : List Line :=
  (g.visitExpr e).output.drop g.output.length

/-- The lines that the code generator, in the state `g`, emits for a statement. -/
def stmtCode (g : CodeGenerator) (s : Stmt) : List Line :=
  (g.visitStmt s).output.drop g.output.length

/-! ## The lines emitted for an expression, as a function of the symbol table -/

/-- Appending lines to the output, every other field unchanged. -/
def CodeGenerator.write (g : CodeGenerator) (lines : List Line) : CodeGenerator :=
  { g with output := g.output ++ lines }

/-- The lines of `generateArithmeticOp(op, "a0", "t0", "t1")`. -/
def arithLines (op : String) : List Line :=
  if op = "+" then [.instr (.add "a0" "t0" "t1")]
  else if op = "-" then [.instr (.sub "a0" "t0" "t1")]
  else if op = "*" then [.instr (.mul "a0" "t0" "t1")]
  else if op = "/" then [.instr (.div "a0" "t0" "t1")]
  else if op = "%" then [.instr (.rem "a0" "t0" "t1")]
  else []

/-- The lines of the second loop of `visitFuncCall` for `argc` arguments. -/
def loadLines (argc : Nat) : List Line :=
  (List.range (min argc 8)).map
    (fun i => Line.instr (.lw ("a" ++ toString i) (argOffset i) "sp"))

/-- The lines that `visitUnaryExpr` emits after the operand. -/
def unaryLines (op : String) : List Line :=
  if op = "-" then [.instr (.neg "a0" "a0")]
  else if op = "!" then [.instr (.seqz "a0" "a0")]
  else []

mutual
/-- The lines that `visitExpr` appends for an expression, given the symbol table. -/
def exprLines (st : List (String × Symbol)) : Expr → List Line
  | .IntLiteral value =>
      [.comment ("整数字面量: " ++ toString value), .instr (.li "a0" value)]
  | .VarRef name =>
      .comment ("变量引用: " ++ name) ::
        (match st.lookup name with
         | some sym => [.instr (.lw "a0" sym.offset "sp")]
         | none => [])
  | .BinaryExpr op lhs rhs =>
      .comment ("二元表达式: " ++ op) :: (exprLines st lhs ++ .instr (.mv "t0" "a0") ::
        (exprLines st rhs ++ .instr (.mv "t1" "a0") :: arithLines op))
  | .UnaryExpr op expr =>
      .comment ("一元表达式: " ++ op) :: (exprLines st expr ++ unaryLines op)
  | .FuncCall name args =>
      .comment ("函数调用: " ++ name) ::
        (argsLines st 0 args ++ (loadLines args.length ++ [.instr (.call name)]))
/-- The lines that `visitArgs` appends for the arguments from index `i` on. -/
def argsLines (st : List (String × Symbol)) (i : Nat) : List Expr → List Line
  | [] => []
  | arg :: rest =>
      exprLines st arg ++ .instr (.sw "a0" (argOffset i) "sp") :: argsLines st (i + 1) rest
end

/-! ## Sample programs for the code generator -/

/-- `int main(){ while (1) { break; } return 0; }` -/
def progWhileBreak : Program :=
  ⟨[⟨"int", "main", [],
      .Block [.WhileStmt (.IntLiteral 1) (.Block [.BreakStmt]),
        .ReturnStmt (some (.IntLiteral 0))]⟩]⟩

/-- `int main(){ while (1) { continue; } return 0; }` -/
def progWhileContinue : Program :=
  ⟨[⟨"int", "main", [],
      .Block [.WhileStmt (.IntLiteral 1) (.Block [.ContinueStmt]),
        .ReturnStmt (some (.IntLiteral 0))]⟩]⟩

/-- `1 - (2 - 3)` -/
def exprNestedRight : Expr :=
  .BinaryExpr "-" (.IntLiteral 1) (.BinaryExpr "-" (.IntLiteral 2) (.IntLiteral 3))

/-- `2 < 1` -/
def exprLess : Expr := .BinaryExpr "<" (.IntLiteral 2) (.IntLiteral 1)

/-- `0 && 1` -/
def exprAnd : Expr := .BinaryExpr "&&" (.IntLiteral 0) (.IntLiteral 1)

/-- `int main(){ int x = 1; return x; }` -/
def progOneLocal : Program :=
  ⟨[⟨"int", "main", [],
      .Block [.VarDecl "int" "x" (some (.IntLiteral 1)), .ReturnStmt (some (.VarRef "x"))]⟩]⟩

/-- `int f(int a, int b){ return a; }` -/
def funcFTwoParams : FunctionDef :=
  ⟨"int", "f", [("int", "a"), ("int", "b")], .Block [.ReturnStmt (some (.VarRef "a"))]⟩

/-- `int f(int a, int b){ return a; } int main(){ int x = 5; return f(1, x); }` -/
def progArgClobber : Program :=
  ⟨[funcFTwoParams,
    ⟨"int", "main", [],
      .Block [.VarDecl "int" "x" (some (.IntLiteral 5)),
        .ReturnStmt (some (.FuncCall "f" [.IntLiteral 1, .VarRef "x"]))]⟩]⟩

/-- `f(1, g(2))` -/
def exprNestedCall : Expr := .FuncCall "f" [.IntLiteral 1, .FuncCall "g" [.IntLiteral 2]]

/-- `int g(int a){ return a; } int f(int a, int b){ return a; }
int main(){ return f(1, g(2)); }` -/
def progNestedCall : Program :=
  ⟨[⟨"int", "g", [("int", "a")], .Block [.ReturnStmt (some (.VarRef "a"))]⟩,
    funcFTwoParams,
    ⟨"int", "main", [],
      .Block [.ReturnStmt (some exprNestedCall)]⟩]⟩

/-- `int f(int a1, int a2, int a3, int a4, int a5, int a6, int a7, int a8, int a9)
{ return a9; } int main(){ return f(1, 2, 3, 4, 5, 6, 7, 8, 9); }` -/
def progNineArgs : Program :=
  ⟨[⟨"int", "f",
      [("int", "a1"), ("int", "a2"), ("int", "a3"), ("int", "a4"), ("int", "a5"),
        ("int", "a6"), ("int", "a7"), ("int", "a8"), ("int", "a9")],
      .Block [.ReturnStmt (some (.VarRef "a9"))]⟩,
    ⟨"int", "main", [],
      .Block [.ReturnStmt (some (.FuncCall "f"
        [.IntLiteral 1, .IntLiteral 2, .IntLiteral 3, .IntLiteral 4, .IntLiteral 5,
          .IntLiteral 6, .IntLiteral 7, .IntLiteral 8, .IntLiteral 9]))]⟩]⟩

/-- `int f(int a){ return a; } int main(){ return f(1); }` -/
def progParamRef : Program :=
  ⟨[⟨"int", "f", [("int", "a")], .Block [.ReturnStmt (some (.VarRef "a"))]⟩,
    ⟨"int", "main", [], .Block [.ReturnStmt (some (.FuncCall "f" [.IntLiteral 1]))]⟩]⟩

/-- `int while_0(){ return 0; } int main(){ while (0) { } return 0; }` -/
def progLabelClash : Program :=
  ⟨[⟨"int", "while_0", [], .Block [.ReturnStmt (some (.IntLiteral 0))]⟩,
    ⟨"int", "main", [],
      .Block [.WhileStmt (.IntLiteral 0) (.Block []), .ReturnStmt (some (.IntLiteral 0))]⟩]⟩

/-- The address of the word at `offset(sp)` on a 32-bit machine. -/
def slotAddr (sp : Nat) (offset : Int) : Int := ((sp : Int) + offset) % 2 ^ 32

/-- `int main(){ return e; }` for an expression `e`. -/
def progReturning (e : Expr) : Program :=
  ⟨[⟨"int", "main", [], .Block [.ReturnStmt (some e)]⟩]⟩

/-- `int main(){ return 1 - (2 - 3); }` -/
def progNestedRight : Program := progReturning exprNestedRight

/-- `int main(){ int a = 1; int b = 2; int c = 3; int d = 4; int e = 5; return e; }` -/
def progFiveLocals : Program :=
  ⟨[⟨"int", "main", [],
      .Block [.VarDecl "int" "a" (some (.IntLiteral 1)), .VarDecl "int" "b" (some (.IntLiteral 2)),
        .VarDecl "int" "c" (some (.IntLiteral 3)), .VarDecl "int" "d" (some (.IntLiteral 4)),
        .VarDecl "int" "e" (some (.IntLiteral 5)), .ReturnStmt (some (.VarRef "e"))]⟩]⟩

/-- `int f(int a){ a = 2; return 0; } int main(){ return f(1); }` -/
def progParamAssign : Program :=
  ⟨[⟨"int", "f", [("int", "a")],
      .Block [.Assign "a" (.IntLiteral 2), .ReturnStmt (some (.IntLiteral 0))]⟩,
    ⟨"int", "main", [], .Block [.ReturnStmt (some (.FuncCall "f" [.IntLiteral 1]))]⟩]⟩

/-- The offsets of the symbols of a symbol table, most recent first. -/
def offsetsOf (st : List (String × Symbol)) : List Int := st.map (fun p => p.2.offset)


/-! ## The labels of a text, as a function of the tree -/

/-- The prefixes that `visitIfStmt` and `visitWhileStmt` pass to `generateLabel`. -/
def genPrefixes : List String := ["else", "endif", "while", "endwhile"]

/-- The text of the generated label with a given prefix and a counter value that is not
negative. -/
def genLabel (p : String × Nat) : String := labelText p.1 (p.2 : Int)

/-- The number that a list of decimal digit characters denotes. -/
def digitsValue (cs : List Char) : Nat :=
  cs.foldl (fun acc c => acc * 10 + (c.toNat - 48)) 0

mutual
/-- The number of calls of `generateLabel` while a statement is visited. -/
def stmtLabelCount : Stmt → Nat
  | .Block stmts => stmtsLabelCount stmts
  | .IfStmt _ thenStmt elseStmt => 2 + stmtLabelCount thenStmt + elseLabelCount elseStmt
  | .WhileStmt _ body => 2 + stmtLabelCount body
  | _ => 0
/-- The same for the statements of a block. -/
def stmtsLabelCount : List Stmt → Nat
  | [] => 0
  | stmt :: rest => stmtLabelCount stmt + stmtsLabelCount rest
/-- The same for an else branch. -/
def elseLabelCount : Option Stmt → Nat
  | none => 0
  | some s => stmtLabelCount s
end

mutual
/-- The generated labels that the text of a statement defines, in the order of the text,
when the label counter is `k` before the statement: prefix and counter value of each. -/
def stmtLabels (k : Nat) : Stmt → List (String × Nat)
  | .Block stmts => stmtsLabels k stmts
  | .IfStmt _ thenStmt elseStmt =>
      stmtLabels (k + 2) thenStmt ++ ("else", k) ::
        (elseLabels (k + 2 + stmtLabelCount thenStmt) elseStmt ++ [("endif", k + 1)])
  | .WhileStmt _ body => ("while", k) :: (stmtLabels (k + 2) body ++ [("endwhile", k + 1)])
  | _ => []
/-- The same for the statements of a block. -/
def stmtsLabels (k : Nat) : List Stmt → List (String × Nat)
  | [] => []
  | stmt :: rest => stmtLabels k stmt ++ stmtsLabels (k + stmtLabelCount stmt) rest
/-- The same for an else branch. -/
def elseLabels (k : Nat) : Option Stmt → List (String × Nat)
  | none => []
  | some s => stmtLabels k s
end

mutual
/-- The targets of the `beqz` and `j` lines of the text of a statement, in the order of the
text, when the label counter is `k` before the statement. -/
def stmtTargets (k : Nat) : Stmt → List (String × Nat)
  | .Block stmts => stmtsTargets k stmts
  | .IfStmt _ thenStmt elseStmt =>
      ("else", k) :: (stmtTargets (k + 2) thenStmt ++ ("endif", k + 1) ::
        elseTargets (k + 2 + stmtLabelCount thenStmt) elseStmt)
  | .WhileStmt _ body => ("endwhile", k + 1) :: (stmtTargets (k + 2) body ++ [("while", k)])
  | _ => []
/-- The same for the statements of a block. -/
def stmtsTargets (k : Nat) : List Stmt → List (String × Nat)
  | [] => []
  | stmt :: rest => stmtTargets k stmt ++ stmtsTargets (k + stmtLabelCount stmt) rest
/-- The same for an else branch. -/
def elseTargets (k : Nat) : Option Stmt → List (String × Nat)
  | none => []
  | some s => stmtTargets k s
end

/-- The generated labels of the bodies of a list of functions compiled in order, when the
label counter is `k` before the first. -/
def funcsLabels (k : Nat) : List FunctionDef → List (String × Nat)
  | [] => []
  | f :: rest => stmtLabels k f.body ++ funcsLabels (k + stmtLabelCount f.body) rest

/-- The lines that the code generator, in the state `g`, emits for a function. -/
def funcText (g : CodeGenerator) (f : FunctionDef) : List Line :=
  (g.visitFunctionDef f).output.drop g.output.length

/-- The texts of the functions of a list compiled in order from the state `g`. -/
def funcTexts (g : CodeGenerator) : List FunctionDef → List (List Line)
  | [] => []
  | f :: rest => funcText g f :: funcTexts (g.visitFunctionDef f) rest

/-- The texts of the functions of a program, as `generate` emits them. -/
def functionTexts (prog : Program) : List (List Line) :=
  funcTexts (CodeGenerator.init.emitComment "程序开始") prog.functions

/-- The generator `g1` is `g` after appending lines that define the labels `defs`, branch
to the targets `tgts`, and after `n` calls of `generateLabel` none of which has wrapped the
counter around. -/
def LabelStep (g g1 : CodeGenerator) (defs tgts : List String) (n : Nat) : Prop :=
  ∃ lines, g1.output = g.output ++ lines ∧ labelDefs lines = defs ∧ targets lines = tgts ∧
    g1.labelCounter = g.labelCounter + n

/-- The label counter after `n` calls of `generateLabel` from the value `k`. -/
def counterAfter (k : Int) : Nat → Int
  | 0 => k
  | n + 1 => toInt32 (counterAfter k n + 1)

/-- The generator `g1` is `g` after `n` calls of `generateLabel`, as far as the label counter
is concerned. -/
def CounterStep (g g1 : CodeGenerator) (n : Nat) : Prop :=
  g1.labelCounter = counterAfter g.labelCounter n

/-- The number of calls of `generateLabel` while the functions of a list are visited. -/
def funcsLabelCount : List FunctionDef → Nat
  | [] => 0
  | f :: rest => stmtLabelCount f.body + funcsLabelCount rest


/-! ## The state at the body of a loop -/

/-- The state of the generator when `visitWhileStmt` visits the body of the loop: the two
labels generated, the opening comment, the loop label, the code of the condition and the
`beqz` written. -/
def CodeGenerator.atWhileBody (g : CodeGenerator) (cond : Expr) : CodeGenerator :=
  let (loopLabel, g1) := g.generateLabel "while"
  let (endLabel, g2) := g1.generateLabel "endwhile"
  let g3 := (g2.emitComment "while循环开始").emitLabel loopLabel
  (g3.visitExpr cond).emit (.beqz "a0" endLabel)

/-! ## Prologue, epilogue and the returns of a function -/

/-- The lines written by `generateFunctionPrologue`. -/
def prologueLines : List Line :=
  [.comment "函数序言", .instr (.addi "sp" "sp" (-16)), .instr (.sw "ra" 12 "sp"),
   .instr (.sw "s0" 8 "sp"), .instr (.addi "s0" "sp" 16)]

/-- The lines written by `generateFunctionEpilogue`. -/
def epilogueLines : List Line :=
  [.comment "函数尾声", .instr (.lw "ra" 12 "sp"), .instr (.lw "s0" 8 "sp"),
   .instr (.addi "sp" "sp" 16), .instr .ret]

mutual
/-- The number of `ReturnStmt` nodes of a statement. -/
def returnCount : Stmt → Nat
  | .Block stmts => returnsCount stmts
  | .IfStmt _ thenStmt elseStmt => returnCount thenStmt + elseReturnCount elseStmt
  | .WhileStmt _ body => returnCount body
  | .ReturnStmt _ => 1
  | _ => 0
/-- The same for the statements of a block. -/
def returnsCount : List Stmt → Nat
  | [] => 0
  | stmt :: rest => returnCount stmt + returnsCount rest
/-- The same for an else branch. -/
def elseReturnCount : Option Stmt → Nat
  | none => 0
  | some s => returnCount s
end

/-- The number of `ret` instructions of a text. -/
def retCount (lines : List Line) : Nat := lines.count (.instr .ret)

/-- A line that neither returns nor writes the stack pointer. -/
def isPlain : Line → Bool
  | .instr .ret => false
  | .instr (.addi rd _ _) => rd != "sp"
  | _ => true

/-- The offsets of the `sw reg, off(sp)` lines of a text. -/
def storedAt (reg : String) (lines : List Line) : List Int :=
  lines.filterMap fun
    | .instr (.sw rs offset base) => if rs = reg ∧ base = "sp" then some offset else none
    | _ => none

/-- The offsets of the `lw reg, off(sp)` lines of a text. -/
def loadedFrom (reg : String) (lines : List Line) : List Int :=
  lines.filterMap fun
    | .instr (.lw rd offset base) => if rd = reg ∧ base = "sp" then some offset else none
    | _ => none

/-- The sum of the immediates of the `addi sp, sp, imm` lines of a text. -/
def spAdjust (lines : List Line) : Int :=
  (lines.filterMap fun
    | .instr (.addi rd rs imm) => if rd = "sp" ∧ rs = "sp" then some imm else none
    | _ => none).sum

/-- A text made of `n` segments of plain lines, each closed by the epilogue, and a rest of
plain lines. -/
def Framed (n : Nat) (lines : List Line) : Prop :=
  ∃ (segs : List (List Line)) (rest : List Line),
    segs.length = n ∧ segs.all (fun s => s.all isPlain) = true ∧ rest.all isPlain = true ∧
      lines = (segs.map (· ++ epilogueLines)).flatten ++ rest

/-- The generator `g1` is `g` after appending a text of `n` closed segments. -/
def FramedStep (g g1 : CodeGenerator) (n : Nat) : Prop :=
  ∃ lines, g1.output = g.output ++ lines ∧ Framed n lines

/-- The state of the generator when `visitFunctionDef` visits the body of the function: the
function recorded and made current, its label and the prologue written. -/
def CodeGenerator.atFunctionBody (g : CodeGenerator) (node : FunctionDef) : CodeGenerator :=
  let g1 := (g.emit (.directive "")).emitComment ("函数定义: " ++ node.name)
  let funcInfo : FunctionInfo :=
    { name := node.name, returnType := node.retType,
      paramNames := node.params.map (·.2), paramTypes := node.params.map (·.1) }
  let g2 := { g1 with functions := (node.name, funcInfo) :: g1.functions,
                      currentFunction := some node.name }
  (g2.emitLabel node.name).generateFunctionPrologue

/-! ## The value of an expression in 32-bit arithmetic -/

theorem failIf_eq_ok {c : Bool} {e : SemanticError} {u : Unit} :
    failIf c e = .ok u ↔ c = false := by
  cases c <;> simp [failIf]

theorem failIf_eq_error {c : Bool} {e e1 : SemanticError} :
    failIf c e = .error e1 ↔ c = true ∧ e1 = e := by
  cases c <;> simp [failIf, eq_comm]

theorem failIf_false {e : SemanticError} : failIf false e = .ok () := rfl

theorem failIf_true {e : SemanticError} : failIf true e = .error e := rfl

theorem bind_eq_ok {α β : Type} {x : Check α} {f : α → Check β} {b : β} :
    (x >>= f) = .ok b ↔ ∃ a, x = .ok a ∧ f a = .ok b := by
  cases x with
  | error e => simp [bind, Except.bind]
  | ok a => simp [bind, Except.bind]

theorem bind_eq_error {α β : Type} {x : Check α} {f : α → Check β} {e : SemanticError} :
    (x >>= f) = .error e ↔ x = .error e ∨ ∃ a, x = .ok a ∧ f a = .error e := by
  cases x with
  | error e1 => simp [bind, Except.bind]
  | ok a => simp [bind, Except.bind]

theorem ok_bind {α β : Type} (a : α) (f : α → Check β) :
    ((Except.ok a : Check α) >>= f) = f a := rfl

theorem error_bind {α β : Type} (e : SemanticError) (f : α → Check β) :
    ((Except.error e : Check α) >>= f) = .error e := rfl

theorem pure_eq_ok {α : Type} (a : α) : (pure a : Check α) = .ok a := rfl

theorem rejected_iff {α : Type} (x : Check α) : x.rejected = true ↔ ∃ e, x = .error e := by
  cases x <;> simp [Check.rejected]

theorem accepted_iff {α : Type} (x : Check α) : x.accepted = true ↔ ∃ a, x = .ok a := by
  cases x <;> simp [Check.accepted]

theorem rejected_eq_not_accepted {α : Type} (x : Check α) : x.rejected = !x.accepted := by
  cases x <;> rfl

theorem not_ok_of_rejected {α : Type} {x : Check α} (h : ∀ a, x ≠ .ok a) :
    x.rejected = true := by
  cases x with
  | error e => rfl
  | ok a => exact absurd rfl (h a)

/-! ## What a statement leaves unchanged in the context -/

theorem sameFunc_refl (c : SemanticContext) : SameFunc c c := ⟨rfl, rfl, rfl, rfl⟩

theorem sameFunc_trans {a b c : SemanticContext} (h1 : SameFunc a b) (h2 : SameFunc b c) :
    SameFunc a c :=
  ⟨h1.1.trans h2.1, h1.2.1.trans h2.2.1, h1.2.2.1.trans h2.2.2.1, h1.2.2.2.trans h2.2.2.2⟩

theorem sameFunc_symm {a b : SemanticContext} (h : SameFunc a b) : SameFunc b a :=
  ⟨h.1.symm, h.2.1.symm, h.2.2.1.symm, h.2.2.2.symm⟩

theorem keeps_refl (c : SemanticContext) : Keeps c c := ⟨sameFunc_refl c, rfl, rfl, rfl, rfl⟩

theorem keeps_trans {a b c : SemanticContext} (h1 : Keeps a b) (h2 : Keeps b c) : Keeps a c :=
  ⟨sameFunc_trans h1.1 h2.1, h2.2.1.trans h1.2.1, h2.2.2.1.trans h1.2.2.1,
    h2.2.2.2.1.trans h1.2.2.2.1, h2.2.2.2.2.trans h1.2.2.2.2⟩

theorem keeps_declareVar (c : SemanticContext) (n : String) : Keeps c (c.declareVar n) := by
  unfold SemanticContext.declareVar
  cases h : c.varScopes with
  | nil => simp [Keeps, SameFunc, h]
  | cons s rest => simp [Keeps, SameFunc, h]

mutual
theorem checkStmt_keeps : ∀ (s : Stmt) (ctx ctx1 : SemanticContext),
    checkStmt ctx s = .ok ctx1 → Keeps ctx ctx1
  | .Block stmts, ctx, ctx1, h => by
      simp only [checkStmt, bind_eq_ok, pure_eq_ok, Except.ok.injEq] at h
      obtain ⟨c, hc, rfl⟩ := h
      have := checkStmts_keeps stmts _ _ hc
      obtain ⟨h1, h2, h3, h4, h5⟩ := this
      refine ⟨h1, h2, ?_, ?_, h5⟩
      · simp only [SemanticContext.leaveScope, SemanticContext.enterScope] at *
        simp only [List.tail_cons] at h3
        rw [h3]
      · simp only [SemanticContext.leaveScope, SemanticContext.enterScope] at *
        simp only [List.length_tail, h4, List.length_cons]
        omega
  | .VarDecl _ name initExpr, ctx, ctx1, h => by
      simp only [checkStmt, bind_eq_ok, pure_eq_ok, Except.ok.injEq] at h
      obtain ⟨_, _, _, _, rfl⟩ := h
      exact keeps_declareVar ctx name
  | .Assign name expr, ctx, ctx1, h => by
      simp only [checkStmt, bind_eq_ok, pure_eq_ok, Except.ok.injEq] at h
      obtain ⟨_, _, _, _, rfl⟩ := h
      exact keeps_refl _
  | .ReturnStmt expr, ctx, ctx1, h => by
      simp only [checkStmt, bind_eq_ok, pure_eq_ok, Except.ok.injEq] at h
      obtain ⟨_, _, _, _, _, _, rfl⟩ := h
      exact ⟨⟨rfl, rfl, rfl, rfl⟩, rfl, rfl, rfl, rfl⟩
  | .ExprStmt expr, ctx, ctx1, h => by
      simp only [checkStmt, bind_eq_ok, pure_eq_ok, Except.ok.injEq] at h
      obtain ⟨_, _, rfl⟩ := h
      exact keeps_refl _
  | .IfStmt cond thenStmt elseStmt, ctx, ctx1, h => by
      simp only [checkStmt, bind_eq_ok, pure_eq_ok, Except.ok.injEq] at h
      obtain ⟨_, _, c, hc, he⟩ := h
      exact keeps_trans (checkStmt_keeps thenStmt _ _ hc) (checkElse_keeps elseStmt _ _ he)
  | .WhileStmt cond body, ctx, ctx1, h => by
      simp only [checkStmt, bind_eq_ok, pure_eq_ok, Except.ok.injEq] at h
      obtain ⟨_, _, c, hc, rfl⟩ := h
      obtain ⟨h1, _, h3, h4, h5⟩ := checkStmt_keeps body _ _ hc
      exact ⟨h1, rfl, h3, h4, h5⟩
  | .BreakStmt, ctx, ctx1, h => by
      simp only [checkStmt, bind_eq_ok, pure_eq_ok, Except.ok.injEq] at h
      obtain ⟨_, _, rfl⟩ := h
      exact keeps_refl _
  | .ContinueStmt, ctx, ctx1, h => by
      simp only [checkStmt, bind_eq_ok, pure_eq_ok, Except.ok.injEq] at h
      obtain ⟨_, _, rfl⟩ := h
      exact keeps_refl _
theorem checkStmts_keeps : ∀ (ss : List Stmt) (ctx ctx1 : SemanticContext),
    checkStmts ctx ss = .ok ctx1 → Keeps ctx ctx1
  | [], ctx, ctx1, h => by
      simp only [checkStmts, pure_eq_ok, Except.ok.injEq] at h
      subst h
      exact keeps_refl _
  | s :: rest, ctx, ctx1, h => by
      simp only [checkStmts, bind_eq_ok] at h
      obtain ⟨c, hc, hr⟩ := h
      exact keeps_trans (checkStmt_keeps s _ _ hc) (checkStmts_keeps rest _ _ hr)
theorem checkElse_keeps : ∀ (o : Option Stmt) (ctx ctx1 : SemanticContext),
    checkElse ctx o = .ok ctx1 → Keeps ctx ctx1
  | none, ctx, ctx1, h => by
      simp only [checkElse, pure_eq_ok, Except.ok.injEq] at h
      subst h
      exact keeps_refl _
  | some s, ctx, ctx1, h => by
      simp only [checkElse] at h
      exact checkStmt_keeps s _ _ h
end

/-! ## The two passes of `analyze` -/

theorem sameGlobal_refl (c : SemanticContext) : SameGlobal c c := ⟨rfl, rfl, rfl, rfl, rfl⟩

theorem sameGlobal_trans {a b c : SemanticContext} (h1 : SameGlobal a b)
    (h2 : SameGlobal b c) : SameGlobal a c :=
  ⟨h2.1.trans h1.1, h2.2.1.trans h1.2.1, h2.2.2.1.trans h1.2.2.1,
    h2.2.2.2.1.trans h1.2.2.2.1, h2.2.2.2.2.trans h1.2.2.2.2⟩

theorem declareParams_keeps : ∀ (ps : List (String × String)) (ctx ctx1 : SemanticContext),
    declareParams ctx ps = .ok ctx1 → Keeps ctx ctx1
  | [], ctx, ctx1, h => by
      simp only [declareParams, pure_eq_ok, Except.ok.injEq] at h
      subst h
      exact keeps_refl _
  | p :: rest, ctx, ctx1, h => by
      simp only [declareParams, bind_eq_ok] at h
      obtain ⟨_, _, hr⟩ := h
      exact keeps_trans (keeps_declareVar ctx p.2) (declareParams_keeps rest _ _ hr)

theorem checkFunction_eq_ok {ctx ctx1 : SemanticContext} {func : FunctionDef} :
    checkFunction ctx func = .ok ctx1 ↔
      ∃ c2 c3, declareParams (funcEntry ctx func) func.params = .ok c2 ∧
        checkStmt c2 func.body = .ok c3 ∧
        (func.retType = "int" → checkAllPathsReturn func.body = true) ∧
        ctx1 = c3.leaveScope := by
  simp only [checkFunction, funcEntry, bind_eq_ok, pure_eq_ok, Except.ok.injEq,
    failIf_eq_ok, Bool.and_eq_false_imp, beq_iff_eq, Bool.not_eq_false_eq_eq_true]
  constructor
  · rintro ⟨c2, h2, c3, h3, _, h4, h5⟩
    exact ⟨c2, c3, h2, h3, h4, h5.symm⟩
  · rintro ⟨c2, c3, h2, h3, h4, h5⟩
    exact ⟨c2, h2, c3, h3, (), h4, h5.symm⟩

theorem checkFunction_sameGlobal {ctx ctx1 : SemanticContext} {func : FunctionDef}
    (h : checkFunction ctx func = .ok ctx1) : SameGlobal ctx ctx1 := by
  obtain ⟨c2, c3, h2, h3, _, rfl⟩ := checkFunction_eq_ok.1 h
  have k := keeps_trans (declareParams_keeps _ _ _ h2) (checkStmt_keeps _ _ _ h3)
  obtain ⟨⟨a1, a2, _, _⟩, a3, a4, _, a5⟩ := k
  refine ⟨a1.symm, a2.symm, a5, a3, ?_⟩
  simp only [SemanticContext.leaveScope, a4, funcEntry, SemanticContext.enterScope,
    List.tail_cons]

/-- Every function of an accepted list was checked, in a context that differs from the
initial one only in the per-function fields. -/
theorem checkFunctions_mem : ∀ (fs : List FunctionDef) (ctx ctx1 : SemanticContext),
    checkFunctions ctx fs = .ok ctx1 → ∀ f ∈ fs,
      ∃ c c1, SameGlobal ctx c ∧ checkFunction c f = .ok c1
  | [], _, _, _, f, hf => by simp at hf
  | g :: rest, ctx, ctx1, h, f, hf => by
      simp only [checkFunctions, bind_eq_ok] at h
      obtain ⟨c, hc, hr⟩ := h
      rcases List.mem_cons.1 hf with rfl | hf
      · exact ⟨ctx, c, sameGlobal_refl _, hc⟩
      · obtain ⟨c2, c3, hg, h3⟩ := checkFunctions_mem rest c ctx1 hr f hf
        exact ⟨c2, c3, sameGlobal_trans (checkFunction_sameGlobal hc) hg, h3⟩

theorem checkFunctions_sameGlobal : ∀ (fs : List FunctionDef) (ctx ctx1 : SemanticContext),
    checkFunctions ctx fs = .ok ctx1 → SameGlobal ctx ctx1
  | [], ctx, ctx1, h => by
      simp only [checkFunctions, pure_eq_ok, Except.ok.injEq] at h
      subst h
      exact sameGlobal_refl _
  | g :: rest, ctx, ctx1, h => by
      simp only [checkFunctions, bind_eq_ok] at h
      obtain ⟨c, hc, hr⟩ := h
      exact sameGlobal_trans (checkFunction_sameGlobal hc) (checkFunctions_sameGlobal rest _ _ hr)

theorem analyze_eq_ok {prog : Program} :
    analyze prog = .ok () ↔
      ∃ ctx1 n c, registerFunctions ({}, 0, 0) prog.functions = .ok (ctx1, 1, n) ∧
        checkFunctions ctx1 prog.functions = .ok c := by
  simp only [analyze, bind_eq_ok, pure_eq_ok, failIf_eq_ok, Prod.exists]
  constructor
  · rintro ⟨ctx1, mc, n, h1, _, h2, c, h3, _⟩
    simp only [bne_eq_false_iff_eq] at h2
    subst h2
    exact ⟨ctx1, n, c, h1, h3⟩
  · rintro ⟨ctx1, n, c, h1, h3⟩
    exact ⟨ctx1, 1, n, h1, (), by simp, c, h3, trivial⟩

theorem analyze_accepted_iff (prog : Program) :
    (analyze prog).accepted = true ↔ analyze prog = .ok () := by
  cases analyze prog <;> simp [Check.accepted]

theorem analyze_rejected_iff (prog : Program) :
    (analyze prog).rejected = true ↔ analyze prog ≠ .ok () := by
  cases analyze prog <;> simp [Check.rejected]

/-! ## All-paths-return -/

mutual
theorem checkAllPathsReturn_sound : ∀ (s : Stmt),
    checkAllPathsReturn s = true → ReturnsOnAllPaths s
  | .ReturnStmt e, _ => .returnStmt e
  | .Block stmts, h => by
      simp only [checkAllPathsReturn] at h
      obtain ⟨s, hs, hr⟩ := anyPathsReturn_sound stmts h
      exact .block stmts s hs hr
  | .IfStmt c t none, h => by simp [checkAllPathsReturn] at h
  | .IfStmt c t (some e), h => by
      simp only [checkAllPathsReturn, Bool.and_eq_true] at h
      exact .ifStmt c t e (checkAllPathsReturn_sound t h.1) (checkAllPathsReturn_sound e h.2)
  | .WhileStmt _ _, h => by simp [checkAllPathsReturn] at h
  | .VarDecl _ _ _, h => by simp [checkAllPathsReturn] at h
  | .Assign _ _, h => by simp [checkAllPathsReturn] at h
  | .BreakStmt, h => by simp [checkAllPathsReturn] at h
  | .ContinueStmt, h => by simp [checkAllPathsReturn] at h
  | .ExprStmt _, h => by simp [checkAllPathsReturn] at h
theorem anyPathsReturn_sound : ∀ (ss : List Stmt),
    anyPathsReturn ss = true → ∃ s ∈ ss, ReturnsOnAllPaths s
  | [], h => by simp [anyPathsReturn] at h
  | s :: rest, h => by
      simp only [anyPathsReturn] at h
      by_cases hs : checkAllPathsReturn s = true
      · exact ⟨s, List.mem_cons_self _ _, checkAllPathsReturn_sound s hs⟩
      · simp only [hs, Bool.false_eq_true, if_false] at h
        obtain ⟨t, ht, hr⟩ := anyPathsReturn_sound rest h
        exact ⟨t, List.mem_cons_of_mem _ ht, hr⟩
end

theorem anyPathsReturn_of_mem : ∀ (ss : List Stmt) (s : Stmt), s ∈ ss →
    checkAllPathsReturn s = true → anyPathsReturn ss = true
  | [], _, h, _ => by simp at h
  | t :: rest, s, h, hs => by
      simp only [anyPathsReturn]
      rcases List.mem_cons.1 h with rfl | h
      · simp [hs]
      · by_cases ht : checkAllPathsReturn t = true
        · simp [ht]
        · simp only [ht, Bool.false_eq_true, if_false]
          exact anyPathsReturn_of_mem rest s h hs

theorem checkAllPathsReturn_complete {s : Stmt} (h : ReturnsOnAllPaths s) :
    checkAllPathsReturn s = true := by
  induction h with
  | returnStmt e => simp [checkAllPathsReturn]
  | block stmts s hs _ ih =>
      simp only [checkAllPathsReturn]
      exact anyPathsReturn_of_mem stmts s hs ih
  | ifStmt c t e _ _ iht ihe => simp [checkAllPathsReturn, iht, ihe]

theorem checkAllPathsReturn_iff (s : Stmt) :
    checkAllPathsReturn s = true ↔ ReturnsOnAllPaths s :=
  ⟨checkAllPathsReturn_sound s, checkAllPathsReturn_complete⟩

/-- An accepted program: every function passed `checkFunction` in some context. -/
theorem analyze_ok_checkFunction {prog : Program} (h : analyze prog = .ok ())
    {f : FunctionDef} (hf : f ∈ prog.functions) :
    ∃ c c1, checkFunction c f = .ok c1 := by
  obtain ⟨ctx1, n, c, _, h2⟩ := analyze_eq_ok.1 h
  obtain ⟨c2, c3, _, h3⟩ := checkFunctions_mem _ _ _ h2 f hf
  exact ⟨c2, c3, h3⟩

/-! ## The first pass -/

theorem registerFunction_eq_ok {ctx : SemanticContext} {mc ord : Nat} {f : FunctionDef}
    {st : SemanticContext × Nat × Nat} :
    registerFunction (ctx, mc, ord) f = .ok st ↔
      f.name ∉ ctx.funcNames ∧ MainOK f ∧
        st = (addFunction ctx ord f, mc + (if f.name = "main" then 1 else 0), ord + 1) := by
  unfold registerFunction MainOK
  by_cases hm : f.name = "main"
  · simp only [hm, if_true, bind_eq_ok, failIf_eq_ok, pure_eq_ok, Except.ok.injEq,
      decide_eq_false_iff_not, bne_eq_false_iff_eq, Bool.not_eq_false_eq_eq_true,
      List.isEmpty_iff, forall_const, addFunction]
    constructor
    · rintro ⟨_, h1, _, h2, _, h3, h4⟩
      exact ⟨h1, ⟨h2, h3⟩, h4.symm⟩
    · rintro ⟨h1, ⟨h2, h3⟩, h4⟩
      exact ⟨(), h1, (), h2, (), h3, h4.symm⟩
  · simp only [hm, if_false, bind_eq_ok, failIf_eq_ok, pure_eq_ok, Except.ok.injEq,
      decide_eq_false_iff_not, false_implies, true_and, addFunction, Nat.add_zero]
    constructor
    · rintro ⟨_, h1, h4⟩
      exact ⟨h1, h4.symm⟩
    · rintro ⟨h1, h4⟩
      exact ⟨(), h1, h4.symm⟩

theorem registerFunction_eq_error {ctx : SemanticContext} {mc ord : Nat} {f : FunctionDef}
    {e : SemanticError} (h : registerFunction (ctx, mc, ord) f = .error e) :
    (e = .duplicateFunction f.name ∧ f.name ∈ ctx.funcNames) ∨
      ((e = .mainMustReturnInt ∨ e = .mainParamsNotEmpty) ∧ f.name ∉ ctx.funcNames ∧
        ¬ MainOK f) := by
  unfold registerFunction at h
  unfold MainOK
  by_cases hd : f.name ∈ ctx.funcNames
  · simp only [hd, decide_True, failIf_true, error_bind, Except.error.injEq] at h
    exact Or.inl ⟨h.symm, hd⟩
  · simp only [hd, decide_False, failIf_false, ok_bind] at h
    by_cases hm : f.name = "main"
    · simp only [hm, if_true] at h
      by_cases hr : f.retType = "int"
      · by_cases hp : f.params = []
        · simp [hr, hp, failIf, pure_eq_ok, ok_bind] at h
        · have : f.params.isEmpty = false := by
            cases hq : f.params with
            | nil => exact absurd hq hp
            | cons a l => rfl
          simp only [hr, bne_self_eq_false, failIf_false, ok_bind, this, Bool.not_false,
            failIf_true, error_bind, Except.error.injEq] at h
          exact Or.inr ⟨Or.inr h.symm, hd, fun hh => hp (hh hm).2⟩
      · have : (f.retType != "int") = true := by simpa using hr
        simp only [this, failIf_true, error_bind, Except.error.injEq] at h
        exact Or.inr ⟨Or.inl h.symm, hd, fun hh => hr (hh hm).1⟩
    · simp [hm, pure_eq_ok] at h

theorem registerFunctions_eq_ok : ∀ (fs : List FunctionDef) (ctx : SemanticContext)
    (mc ord : Nat) (st : SemanticContext × Nat × Nat),
    registerFunctions (ctx, mc, ord) fs = .ok st ↔
      (∀ f ∈ fs, f.name ∉ ctx.funcNames) ∧ (fs.map (·.name)).Nodup ∧ (∀ f ∈ fs, MainOK f) ∧
        st = (addFunctions ctx ord fs, mc + countMain fs, ord + fs.length)
  | [], ctx, mc, ord, st => by
      simp [registerFunctions, pure_eq_ok, addFunctions, countMain, eq_comm]
  | f :: rest, ctx, mc, ord, st => by
      simp only [registerFunctions, bind_eq_ok, registerFunction_eq_ok]
      constructor
      · rintro ⟨st1, ⟨h1, h2, rfl⟩, h3⟩
        obtain ⟨a1, a2, a3, a4⟩ := (registerFunctions_eq_ok rest _ _ _ _).1 h3
        have hne : ∀ g ∈ rest, g.name ≠ f.name ∧ g.name ∉ ctx.funcNames := by
          intro g hg
          have := a1 g hg
          simpa [addFunction] using this
        refine ⟨?_, ?_, ?_, ?_⟩
        · intro g hg
          rcases List.mem_cons.1 hg with rfl | hg
          · exact h1
          · exact (hne g hg).2
        · simp only [List.map_cons, List.nodup_cons, List.mem_map, not_exists, not_and]
          exact ⟨fun g hg hgf => (hne g hg).1 hgf, a2⟩
        · intro g hg
          rcases List.mem_cons.1 hg with rfl | hg
          · exact h2
          · exact a3 g hg
        · rw [a4]
          simp only [addFunctions, countMain, List.countP_cons, beq_iff_eq, List.length_cons]
          by_cases hm : f.name = "main" <;> simp [hm] <;> omega
      · rintro ⟨a1, a2, a3, a4⟩
        simp only [List.map_cons, List.nodup_cons, List.mem_map, not_exists, not_and] at a2
        refine ⟨_, ⟨a1 f (List.mem_cons_self _ _), a3 f (List.mem_cons_self _ _), rfl⟩, ?_⟩
        rw [registerFunctions_eq_ok rest]
        refine ⟨?_, a2.2, fun g hg => a3 g (List.mem_cons_of_mem _ hg), ?_⟩
        · intro g hg
          simp only [addFunction, List.mem_cons, not_or]
          exact ⟨fun hgf => a2.1 g hg hgf, a1 g (List.mem_cons_of_mem _ hg)⟩
        · rw [a4]
          simp only [addFunctions, countMain, List.countP_cons, beq_iff_eq, List.length_cons]
          by_cases hm : f.name = "main" <;> simp [hm] <;> omega

theorem registerFunctions_eq_error : ∀ (fs : List FunctionDef) (ctx : SemanticContext)
    (mc ord : Nat) (e : SemanticError),
    registerFunctions (ctx, mc, ord) fs = .error e →
      (∃ f ∈ fs, e = .duplicateFunction f.name) ∨
        ((e = .mainMustReturnInt ∨ e = .mainParamsNotEmpty) ∧ ∃ f ∈ fs, ¬ MainOK f)
  | [], ctx, mc, ord, e, h => by simp [registerFunctions, pure_eq_ok] at h
  | f :: rest, ctx, mc, ord, e, h => by
      simp only [registerFunctions, bind_eq_error] at h
      rcases h with h | ⟨st1, h1, h2⟩
      · rcases registerFunction_eq_error h with ⟨h1, _⟩ | ⟨h1, _, h3⟩
        · exact Or.inl ⟨f, List.mem_cons_self _ _, h1⟩
        · exact Or.inr ⟨h1, f, List.mem_cons_self _ _, h3⟩
      · obtain ⟨c1, m1, o1⟩ := st1
        rcases registerFunctions_eq_error rest c1 m1 o1 e h2 with ⟨g, hg, h3⟩ | ⟨h3, g, hg, h4⟩
        · exact Or.inl ⟨g, List.mem_cons_of_mem _ hg, h3⟩
        · exact Or.inr ⟨h3, g, List.mem_cons_of_mem _ hg, h4⟩

theorem analyze_eq_error_of_register {prog : Program} {e : SemanticError}
    (h : registerFunctions ({}, 0, 0) prog.functions = .error e) : analyze prog = .error e := by
  simp only [analyze, h, error_bind]

/-- The first pass of an accepted program: distinct names, one `main`, and the tables
that the second pass reads. -/
theorem analyze_ok_register {prog : Program} (h : analyze prog = .ok ()) :
    (prog.functions.map (·.name)).Nodup ∧ (∀ f ∈ prog.functions, MainOK f) ∧
      countMain prog.functions = 1 ∧
      ∃ c, checkFunctions (addFunctions {} 0 prog.functions) prog.functions = .ok c := by
  obtain ⟨ctx1, n, c, h1, h2⟩ := analyze_eq_ok.1 h
  obtain ⟨_, a2, a3, a4⟩ := (registerFunctions_eq_ok _ _ _ _ _).1 h1
  simp only [Prod.mk.injEq, Nat.zero_add] at a4
  obtain ⟨rfl, a5, _⟩ := a4
  exact ⟨a2, a3, a5.symm, c, h2⟩

/-! ## Every node of an accepted tree was checked -/

theorem checkArgs_ok_mem : ∀ (args : List Expr) (ctx : SemanticContext),
    checkArgs ctx args = .ok () → ∀ arg ∈ args, checkExpr ctx arg false = .ok ()
  | [], _, _, arg, h => by simp at h
  | x :: rest, ctx, h, arg, hm => by
      simp only [checkArgs, bind_eq_ok] at h
      obtain ⟨_, h1, h2⟩ := h
      rcases List.mem_cons.1 hm with rfl | hm
      · exact h1
      · exact checkArgs_ok_mem rest ctx h2 arg hm

theorem exprOccurs_ok {ctx : SemanticContext} {e1 e : Expr} {a1 a : Bool}
    (hocc : ExprOccurs e1 a1 e a) (h : checkExpr ctx e a = .ok ()) :
    checkExpr ctx e1 a1 = .ok () := by
  induction hocc with
  | root => exact h
  | lhs op l r a _ ih =>
      simp only [checkExpr, bind_eq_ok] at h
      obtain ⟨_, h1, _⟩ := h
      exact ih h1
  | rhs op l r a _ ih =>
      simp only [checkExpr, bind_eq_ok] at h
      obtain ⟨_, _, _, h2, _⟩ := h
      exact ih h2
  | operand op x a _ ih =>
      simp only [checkExpr] at h
      exact ih h
  | arg name args x a hx _ ih =>
      simp only [checkExpr, bind_eq_ok] at h
      obtain ⟨_, _, _, _, _, _, h4⟩ := h
      exact ih (checkArgs_ok_mem args ctx h4 x hx)

theorem checkStmts_ok_mem : ∀ (ss : List Stmt) (ctx ctx1 : SemanticContext),
    checkStmts ctx ss = .ok ctx1 → ∀ s ∈ ss, ∃ c c1, Keeps ctx c ∧ checkStmt c s = .ok c1
  | [], _, _, _, s, hm => by simp at hm
  | x :: rest, ctx, ctx1, h, s, hm => by
      simp only [checkStmts, bind_eq_ok] at h
      obtain ⟨c0, h1, h2⟩ := h
      rcases List.mem_cons.1 hm with rfl | hm
      · exact ⟨ctx, c0, keeps_refl _, h1⟩
      · obtain ⟨c, c1, hk, hc⟩ := checkStmts_ok_mem rest c0 ctx1 h2 s hm
        exact ⟨c, c1, keeps_trans (checkStmt_keeps _ _ _ h1) hk, hc⟩

theorem subStmt_ok {t s : Stmt} (hsub : SubStmt t s) :
    ∀ (ctx ctx1 : SemanticContext), checkStmt ctx s = .ok ctx1 →
      ∃ c c1, SameFunc ctx c ∧ checkStmt c t = .ok c1 := by
  induction hsub with
  | root => exact fun ctx ctx1 h => ⟨ctx, ctx1, sameFunc_refl _, h⟩
  | block stmts x hx _ ih =>
      intro ctx ctx1 h
      simp only [checkStmt, bind_eq_ok] at h
      obtain ⟨c0, h1, _⟩ := h
      obtain ⟨c, c1, hk, hc⟩ := checkStmts_ok_mem stmts _ _ h1 x hx
      obtain ⟨c2, c3, hs, h3⟩ := ih c c1 hc
      exact ⟨c2, c3, sameFunc_trans hk.1 hs, h3⟩
  | thenStmt cond th el _ ih =>
      intro ctx ctx1 h
      simp only [checkStmt, bind_eq_ok] at h
      obtain ⟨_, _, c0, h1, _⟩ := h
      exact ih ctx c0 h1
  | elseStmt cond th el _ ih =>
      intro ctx ctx1 h
      simp only [checkStmt, bind_eq_ok, checkElse] at h
      obtain ⟨_, _, c0, h1, h2⟩ := h
      obtain ⟨c2, c3, hs, h3⟩ := ih c0 ctx1 h2
      exact ⟨c2, c3, sameFunc_trans (checkStmt_keeps _ _ _ h1).1 hs, h3⟩
  | body cond b _ ih =>
      intro ctx ctx1 h
      simp only [checkStmt, bind_eq_ok] at h
      obtain ⟨_, _, c0, h1, _⟩ := h
      obtain ⟨c2, c3, hs, h3⟩ := ih _ c0 h1
      exact ⟨c2, c3, sameFunc_trans ⟨rfl, rfl, rfl, rfl⟩ hs, h3⟩

theorem stmtExpr_ok {s : Stmt} {e : Expr} {a : Bool} (hse : StmtExpr s e a)
    {ctx ctx1 : SemanticContext} (h : checkStmt ctx s = .ok ctx1) :
    ∃ c, SameFunc ctx c ∧ checkExpr c e a = .ok () := by
  cases hse with
  | initExpr type name e =>
      simp only [checkStmt, bind_eq_ok, checkExprOpt] at h
      obtain ⟨_, _, _, h2, _⟩ := h
      exact ⟨ctx, sameFunc_refl _, h2⟩
  | assigned name e =>
      simp only [checkStmt, bind_eq_ok] at h
      obtain ⟨_, _, _, h2, _⟩ := h
      exact ⟨ctx, sameFunc_refl _, h2⟩
  | returned e =>
      simp only [checkStmt, bind_eq_ok, checkExprOpt] at h
      obtain ⟨_, _, _, _, _, h2, _⟩ := h
      exact ⟨{ ctx with hasReturn := true }, ⟨rfl, rfl, rfl, rfl⟩, h2⟩
  | discarded e =>
      simp only [checkStmt, bind_eq_ok] at h
      obtain ⟨_, h2, _⟩ := h
      exact ⟨ctx, sameFunc_refl _, h2⟩
  | ifCond cond th el =>
      simp only [checkStmt, bind_eq_ok] at h
      obtain ⟨_, h2, _⟩ := h
      exact ⟨ctx, sameFunc_refl _, h2⟩
  | whileCond cond b =>
      simp only [checkStmt, bind_eq_ok] at h
      obtain ⟨_, h2, _⟩ := h
      exact ⟨ctx, sameFunc_refl _, h2⟩

/-- Every expression node of an accepted statement passed `checkExpr`, under the flag of
its position. -/
theorem exprIn_ok {s : Stmt} {e : Expr} {a : Bool} (hin : ExprIn e a s)
    {ctx ctx1 : SemanticContext} (h : checkStmt ctx s = .ok ctx1) :
    ∃ c, SameFunc ctx c ∧ checkExpr c e a = .ok () := by
  obtain ⟨t, e0, a0, h1, h2, h3⟩ := hin
  obtain ⟨c, c1, hs, hc⟩ := subStmt_ok h1 ctx ctx1 h
  obtain ⟨c2, hs2, hc2⟩ := stmtExpr_ok h2 hc
  exact ⟨c2, sameFunc_trans hs hs2, exprOccurs_ok h3 hc2⟩

/-! ## Lookups in the tables of the first pass -/

theorem addFunctions_append : ∀ (pre post : List FunctionDef) (ctx : SemanticContext)
    (ord : Nat), addFunctions ctx ord (pre ++ post) =
      addFunctions (addFunctions ctx ord pre) (ord + pre.length) post
  | [], post, ctx, ord => by simp [addFunctions]
  | f :: pre, post, ctx, ord => by
      have ih := addFunctions_append pre post (addFunction ctx ord f) (ord + 1)
      have e : ord + 1 + pre.length = ord + (pre.length + 1) := by omega
      rw [e] at ih
      simpa only [List.cons_append, addFunctions, List.length_cons] using ih

theorem addFunctions_lookup_not_mem : ∀ (fs : List FunctionDef) (ctx : SemanticContext)
    (ord : Nat) (n : String), n ∉ fs.map (·.name) →
      (addFunctions ctx ord fs).funcRetType.lookup n = ctx.funcRetType.lookup n ∧
      (addFunctions ctx ord fs).funcDeclaredOrder.lookup n = ctx.funcDeclaredOrder.lookup n
  | [], ctx, ord, n, _ => by simp [addFunctions]
  | f :: rest, ctx, ord, n, h => by
      simp only [List.map_cons, List.mem_cons, not_or] at h
      have ih := addFunctions_lookup_not_mem rest (addFunction ctx ord f) (ord + 1) n h.2
      simp only [addFunctions]
      rw [ih.1, ih.2]
      have hne : (n == f.name) = false := by simpa using h.1
      simp [addFunction, List.lookup, hne]

theorem addFunctions_lookup_mem (pre post : List FunctionDef) (f : FunctionDef)
    (ctx : SemanticContext) (ord : Nat) (h : f.name ∉ post.map (·.name)) :
    (addFunctions ctx ord (pre ++ f :: post)).funcRetType.lookup f.name = some f.retType ∧
    (addFunctions ctx ord (pre ++ f :: post)).funcDeclaredOrder.lookup f.name =
      some (ord + pre.length) := by
  rw [addFunctions_append]
  simp only [addFunctions]
  have ih := addFunctions_lookup_not_mem post
    (addFunction (addFunctions ctx ord pre) (ord + pre.length) f) (ord + pre.length + 1)
    f.name h
  rw [ih.1, ih.2]
  simp [addFunction, List.lookup]

theorem addFunctions_other : ∀ (fs : List FunctionDef) (ctx : SemanticContext) (ord : Nat),
    (addFunctions ctx ord fs).inLoop = ctx.inLoop ∧
      (addFunctions ctx ord fs).varScopes = ctx.varScopes
  | [], ctx, ord => by simp [addFunctions]
  | f :: rest, ctx, ord => by
      simp only [addFunctions]
      have ih := addFunctions_other rest (addFunction ctx ord f) (ord + 1)
      rw [ih.1, ih.2]
      simp [addFunction]

/-- In a program with distinct function names the tables of the first pass hold, for the
function at position `pre.length`, its return type and that position. -/
theorem tablesOf_at {prog : Program} {pre post : List FunctionDef} {f : FunctionDef}
    (hnd : (prog.functions.map (·.name)).Nodup) (hp : prog.functions = pre ++ f :: post) :
    (tablesOf prog).funcDeclared f.name = true ∧ (tablesOf prog).retTypeOf f.name = f.retType ∧
      (tablesOf prog).orderOf f.name = pre.length := by
  have hnot : f.name ∉ post.map (·.name) := by
    rw [hp] at hnd
    simp only [List.map_append, List.map_cons, List.nodup_append, List.nodup_cons] at hnd
    exact hnd.2.1.1
  have h := addFunctions_lookup_mem pre post f {} 0 hnot
  simp only [tablesOf, SemanticContext.funcDeclared, SemanticContext.retTypeOf,
    SemanticContext.orderOf, hp, h.1, h.2]
  simp

theorem tablesOf_not_declared {prog : Program} {n : String}
    (h : ∀ f ∈ prog.functions, f.name ≠ n) : (tablesOf prog).funcDeclared n = false := by
  have hnot : n ∉ prog.functions.map (·.name) := by
    simp only [List.mem_map, not_exists, not_and]
    exact h
  have := addFunctions_lookup_not_mem prog.functions {} 0 n hnot
  simp [tablesOf, SemanticContext.funcDeclared, this.1]

theorem atBody_funcDeclared {prog : Program} {f : FunctionDef} {c : SemanticContext}
    (h : AtBody prog f c) (n : String) :
    c.funcDeclared n = (tablesOf prog).funcDeclared n ∧
      c.retTypeOf n = (tablesOf prog).retTypeOf n ∧ c.orderOf n = (tablesOf prog).orderOf n := by
  simp [SemanticContext.funcDeclared, SemanticContext.retTypeOf, SemanticContext.orderOf,
    h.1, h.2.1]

theorem atBody_sameFunc {prog : Program} {f : FunctionDef} {c c1 : SemanticContext}
    (h : AtBody prog f c) (hs : SameFunc c c1) (n : String) :
    c1.funcDeclared n = (tablesOf prog).funcDeclared n ∧
      c1.retTypeOf n = (tablesOf prog).retTypeOf n ∧
      c1.orderOf n = (tablesOf prog).orderOf n ∧
      c1.curFunc = f.name ∧ c1.curFuncRetType = f.retType := by
  obtain ⟨s1, s2, s3, s4⟩ := hs
  simp [SemanticContext.funcDeclared, SemanticContext.retTypeOf, SemanticContext.orderOf,
    ← s1, ← s2, ← s3, ← s4, h.1, h.2.1, h.2.2.1, h.2.2.2.1]

/-- In an accepted program every function body passed `checkStmt` in a context of the
second pass. -/
theorem analyze_ok_body {prog : Program} (h : analyze prog = .ok ()) {f : FunctionDef}
    (hf : f ∈ prog.functions) :
    ∃ c c1, AtBody prog f c ∧ checkStmt c f.body = .ok c1 := by
  obtain ⟨_, _, _, c0, h4⟩ := analyze_ok_register h
  obtain ⟨c, c1, hg, hc⟩ := checkFunctions_mem _ _ _ h4 f hf
  obtain ⟨c2, c3, h2, h3, _, _⟩ := checkFunction_eq_ok.1 hc
  obtain ⟨⟨k1, k2, k3, k4⟩, k5, _, _, _⟩ := declareParams_keeps _ _ _ h2
  obtain ⟨g1, g2, _, g4, _⟩ := hg
  refine ⟨c2, c3, ⟨?_, ?_, ?_, ?_, ?_⟩, h3⟩
  · rw [← k1]; simpa [funcEntry, SemanticContext.enterScope, tablesOf] using g1
  · rw [← k2]; simpa [funcEntry, SemanticContext.enterScope, tablesOf] using g2
  · rw [← k3]; simp [funcEntry, SemanticContext.enterScope]
  · rw [← k4]; simp [funcEntry, SemanticContext.enterScope]
  · rw [k5]
    simp only [funcEntry, SemanticContext.enterScope]
    rw [g4]
    exact (addFunctions_other _ _ _).1

/-! ## What acceptance of a single node means -/

theorem checkExpr_call_ok {ctx : SemanticContext} {g : String} {args : List Expr} {a : Bool} :
    checkExpr ctx (.FuncCall g args) a = .ok () ↔
      ctx.funcDeclared g = true ∧ ctx.orderOf g ≤ ctx.orderOf ctx.curFunc ∧
        (ctx.retTypeOf g = "void" → a = true) ∧ checkArgs ctx args = .ok () := by
  simp only [checkExpr, bind_eq_ok, failIf_eq_ok, Bool.not_eq_false_eq_eq_true,
    decide_eq_false_iff_not, not_lt, Bool.and_eq_false_imp, beq_iff_eq,
    Bool.not_eq_false_eq_eq_true, exists_const, gt_iff_lt]

theorem checkExpr_binary_ok {ctx : SemanticContext} {op : String} {l r : Expr} {a : Bool} :
    checkExpr ctx (.BinaryExpr op l r) a = .ok () ↔
      checkExpr ctx l false = .ok () ∧ checkExpr ctx r false = .ok () ∧
        literalZeroDivisor op r = false := by
  simp only [checkExpr, bind_eq_ok, failIf_eq_ok]
  constructor
  · rintro ⟨_, h1, _, h2, h3⟩
    exact ⟨h1, h2, h3⟩
  · rintro ⟨h1, h2, h3⟩
    exact ⟨(), h1, (), h2, h3⟩

theorem checkStmt_return_ok {ctx ctx1 : SemanticContext} {e : Option Expr}
    (h : checkStmt ctx (.ReturnStmt e) = .ok ctx1) :
    (ctx.curFuncRetType = "void" → e = none) ∧ (ctx.curFuncRetType = "int" → e ≠ none) := by
  simp only [checkStmt, bind_eq_ok, failIf_eq_ok, Bool.and_eq_false_imp, beq_iff_eq] at h
  obtain ⟨_, h1, _, h2, _⟩ := h
  constructor
  · intro hv
    have := h1 hv
    cases e <;> simp_all
  · intro hi
    have := h2 hi
    cases e <;> simp_all

/-! ## Calls and the declaration order -/

theorem tablesOf_declared {prog : Program} {n : String}
    (h : (tablesOf prog).funcDeclared n = true) : ∃ g ∈ prog.functions, g.name = n := by
  by_contra hno
  simp only [not_exists, not_and] at hno
  rw [tablesOf_not_declared hno] at h
  cases h

/-- What acceptance of a call in the body of `f` gives: the callee is registered, at an
index not above that of `f`, and returns a value unless its result is discarded. -/
theorem analyze_ok_call {prog : Program} (hok : analyze prog = .ok ()) {f : FunctionDef}
    (hf : f ∈ prog.functions) {n : String} {args : List Expr} {a : Bool}
    (hin : ExprIn (.FuncCall n args) a f.body) :
    (tablesOf prog).funcDeclared n = true ∧
      (tablesOf prog).orderOf n ≤ (tablesOf prog).orderOf f.name ∧
      ((tablesOf prog).retTypeOf n = "void" → a = true) := by
  obtain ⟨c, c1, hb, hc⟩ := analyze_ok_body hok hf
  obtain ⟨c2, hs, h2⟩ := exprIn_ok hin hc
  obtain ⟨k1, k2, k3, _⟩ := checkExpr_call_ok.1 h2
  obtain ⟨s1, s2, s3, s4, _⟩ := atBody_sameFunc hb hs n
  have s5 := (atBody_sameFunc hb hs f.name).2.2.1
  rw [s1] at k1
  rw [s3, s4, s5] at k2
  rw [s2] at k3
  exact ⟨k1, k2, k3⟩

/-! ## Calls of void functions -/

theorem checkExpr_void_call_false {ctx : SemanticContext} {g : String} {args : List Expr}
    (hv : ctx.retTypeOf g = "void") : checkExpr ctx (.FuncCall g args) false ≠ .ok () := by
  intro h
  have := (checkExpr_call_ok.1 h).2.2.1 hv
  cases this

theorem rejected_of_ne_ok {x : Check Unit} (h : x ≠ .ok ()) : x.rejected = true := by
  cases x with
  | error e => rfl
  | ok u => exact absurd rfl h

theorem voidCall_rejected_expr {ctx : SemanticContext} {g : String} {args : List Expr}
    (hv : ctx.retTypeOf g = "void") {e : Expr} {a : Bool}
    (hocc : ExprOccurs (.FuncCall g args) false e a) : (checkExpr ctx e a).rejected = true :=
  rejected_of_ne_ok (fun h => checkExpr_void_call_false hv (exprOccurs_ok hocc h))

theorem sameFunc_retTypeOf {c c1 : SemanticContext} (h : SameFunc c c1) (n : String) :
    c1.retTypeOf n = c.retTypeOf n := by
  simp [SemanticContext.retTypeOf, h.1]

theorem voidCall_rejected_stmt {ctx : SemanticContext} {g : String} {args : List Expr}
    (hv : ctx.retTypeOf g = "void") {s : Stmt}
    (hin : ExprIn (.FuncCall g args) false s) : (checkStmt ctx s).rejected = true := by
  apply not_ok_of_rejected
  intro c1 h
  obtain ⟨c, hs, hc⟩ := exprIn_ok hin h
  exact checkExpr_void_call_false (by rw [sameFunc_retTypeOf hs, hv]) hc

/-! ## Where an error comes from -/

mutual
theorem checkExpr_error_fromExpr : ∀ (e : Expr) (ctx : SemanticContext) (a : Bool)
    (err : SemanticError), checkExpr ctx e a = .error err → err.fromExpr = true
  | .IntLiteral _, ctx, a, err, h => by simp [checkExpr, pure_eq_ok] at h
  | .VarRef n, ctx, a, err, h => by
      simp only [checkExpr, failIf_eq_error] at h
      rw [h.2]; rfl
  | .BinaryExpr op l r, ctx, a, err, h => by
      simp only [checkExpr, bind_eq_error, failIf_eq_error] at h
      rcases h with h | ⟨_, _, h | ⟨_, _, h⟩⟩
      · exact checkExpr_error_fromExpr l ctx false err h
      · exact checkExpr_error_fromExpr r ctx false err h
      · rw [h.2]; rfl
  | .UnaryExpr op x, ctx, a, err, h => by
      simp only [checkExpr] at h
      exact checkExpr_error_fromExpr x ctx false err h
  | .FuncCall g args, ctx, a, err, h => by
      simp only [checkExpr, bind_eq_error, failIf_eq_error] at h
      rcases h with h | ⟨_, _, h | ⟨_, _, h | ⟨_, _, h⟩⟩⟩
      · rw [h.2]; rfl
      · rw [h.2]; rfl
      · rw [h.2]; rfl
      · exact checkArgs_error_fromExpr args ctx err h
theorem checkArgs_error_fromExpr : ∀ (args : List Expr) (ctx : SemanticContext)
    (err : SemanticError), checkArgs ctx args = .error err → err.fromExpr = true
  | [], ctx, err, h => by simp [checkArgs, pure_eq_ok] at h
  | x :: rest, ctx, err, h => by
      simp only [checkArgs, bind_eq_error] at h
      rcases h with h | ⟨_, _, h⟩
      · exact checkExpr_error_fromExpr x ctx false err h
      · exact checkArgs_error_fromExpr rest ctx err h
end

theorem checkExprOpt_error_fromExpr {o : Option Expr} {ctx : SemanticContext}
    {err : SemanticError} (h : checkExprOpt ctx o = .error err) : err.fromExpr = true := by
  cases o with
  | none => simp [checkExprOpt, pure_eq_ok] at h
  | some e => exact checkExpr_error_fromExpr e ctx false err h

theorem checkExpr_ne_break {e : Expr} {ctx : SemanticContext} {a : Bool} :
    checkExpr ctx e a ≠ .error .breakContinueOutsideLoop := by
  intro h
  have := checkExpr_error_fromExpr e ctx a _ h
  cases this

theorem checkExprOpt_ne_break {o : Option Expr} {ctx : SemanticContext} :
    checkExprOpt ctx o ≠ .error .breakContinueOutsideLoop := by
  intro h
  have := checkExprOpt_error_fromExpr h
  cases this

mutual
theorem checkStmt_break_error : ∀ (s : Stmt) (ctx : SemanticContext),
    checkStmt ctx s = .error .breakContinueOutsideLoop →
      ctx.inLoop = false ∧ BreakOutsideLoop s
  | .Block stmts, ctx, h => by
      simp only [checkStmt, bind_eq_error, pure_eq_ok] at h
      rcases h with h | ⟨_, _, h⟩
      · obtain ⟨h1, s, hs, h2⟩ := checkStmts_break_error stmts _ h
        exact ⟨h1, .block stmts s hs h2⟩
      · cases h
  | .VarDecl _ name initExpr, ctx, h => by
      simp only [checkStmt, bind_eq_error, failIf_eq_error, pure_eq_ok] at h
      rcases h with h | ⟨_, _, h | ⟨_, _, h⟩⟩
      · cases h.2
      · exact absurd h checkExprOpt_ne_break
      · cases h
  | .Assign name expr, ctx, h => by
      simp only [checkStmt, bind_eq_error, failIf_eq_error, pure_eq_ok] at h
      rcases h with h | ⟨_, _, h | ⟨_, _, h⟩⟩
      · cases h.2
      · exact absurd h checkExpr_ne_break
      · cases h
  | .ReturnStmt expr, ctx, h => by
      simp only [checkStmt, bind_eq_error, failIf_eq_error, pure_eq_ok] at h
      rcases h with h | ⟨_, _, h | ⟨_, _, h | ⟨_, _, h⟩⟩⟩
      · cases h.2
      · cases h.2
      · exact absurd h checkExprOpt_ne_break
      · cases h
  | .ExprStmt expr, ctx, h => by
      simp only [checkStmt, bind_eq_error, pure_eq_ok] at h
      rcases h with h | ⟨_, _, h⟩
      · exact absurd h checkExpr_ne_break
      · cases h
  | .IfStmt cond thenStmt elseStmt, ctx, h => by
      simp only [checkStmt, bind_eq_error] at h
      rcases h with h | ⟨_, _, h | ⟨c1, h1, h⟩⟩
      · exact absurd h checkExpr_ne_break
      · obtain ⟨h1, h2⟩ := checkStmt_break_error thenStmt ctx h
        exact ⟨h1, .thenStmt cond thenStmt elseStmt h2⟩
      · obtain ⟨h2, e, rfl, h3⟩ := checkElse_break_error elseStmt c1 h
        refine ⟨?_, .elseStmt cond thenStmt e h3⟩
        rw [← (checkStmt_keeps _ _ _ h1).2.1, h2]
  | .WhileStmt cond body, ctx, h => by
      simp only [checkStmt, bind_eq_error, pure_eq_ok] at h
      rcases h with h | ⟨_, _, h | ⟨_, _, h⟩⟩
      · exact absurd h checkExpr_ne_break
      · have := (checkStmt_break_error body _ h).1
        cases this
      · cases h
  | .BreakStmt, ctx, h => by
      simp only [checkStmt, bind_eq_error, failIf_eq_error, pure_eq_ok,
        Bool.not_eq_true_eq_eq_false] at h
      rcases h with h | ⟨_, _, h⟩
      · exact ⟨by simpa using h.1, .breakStmt⟩
      · cases h
  | .ContinueStmt, ctx, h => by
      simp only [checkStmt, bind_eq_error, failIf_eq_error, pure_eq_ok] at h
      rcases h with h | ⟨_, _, h⟩
      · exact ⟨by simpa using h.1, .continueStmt⟩
      · cases h
theorem checkStmts_break_error : ∀ (ss : List Stmt) (ctx : SemanticContext),
    checkStmts ctx ss = .error .breakContinueOutsideLoop →
      ctx.inLoop = false ∧ ∃ s ∈ ss, BreakOutsideLoop s
  | [], ctx, h => by simp [checkStmts, pure_eq_ok] at h
  | x :: rest, ctx, h => by
      simp only [checkStmts, bind_eq_error] at h
      rcases h with h | ⟨c1, h1, h⟩
      · obtain ⟨h1, h2⟩ := checkStmt_break_error x ctx h
        exact ⟨h1, x, List.mem_cons_self _ _, h2⟩
      · obtain ⟨h2, s, hs, h3⟩ := checkStmts_break_error rest c1 h
        refine ⟨?_, s, List.mem_cons_of_mem _ hs, h3⟩
        rw [← (checkStmt_keeps _ _ _ h1).2.1, h2]
theorem checkElse_break_error : ∀ (o : Option Stmt) (ctx : SemanticContext),
    checkElse ctx o = .error .breakContinueOutsideLoop →
      ctx.inLoop = false ∧ ∃ e, o = some e ∧ BreakOutsideLoop e
  | none, ctx, h => by simp [checkElse, pure_eq_ok] at h
  | some e, ctx, h => by
      simp only [checkElse] at h
      obtain ⟨h1, h2⟩ := checkStmt_break_error e ctx h
      exact ⟨h1, e, rfl, h2⟩
end

theorem breakOutsideLoop_rejected {s : Stmt} (h : BreakOutsideLoop s) :
    ∀ ctx : SemanticContext, ctx.inLoop = false → (checkStmt ctx s).rejected = true := by
  induction h with
  | breakStmt => intro ctx hc; simp [checkStmt, hc, failIf_true, error_bind, Check.rejected]
  | continueStmt => intro ctx hc; simp [checkStmt, hc, failIf_true, error_bind, Check.rejected]
  | block stmts x hx _ ih =>
      intro ctx hc
      apply not_ok_of_rejected
      intro c1 h
      simp only [checkStmt, bind_eq_ok] at h
      obtain ⟨c0, h1, _⟩ := h
      obtain ⟨c, c2, hk, h2⟩ := checkStmts_ok_mem stmts _ _ h1 x hx
      have := ih c (by rw [hk.2.1]; exact hc)
      rw [h2] at this
      cases this
  | thenStmt cond th el _ ih =>
      intro ctx hc
      apply not_ok_of_rejected
      intro c1 h
      simp only [checkStmt, bind_eq_ok] at h
      obtain ⟨_, _, c0, h1, _⟩ := h
      have := ih ctx hc
      rw [h1] at this
      cases this
  | elseStmt cond th el _ ih =>
      intro ctx hc
      apply not_ok_of_rejected
      intro c1 h
      simp only [checkStmt, bind_eq_ok, checkElse] at h
      obtain ⟨_, _, c0, h1, h2⟩ := h
      have := ih c0 (by rw [(checkStmt_keeps _ _ _ h1).2.1]; exact hc)
      rw [h2] at this
      cases this

theorem checkFunctions_error : ∀ (fs : List FunctionDef) (ctx : SemanticContext)
    (e : SemanticError), checkFunctions ctx fs = .error e →
      ∃ f ∈ fs, ∃ c, SameGlobal ctx c ∧ checkFunction c f = .error e
  | [], ctx, e, h => by simp [checkFunctions, pure_eq_ok] at h
  | g :: rest, ctx, e, h => by
      simp only [checkFunctions, bind_eq_error] at h
      rcases h with h | ⟨c1, h1, h⟩
      · exact ⟨g, List.mem_cons_self _ _, ctx, sameGlobal_refl _, h⟩
      · obtain ⟨f, hf, c, hg, hc⟩ := checkFunctions_error rest c1 e h
        exact ⟨f, List.mem_cons_of_mem _ hf, c, sameGlobal_trans (checkFunction_sameGlobal h1) hg,
          hc⟩

theorem declareParams_error : ∀ (ps : List (String × String)) (ctx : SemanticContext)
    (e : SemanticError), declareParams ctx ps = .error e → ∃ n, e = .paramConflict n
  | [], ctx, e, h => by simp [declareParams, pure_eq_ok] at h
  | p :: rest, ctx, e, h => by
      simp only [declareParams, bind_eq_error, failIf_eq_error] at h
      rcases h with h | ⟨_, _, h⟩
      · exact ⟨p.2, h.2⟩
      · exact declareParams_error rest _ e h

/-- An error of `checkFunction` other than a parameter conflict and a missing return comes
from `checkStmt` on the body. -/
theorem checkFunction_error {ctx : SemanticContext} {f : FunctionDef} {e : SemanticError}
    (h : checkFunction ctx f = .error e) :
    (∃ n, e = .paramConflict n) ∨ e = .notAllPathsReturn f.name ∨
      ∃ c2, declareParams (funcEntry ctx f) f.params = .ok c2 ∧
        checkStmt c2 f.body = .error e := by
  simp only [checkFunction, bind_eq_error, failIf_eq_error, pure_eq_ok] at h
  rcases h with h | ⟨c2, h2, h | ⟨c3, h3, h | ⟨_, _, h⟩⟩⟩
  · exact Or.inl (declareParams_error _ _ _ h)
  · exact Or.inr (Or.inr ⟨c2, h2, h⟩)
  · exact Or.inr (Or.inl h.2)
  · cases h

theorem atBody_funcEntry {prog : Program} {c : SemanticContext} (f : FunctionDef)
    (hg : SameGlobal (tablesOf prog) c) : AtBody prog f (funcEntry c f) := by
  obtain ⟨g1, g2, _, g4, _⟩ := hg
  refine ⟨g1, g2, rfl, rfl, ?_⟩
  simp only [funcEntry, SemanticContext.enterScope]
  rw [g4]
  exact (addFunctions_other _ _ _).1

theorem atBody_keeps {prog : Program} {f : FunctionDef} {c c2 : SemanticContext}
    (h : AtBody prog f c) (hk : Keeps c c2) : AtBody prog f c2 := by
  obtain ⟨⟨k1, k2, k3, k4⟩, k5, _⟩ := hk
  obtain ⟨h1, h2, h3, h4, h5⟩ := h
  exact ⟨k1 ▸ h1, k2 ▸ h2, k3 ▸ h3, k4 ▸ h4, k5.trans h5⟩

/-- An error of `analyze` that is raised by `checkStmt` was raised in the body of a
function of the program, in a context of the second pass, after a first pass that found
the function names distinct. -/
theorem analyze_error_body {prog : Program} {e : SemanticError} (h : analyze prog = .error e)
    (h1 : ∀ n, e ≠ .duplicateFunction n) (h2 : e ≠ .mainMustReturnInt)
    (h3 : e ≠ .mainParamsNotEmpty) (h4 : e ≠ .mainCountNotOne)
    (h5 : ∀ n, e ≠ .paramConflict n) (h6 : ∀ n, e ≠ .notAllPathsReturn n) :
    (prog.functions.map (·.name)).Nodup ∧
      ∃ pre f post c, prog.functions = pre ++ f :: post ∧ AtBody prog f c ∧
        checkStmt c f.body = .error e := by
  simp only [analyze, bind_eq_error, failIf_eq_error, pure_eq_ok, Prod.exists] at h
  rcases h with h | ⟨ctx1, mc, n, hr, h | ⟨_, _, h | ⟨_, _, h⟩⟩⟩
  · rcases registerFunctions_eq_error _ _ _ _ _ h with ⟨f, _, hf⟩ | ⟨hf | hf, _⟩
    · exact absurd hf (h1 _)
    · exact absurd hf h2
    · exact absurd hf h3
  · exact absurd h.2 h4
  · obtain ⟨_, hnd, _, a4⟩ := (registerFunctions_eq_ok _ _ _ _ _).1 hr
    simp only [Prod.mk.injEq] at a4
    obtain ⟨rfl, _, _⟩ := a4
    refine ⟨hnd, ?_⟩
    obtain ⟨f, hf, c, hg, hc⟩ := checkFunctions_error _ _ _ h
    obtain ⟨pre, post, hp⟩ := List.append_of_mem hf
    rcases checkFunction_error hc with ⟨n, hn⟩ | hn | ⟨c2, hd, hb⟩
    · exact absurd hn (h5 n)
    · exact absurd hn (h6 _)
    · exact ⟨pre, f, post, c2, hp,
        atBody_keeps (atBody_funcEntry f hg) (declareParams_keeps _ _ _ hd), hb⟩
  · cases h

/-! ## `checkExpr` against the rules -/

theorem isVarDeclared_eq (ctx : SemanticContext) (n : String) :
    ctx.isVarDeclared n = visible n ctx.varScopes := rfl

theorem declareVar_varScopes (ctx : SemanticContext) (n : String) :
    (ctx.declareVar n).varScopes = bindVar n ctx.varScopes := by
  unfold SemanticContext.declareVar bindVar
  cases h : ctx.varScopes <;> simp [h]

mutual
theorem checkExpr_resolved : ∀ (e : Expr) (ctx : SemanticContext) (a : Bool),
    checkExpr ctx e a = .ok () → exprResolved ctx.varScopes e = true
  | .IntLiteral _, _, _, _ => rfl
  | .VarRef n, ctx, a, h => by
      simp only [checkExpr, failIf_eq_ok, Bool.not_eq_false_eq_eq_true, isVarDeclared_eq] at h
      simpa [exprResolved] using h
  | .BinaryExpr op l r, ctx, a, h => by
      obtain ⟨h1, h2, _⟩ := checkExpr_binary_ok.1 h
      simp [exprResolved, checkExpr_resolved l ctx false h1, checkExpr_resolved r ctx false h2]
  | .UnaryExpr op x, ctx, a, h => by
      simp only [checkExpr] at h
      simpa [exprResolved] using checkExpr_resolved x ctx false h
  | .FuncCall g args, ctx, a, h => by
      have h4 := (checkExpr_call_ok.1 h).2.2.2
      simpa [exprResolved] using checkArgs_resolved args ctx h4
theorem checkArgs_resolved : ∀ (args : List Expr) (ctx : SemanticContext),
    checkArgs ctx args = .ok () → argsResolved ctx.varScopes args = true
  | [], _, _ => rfl
  | x :: rest, ctx, h => by
      simp only [checkArgs, bind_eq_ok] at h
      obtain ⟨_, h1, h2⟩ := h
      simp [argsResolved, checkExpr_resolved x ctx false h1, checkArgs_resolved rest ctx h2]
end

theorem checkExpr_nodeOK {ctx : SemanticContext} {e : Expr} {a : Bool}
    (h : checkExpr ctx e a = .ok ()) : NodeOK ctx e a := by
  cases e with
  | IntLiteral v => trivial
  | VarRef n => trivial
  | BinaryExpr op l r => exact (checkExpr_binary_ok.1 h).2.2
  | UnaryExpr op x => trivial
  | FuncCall g args =>
      obtain ⟨h1, h2, h3, _⟩ := checkExpr_call_ok.1 h
      exact ⟨h1, h2, h3⟩

mutual
theorem checkExpr_complete : ∀ (e : Expr) (ctx : SemanticContext) (a : Bool),
    exprResolved ctx.varScopes e = true →
    (∀ e1 a1, ExprOccurs e1 a1 e a → NodeOK ctx e1 a1) → checkExpr ctx e a = .ok ()
  | .IntLiteral _, _, _, _, _ => rfl
  | .VarRef n, ctx, a, hr, _ => by
      simp only [exprResolved] at hr
      simp [checkExpr, isVarDeclared_eq, hr, failIf_false]
  | .BinaryExpr op l r, ctx, a, hr, hn => by
      simp only [exprResolved, Bool.and_eq_true] at hr
      rw [checkExpr_binary_ok]
      refine ⟨checkExpr_complete l ctx false hr.1 (fun e1 a1 ho => hn e1 a1 (.lhs op l r a ho)),
        checkExpr_complete r ctx false hr.2 (fun e1 a1 ho => hn e1 a1 (.rhs op l r a ho)), ?_⟩
      exact hn _ _ (.root _ _)
  | .UnaryExpr op x, ctx, a, hr, hn => by
      simp only [exprResolved] at hr
      simp only [checkExpr]
      exact checkExpr_complete x ctx false hr (fun e1 a1 ho => hn e1 a1 (.operand op x a ho))
  | .FuncCall g args, ctx, a, hr, hn => by
      simp only [exprResolved] at hr
      rw [checkExpr_call_ok]
      obtain ⟨h1, h2, h3⟩ := hn _ _ (.root (.FuncCall g args) a)
      refine ⟨h1, h2, h3, checkArgs_complete args ctx hr ?_⟩
      intro x hx e1 a1 ho
      exact hn e1 a1 (.arg g args x a hx ho)
theorem checkArgs_complete : ∀ (args : List Expr) (ctx : SemanticContext),
    argsResolved ctx.varScopes args = true →
    (∀ x ∈ args, ∀ e1 a1, ExprOccurs e1 a1 x false → NodeOK ctx e1 a1) →
    checkArgs ctx args = .ok ()
  | [], _, _, _ => rfl
  | x :: rest, ctx, hr, hn => by
      simp only [argsResolved, Bool.and_eq_true] at hr
      have h1 := checkExpr_complete x ctx false hr.1 (hn x (List.mem_cons_self _ _))
      have h2 := checkArgs_complete rest ctx hr.2
        (fun y hy => hn y (List.mem_cons_of_mem _ hy))
      simp only [checkArgs, h1, ok_bind, h2]
end

/-- `checkExpr` accepts an expression exactly when its variable references resolve and
every node satisfies the call and division rules. -/
theorem checkExpr_iff (e : Expr) (ctx : SemanticContext) (a : Bool) :
    checkExpr ctx e a = .ok () ↔
      exprResolved ctx.varScopes e = true ∧ ∀ e1 a1, ExprOccurs e1 a1 e a → NodeOK ctx e1 a1 :=
  ⟨fun h => ⟨checkExpr_resolved e ctx a h, fun _ _ ho => checkExpr_nodeOK (exprOccurs_ok ho h)⟩,
    fun h => checkExpr_complete e ctx a h.1 h.2⟩

theorem checkExprOpt_iff (o : Option Expr) (ctx : SemanticContext) :
    checkExprOpt ctx o = .ok () ↔
      optResolved ctx.varScopes o = true ∧
        ∀ e, o = some e → ∀ e1 a1, ExprOccurs e1 a1 e false → NodeOK ctx e1 a1 := by
  cases o with
  | none => simp [checkExprOpt, optResolved, pure_eq_ok]
  | some e => simp [checkExprOpt, optResolved, checkExpr_iff]

theorem nodeOK_sameFunc {c c1 : SemanticContext} (h : SameFunc c c1) (e : Expr) (a : Bool) :
    NodeOK c1 e a ↔ NodeOK c e a := by
  obtain ⟨s1, s2, s3, s4⟩ := h
  cases e <;>
    simp [NodeOK, SemanticContext.funcDeclared, SemanticContext.orderOf,
      SemanticContext.retTypeOf, s1, s2, s3]

/-! ## `checkStmt` against the rules -/

theorem exprIn_of_sub {e : Expr} {a : Bool} {t s : Stmt} (h : ExprIn e a t)
    (up : ∀ u, SubStmt u t → SubStmt u s) : ExprIn e a s := by
  obtain ⟨u, e0, a0, h1, h2, h3⟩ := h
  exact ⟨u, e0, a0, up u h1, h2, h3⟩

theorem stmtRules_sub {ctx : SemanticContext} {l l1 : Bool} {t s : Stmt}
    (h : StmtRules ctx l s) (up : ∀ u, SubStmt u t → SubStmt u s)
    (hl : l1 = false → BreakOutsideLoop t → l = false ∧ BreakOutsideLoop s) :
    StmtRules ctx l1 t := by
  refine ⟨fun e a he => h.1 e a (exprIn_of_sub he up), fun r hr => h.2.1 r (up _ hr), ?_⟩
  intro hl1 hb
  obtain ⟨h1, h2⟩ := hl hl1 hb
  exact h.2.2 h1 h2

theorem stmtRules_block {ctx : SemanticContext} {l : Bool} {stmts : List Stmt}
    (h : StmtRules ctx l (.Block stmts)) {s : Stmt} (hs : s ∈ stmts) : StmtRules ctx l s :=
  stmtRules_sub h (fun _ hu => .block stmts s hs hu) (fun hl hb => ⟨hl, .block stmts s hs hb⟩)

theorem stmtRules_then {ctx : SemanticContext} {l : Bool} {c : Expr} {t : Stmt}
    {e : Option Stmt} (h : StmtRules ctx l (.IfStmt c t e)) : StmtRules ctx l t :=
  stmtRules_sub h (fun _ hu => .thenStmt c t e hu) (fun hl hb => ⟨hl, .thenStmt c t e hb⟩)

theorem stmtRules_else {ctx : SemanticContext} {l : Bool} {c : Expr} {t e : Stmt}
    (h : StmtRules ctx l (.IfStmt c t (some e))) : StmtRules ctx l e :=
  stmtRules_sub h (fun _ hu => .elseStmt c t e hu) (fun hl hb => ⟨hl, .elseStmt c t e hb⟩)

theorem stmtRules_body {ctx : SemanticContext} {l : Bool} {c : Expr} {b : Stmt}
    (h : StmtRules ctx l (.WhileStmt c b)) : StmtRules ctx true b :=
  stmtRules_sub h (fun _ hu => .body c b hu) (fun hl _ => by cases hl)

theorem stmtRules_expr {ctx : SemanticContext} {l : Bool} {s : Stmt} (h : StmtRules ctx l s)
    {e0 : Expr} {a0 : Bool} (hse : StmtExpr s e0 a0) {c : SemanticContext}
    (hc : SameFunc ctx c) : ∀ e1 a1, ExprOccurs e1 a1 e0 a0 → NodeOK c e1 a1 :=
  fun e1 a1 ho => (nodeOK_sameFunc hc e1 a1).2 (h.1 e1 a1 ⟨s, e0, a0, .root s, hse, ho⟩)

theorem stmtRules_sameFunc {c c1 : SemanticContext} (hs : SameFunc c c1) {l : Bool} {s : Stmt}
    (h : StmtRules c l s) : StmtRules c1 l s :=
  ⟨fun e a he => (nodeOK_sameFunc hs e a).2 (h.1 e a he),
    fun r hr => by rw [← hs.2.2.2]; exact h.2.1 r hr, h.2.2⟩

mutual
theorem checkStmt_scopes : ∀ (s : Stmt) (ctx ctx1 : SemanticContext),
    checkStmt ctx s = .ok ctx1 →
      stmtResolved ctx.varScopes s = true ∧ stmtFresh ctx.varScopes s = true ∧
        ctx1.varScopes = scopesAfter ctx.varScopes s
  | .Block stmts, ctx, ctx1, h => by
      have hk := (checkStmt_keeps _ _ _ h).2.2
      simp only [checkStmt, bind_eq_ok, pure_eq_ok, Except.ok.injEq] at h
      obtain ⟨c0, h1, rfl⟩ := h
      obtain ⟨a1, a2, _⟩ := checkStmts_scopes stmts _ _ h1
      have hk0 := (checkStmts_keeps _ _ _ h1).2.2.1
      refine ⟨a1, a2, ?_⟩
      simp only [SemanticContext.leaveScope, hk0, SemanticContext.enterScope, List.tail_cons,
        scopesAfter]
  | .VarDecl _ name initExpr, ctx, ctx1, h => by
      simp only [checkStmt, bind_eq_ok, pure_eq_ok, Except.ok.injEq, failIf_eq_ok] at h
      obtain ⟨_, h1, _, h2, rfl⟩ := h
      refine ⟨(checkExprOpt_iff _ _).1 h2 |>.1, ?_, declareVar_varScopes _ _⟩
      simpa [stmtFresh, SemanticContext.inInnermost] using h1
  | .Assign name expr, ctx, ctx1, h => by
      simp only [checkStmt, bind_eq_ok, pure_eq_ok, Except.ok.injEq, failIf_eq_ok,
        Bool.not_eq_false_eq_eq_true, isVarDeclared_eq] at h
      obtain ⟨_, h1, _, h2, rfl⟩ := h
      exact ⟨by simp [stmtResolved, h1, checkExpr_resolved _ _ _ h2], rfl, rfl⟩
  | .ReturnStmt expr, ctx, ctx1, h => by
      simp only [checkStmt, bind_eq_ok, pure_eq_ok, Except.ok.injEq] at h
      obtain ⟨_, _, _, _, _, h2, rfl⟩ := h
      exact ⟨(checkExprOpt_iff _ _).1 h2 |>.1, rfl, rfl⟩
  | .ExprStmt expr, ctx, ctx1, h => by
      simp only [checkStmt, bind_eq_ok, pure_eq_ok, Except.ok.injEq] at h
      obtain ⟨_, h2, rfl⟩ := h
      exact ⟨checkExpr_resolved _ _ _ h2, rfl, rfl⟩
  | .IfStmt cond thenStmt elseStmt, ctx, ctx1, h => by
      simp only [checkStmt, bind_eq_ok] at h
      obtain ⟨_, h1, c0, h2, h3⟩ := h
      obtain ⟨a1, a2, a3⟩ := checkStmt_scopes thenStmt _ _ h2
      obtain ⟨b1, b2, b3⟩ := checkElse_scopes elseStmt _ _ h3
      rw [a3] at b1 b2 b3
      exact ⟨by simp [stmtResolved, checkExpr_resolved _ _ _ h1, a1, b1],
        by simp [stmtFresh, a2, b2], by simp [scopesAfter, b3]⟩
  | .WhileStmt cond body, ctx, ctx1, h => by
      simp only [checkStmt, bind_eq_ok, pure_eq_ok, Except.ok.injEq] at h
      obtain ⟨_, h1, c0, h2, rfl⟩ := h
      obtain ⟨a1, a2, a3⟩ := checkStmt_scopes body _ _ h2
      exact ⟨by simpa [stmtResolved, checkExpr_resolved _ _ _ h1] using a1,
        by simpa [stmtFresh] using a2, by simpa [scopesAfter] using a3⟩
  | .BreakStmt, ctx, ctx1, h => by
      simp only [checkStmt, bind_eq_ok, pure_eq_ok, Except.ok.injEq] at h
      obtain ⟨_, _, rfl⟩ := h
      exact ⟨rfl, rfl, rfl⟩
  | .ContinueStmt, ctx, ctx1, h => by
      simp only [checkStmt, bind_eq_ok, pure_eq_ok, Except.ok.injEq] at h
      obtain ⟨_, _, rfl⟩ := h
      exact ⟨rfl, rfl, rfl⟩
theorem checkStmts_scopes : ∀ (ss : List Stmt) (ctx ctx1 : SemanticContext),
    checkStmts ctx ss = .ok ctx1 →
      stmtsResolved ctx.varScopes ss = true ∧ stmtsFresh ctx.varScopes ss = true ∧
        ctx1.varScopes = scopesAfterList ctx.varScopes ss
  | [], ctx, ctx1, h => by
      simp only [checkStmts, pure_eq_ok, Except.ok.injEq] at h
      subst h
      exact ⟨rfl, rfl, rfl⟩
  | s :: rest, ctx, ctx1, h => by
      simp only [checkStmts, bind_eq_ok] at h
      obtain ⟨c0, h1, h2⟩ := h
      obtain ⟨a1, a2, a3⟩ := checkStmt_scopes s _ _ h1
      obtain ⟨b1, b2, b3⟩ := checkStmts_scopes rest _ _ h2
      rw [a3] at b1 b2 b3
      exact ⟨by simp [stmtsResolved, a1, b1], by simp [stmtsFresh, a2, b2],
        by simp [scopesAfterList, b3]⟩
theorem checkElse_scopes : ∀ (o : Option Stmt) (ctx ctx1 : SemanticContext),
    checkElse ctx o = .ok ctx1 →
      elseResolved ctx.varScopes o = true ∧ elseFresh ctx.varScopes o = true ∧
        ctx1.varScopes = scopesAfterElse ctx.varScopes o
  | none, ctx, ctx1, h => by
      simp only [checkElse, pure_eq_ok, Except.ok.injEq] at h
      subst h
      exact ⟨rfl, rfl, rfl⟩
  | some s, ctx, ctx1, h => by
      simp only [checkElse] at h
      obtain ⟨a1, a2, a3⟩ := checkStmt_scopes s _ _ h
      exact ⟨by simpa [elseResolved] using a1, by simpa [elseFresh] using a2,
        by simpa [scopesAfterElse] using a3⟩
end

mutual
theorem checkStmt_complete : ∀ (s : Stmt) (ctx : SemanticContext),
    stmtResolved ctx.varScopes s = true → stmtFresh ctx.varScopes s = true →
    StmtRules ctx ctx.inLoop s → ∃ ctx1, checkStmt ctx s = .ok ctx1
  | .Block stmts, ctx, hr, hf, hs => by
      simp only [stmtResolved] at hr
      simp only [stmtFresh] at hf
      obtain ⟨c0, h0⟩ := checkStmts_complete stmts ctx.enterScope hr hf
        (fun s hm => stmtRules_sameFunc ⟨rfl, rfl, rfl, rfl⟩ (stmtRules_block hs hm))
      exact ⟨c0.leaveScope, by simp only [checkStmt, h0, ok_bind, pure_eq_ok]⟩
  | .VarDecl ty name initExpr, ctx, hr, hf, hs => by
      simp only [stmtResolved] at hr
      simp only [stmtFresh, Bool.not_eq_true_eq_eq_false, decide_eq_false_iff_not] at hf
      have h1 : ctx.inInnermost name = false := by
        simpa [SemanticContext.inInnermost] using hf
      have h2 : checkExprOpt ctx initExpr = .ok () := by
        rw [checkExprOpt_iff]
        refine ⟨hr, ?_⟩
        rintro e rfl
        exact stmtRules_expr hs (.initExpr ty name e) (sameFunc_refl _)
      exact ⟨ctx.declareVar name, by simp only [checkStmt, h1, failIf_false, ok_bind, h2, pure_eq_ok]⟩
  | .Assign name expr, ctx, hr, hf, hs => by
      simp only [stmtResolved, Bool.and_eq_true] at hr
      have h1 : ctx.isVarDeclared name = true := by rw [isVarDeclared_eq]; exact hr.1
      have h2 : checkExpr ctx expr false = .ok () :=
        checkExpr_complete _ _ _ hr.2 (stmtRules_expr hs (.assigned name expr) (sameFunc_refl _))
      exact ⟨ctx, by simp only [checkStmt, h1, Bool.not_true, failIf_false, ok_bind, h2, pure_eq_ok]⟩
  | .ReturnStmt expr, ctx, hr, hf, hs => by
      simp only [stmtResolved] at hr
      obtain ⟨r1, r2⟩ := hs.2.1 expr (.root _)
      have h1 : (ctx.curFuncRetType == "void" && expr.isSome) = false := by
        by_cases hv : ctx.curFuncRetType = "void"
        · simp [r1 hv]
        · simp [hv]
      have h2 : (ctx.curFuncRetType == "int" && expr.isNone) = false := by
        by_cases hv : ctx.curFuncRetType = "int"
        · have := r2 hv
          cases expr with
          | none => exact absurd rfl this
          | some e => simp
        · simp [hv]
      have h3 : checkExprOpt { ctx with hasReturn := true } expr = .ok () := by
        rw [checkExprOpt_iff]
        refine ⟨hr, ?_⟩
        rintro e rfl
        exact stmtRules_expr hs (.returned e) ⟨rfl, rfl, rfl, rfl⟩
      exact ⟨{ ctx with hasReturn := true },
        by simp only [checkStmt, h1, failIf_false, ok_bind, h2, h3, pure_eq_ok]⟩
  | .ExprStmt expr, ctx, hr, hf, hs => by
      simp only [stmtResolved] at hr
      have h2 : checkExpr ctx expr true = .ok () :=
        checkExpr_complete _ _ _ hr (stmtRules_expr hs (.discarded expr) (sameFunc_refl _))
      exact ⟨ctx, by simp only [checkStmt, h2, ok_bind, pure_eq_ok]⟩
  | .IfStmt cond thenStmt elseStmt, ctx, hr, hf, hs => by
      simp only [stmtResolved, Bool.and_eq_true] at hr
      simp only [stmtFresh, Bool.and_eq_true] at hf
      have h1 : checkExpr ctx cond false = .ok () :=
        checkExpr_complete _ _ _ hr.1.1
          (stmtRules_expr hs (.ifCond cond thenStmt elseStmt) (sameFunc_refl _))
      obtain ⟨c0, h2⟩ := checkStmt_complete thenStmt ctx hr.1.2 hf.1 (stmtRules_then hs)
      have hk := checkStmt_keeps _ _ _ h2
      have hsc := (checkStmt_scopes _ _ _ h2).2.2
      have h3 : ∃ c1, checkElse c0 elseStmt = .ok c1 := by
        cases elseStmt with
        | none => exact ⟨c0, rfl⟩
        | some e =>
            simp only [elseResolved] at hr
            simp only [elseFresh] at hf
            have hs2 : StmtRules c0 c0.inLoop e := by
              rw [hk.2.1]
              exact stmtRules_sameFunc hk.1 (stmtRules_else hs)
            obtain ⟨c1, h4⟩ := checkStmt_complete e c0 (by rw [hsc]; exact hr.2)
              (by rw [hsc]; exact hf.2) hs2
            exact ⟨c1, by simpa only [checkElse] using h4⟩
      obtain ⟨c1, h4⟩ := h3
      exact ⟨c1, by simp only [checkStmt, h1, ok_bind, h2, h4]⟩
  | .WhileStmt cond body, ctx, hr, hf, hs => by
      simp only [stmtResolved, Bool.and_eq_true] at hr
      simp only [stmtFresh] at hf
      have h1 : checkExpr ctx cond false = .ok () :=
        checkExpr_complete _ _ _ hr.1
          (stmtRules_expr hs (.whileCond cond body) (sameFunc_refl _))
      obtain ⟨c0, h2⟩ := checkStmt_complete body { ctx with inLoop := true } hr.2 hf
        (stmtRules_sameFunc ⟨rfl, rfl, rfl, rfl⟩ (stmtRules_body hs))
      exact ⟨{ c0 with inLoop := ctx.inLoop },
        by simp only [checkStmt, h1, ok_bind, h2, pure_eq_ok]⟩
  | .BreakStmt, ctx, hr, hf, hs => by
      have hl : ctx.inLoop = true := by
        cases h : ctx.inLoop with
        | true => rfl
        | false => exact absurd .breakStmt (hs.2.2 h)
      exact ⟨ctx, by simp only [checkStmt, hl, Bool.not_true, failIf_false, ok_bind, pure_eq_ok]⟩
  | .ContinueStmt, ctx, hr, hf, hs => by
      have hl : ctx.inLoop = true := by
        cases h : ctx.inLoop with
        | true => rfl
        | false => exact absurd .continueStmt (hs.2.2 h)
      exact ⟨ctx, by simp only [checkStmt, hl, Bool.not_true, failIf_false, ok_bind, pure_eq_ok]⟩
theorem checkStmts_complete : ∀ (ss : List Stmt) (ctx : SemanticContext),
    stmtsResolved ctx.varScopes ss = true → stmtsFresh ctx.varScopes ss = true →
    (∀ s ∈ ss, StmtRules ctx ctx.inLoop s) → ∃ ctx1, checkStmts ctx ss = .ok ctx1
  | [], ctx, _, _, _ => ⟨ctx, rfl⟩
  | s :: rest, ctx, hr, hf, hs => by
      simp only [stmtsResolved, Bool.and_eq_true] at hr
      simp only [stmtsFresh, Bool.and_eq_true] at hf
      obtain ⟨c0, h1⟩ := checkStmt_complete s ctx hr.1 hf.1 (hs s (List.mem_cons_self _ _))
      have hk := checkStmt_keeps _ _ _ h1
      have hsc := (checkStmt_scopes _ _ _ h1).2.2
      obtain ⟨c1, h2⟩ := checkStmts_complete rest c0 (by rw [hsc]; exact hr.2)
        (by rw [hsc]; exact hf.2)
        (fun t ht => by
          rw [hk.2.1]
          exact stmtRules_sameFunc hk.1 (hs t (List.mem_cons_of_mem _ ht)))
      exact ⟨c1, by simp only [checkStmts, h1, ok_bind, h2]⟩
end

/-- The second half of the characterisation: what acceptance of a statement gives for
the rules that do not depend on the scopes. -/
theorem checkStmt_rules {s : Stmt} {ctx ctx1 : SemanticContext}
    (h : checkStmt ctx s = .ok ctx1) : StmtRules ctx ctx.inLoop s := by
  refine ⟨?_, ?_, ?_⟩
  · intro e a he
    obtain ⟨c, hs, hc⟩ := exprIn_ok he h
    exact (nodeOK_sameFunc hs e a).1 (checkExpr_nodeOK hc)
  · intro r hr
    obtain ⟨c, c1, hs, hc⟩ := subStmt_ok hr ctx ctx1 h
    have := checkStmt_return_ok hc
    rw [← hs.2.2.2] at this
    exact this
  · intro hl hb
    have := breakOutsideLoop_rejected hb ctx hl
    rw [h] at this
    cases this

/-- `checkStmt` accepts a statement exactly when its variable references resolve, no
declaration repeats a name of its innermost scope, and the rules on calls, divisors,
return statements and loops hold. -/
theorem checkStmt_iff (s : Stmt) (ctx : SemanticContext) :
    (∃ ctx1, checkStmt ctx s = .ok ctx1) ↔
      stmtResolved ctx.varScopes s = true ∧ stmtFresh ctx.varScopes s = true ∧
        StmtRules ctx ctx.inLoop s :=
  ⟨fun ⟨_, h⟩ => ⟨(checkStmt_scopes _ _ _ h).1, (checkStmt_scopes _ _ _ h).2.1, checkStmt_rules h⟩,
    fun h => checkStmt_complete s ctx h.1 h.2.1 h.2.2⟩

/-! ## `checkFunction` and `analyze` against the rules -/

theorem visible_singleton (n : String) (s : List String) : visible n [s] = decide (n ∈ s) := by
  simp [visible]

theorem declareParams_ok : ∀ (ps : List (String × String)) (ctx c : SemanticContext)
    (s : List String), ctx.varScopes = [s] → declareParams ctx ps = .ok c →
      (ps.map (·.2)).Nodup ∧ (∀ p ∈ ps, p.2 ∉ s) ∧ c.varScopes = [(ps.map (·.2)).reverse ++ s]
  | [], ctx, c, s, hs, h => by
      simp only [declareParams, pure_eq_ok, Except.ok.injEq] at h
      subst h
      simp [hs]
  | p :: rest, ctx, c, s, hs, h => by
      simp only [declareParams, bind_eq_ok, failIf_eq_ok, isVarDeclared_eq, hs,
        visible_singleton, decide_eq_false_iff_not] at h
      obtain ⟨_, h1, h2⟩ := h
      have hs1 : (ctx.declareVar p.2).varScopes = [p.2 :: s] := by
        rw [declareVar_varScopes, hs]; rfl
      obtain ⟨a1, a2, a3⟩ := declareParams_ok rest _ c _ hs1 h2
      refine ⟨?_, ?_, ?_⟩
      · simp only [List.map_cons, List.nodup_cons, List.mem_map, not_exists, not_and]
        refine ⟨fun q hq hqp => ?_, a1⟩
        have := a2 q hq
        simp only [List.mem_cons, not_or] at this
        exact this.1 hqp
      · intro q hq
        rcases List.mem_cons.1 hq with rfl | hq
        · exact h1
        · have := a2 q hq
          simp only [List.mem_cons, not_or] at this
          exact this.2
      · rw [a3]
        simp

theorem declareParams_complete : ∀ (ps : List (String × String)) (ctx : SemanticContext)
    (s : List String), ctx.varScopes = [s] → (ps.map (·.2)).Nodup → (∀ p ∈ ps, p.2 ∉ s) →
      ∃ c, declareParams ctx ps = .ok c
  | [], ctx, s, _, _, _ => ⟨ctx, rfl⟩
  | p :: rest, ctx, s, hs, hnd, hfresh => by
      simp only [List.map_cons, List.nodup_cons, List.mem_map, not_exists, not_and] at hnd
      have h1 : ctx.isVarDeclared p.2 = false := by
        rw [isVarDeclared_eq, hs, visible_singleton]
        simpa using hfresh p (List.mem_cons_self _ _)
      have hs1 : (ctx.declareVar p.2).varScopes = [p.2 :: s] := by
        rw [declareVar_varScopes, hs]; rfl
      obtain ⟨c, hc⟩ := declareParams_complete rest (ctx.declareVar p.2) _ hs1 hnd.2
        (fun q hq => by
          simp only [List.mem_cons, not_or]
          exact ⟨fun hqp => hnd.1 q hq hqp, hfresh q (List.mem_cons_of_mem _ hq)⟩)
      exact ⟨c, by simp only [declareParams, h1, failIf_false, ok_bind, hc]⟩

/-- `checkFunction`, entered with an empty scope stack, accepts a function exactly when
its parameter names are distinct, its body satisfies the rules in the scope of the
parameters, and it returns on all paths if it returns `int`. -/
theorem checkFunction_iff (ctx : SemanticContext) (f : FunctionDef) (hsc : ctx.varScopes = []) :
    (∃ c1, checkFunction ctx f = .ok c1) ↔
      (f.params.map (·.2)).Nodup ∧ stmtResolved [paramScope f] f.body = true ∧
        stmtFresh [paramScope f] f.body = true ∧
        StmtRules (funcEntry ctx f) ctx.inLoop f.body ∧
        (f.retType = "int" → ReturnsOnAllPaths f.body) := by
  have hentry : (funcEntry ctx f).varScopes = [[]] := by
    simp [funcEntry, SemanticContext.enterScope, hsc]
  constructor
  · rintro ⟨c1, h⟩
    obtain ⟨c2, c3, h2, h3, h4, _⟩ := checkFunction_eq_ok.1 h
    obtain ⟨a1, _, a3⟩ := declareParams_ok _ _ _ _ hentry h2
    simp only [List.append_nil] at a3
    have hk := declareParams_keeps _ _ _ h2
    obtain ⟨b1, b2, _⟩ := checkStmt_scopes _ _ _ h3
    rw [a3] at b1 b2
    have hr := checkStmt_rules h3
    rw [hk.2.1] at hr
    refine ⟨a1, b1, b2, ?_, fun hi => (checkAllPathsReturn_iff _).1 (h4 hi)⟩
    exact stmtRules_sameFunc (sameFunc_symm hk.1) hr
  · rintro ⟨a1, b1, b2, hr, h4⟩
    obtain ⟨c2, h2⟩ := declareParams_complete f.params (funcEntry ctx f) [] hentry a1
      (fun _ _ => List.not_mem_nil _)
    obtain ⟨_, _, a3⟩ := declareParams_ok _ _ _ _ hentry h2
    simp only [List.append_nil] at a3
    have hk := declareParams_keeps _ _ _ h2
    have hr2 : StmtRules c2 c2.inLoop f.body := by
      rw [hk.2.1]
      exact stmtRules_sameFunc hk.1 hr
    obtain ⟨c3, h3⟩ := checkStmt_complete f.body c2 (by rw [a3]; exact b1)
      (by rw [a3]; exact b2) hr2
    exact ⟨c3.leaveScope, checkFunction_eq_ok.2
      ⟨c2, c3, h2, h3, fun hi => (checkAllPathsReturn_iff _).2 (h4 hi), rfl⟩⟩

theorem literalZeroDivisor_eq_false {op : String} {r : Expr} :
    literalZeroDivisor op r = false ↔ (r = .IntLiteral 0 → op ≠ "/" ∧ op ≠ "%") := by
  cases r with
  | IntLiteral v =>
      by_cases hv : v = 0
      · subst hv
        simp [literalZeroDivisor]
      · simp [literalZeroDivisor, hv]
  | _ => simp [literalZeroDivisor]

/-- The call rule of a node, read on the positions of the program. -/
theorem nodeOK_call_iff {prog : Program} {pre post : List FunctionDef} {f : FunctionDef}
    {c : SemanticContext} (hnd : (prog.functions.map (·.name)).Nodup)
    (hp : prog.functions = pre ++ f :: post) (hb : AtBody prog f c)
    (n : String) (args : List Expr) (a : Bool) :
    NodeOK c (.FuncCall n args) a ↔
      ∃ g ∈ pre ++ [f], g.name = n ∧ (g.retType = "void" → a = true) := by
  obtain ⟨b1, b2, b3⟩ := atBody_funcDeclared hb n
  have b4 := (atBody_funcDeclared hb f.name).2.2
  simp only [NodeOK, b1, b2, b3, hb.2.2.1, b4, (tablesOf_at hnd hp).2.2]
  constructor
  · rintro ⟨hd, hle, hv⟩
    obtain ⟨g, hg, rfl⟩ := tablesOf_declared hd
    obtain ⟨p1, p2, hp2⟩ := List.append_of_mem hg
    obtain ⟨_, t2, t3⟩ := tablesOf_at hnd hp2
    rw [t2] at hv
    rw [t3] at hle
    refine ⟨g, ?_, rfl, hv⟩
    rw [hp] at hg
    rcases List.mem_append.1 hg with hg | hg
    · exact List.mem_append_left _ hg
    · rcases List.mem_cons.1 hg with rfl | hg
      · simp
      · obtain ⟨q1, q2, rfl⟩ := List.append_of_mem hg
        have hp3 : prog.functions = (pre ++ f :: q1) ++ g :: q2 := by rw [hp]; simp
        have t4 := (tablesOf_at hnd hp3).2.2
        rw [t3] at t4
        rw [t4] at hle
        simp only [List.length_append, List.length_cons] at hle
        omega
  · rintro ⟨g, hg, rfl, hv⟩
    have hle : ∃ p1 p2, prog.functions = p1 ++ g :: p2 ∧ p1.length ≤ pre.length := by
      rcases List.mem_append.1 hg with hg | hg
      · obtain ⟨q1, q2, rfl⟩ := List.append_of_mem hg
        exact ⟨q1, q2 ++ f :: post, by rw [hp]; simp, by simp⟩
      · simp only [List.mem_singleton] at hg
        subst hg
        exact ⟨pre, post, hp, Nat.le_refl _⟩
    obtain ⟨p1, p2, hp2, hlen⟩ := hle
    obtain ⟨t1, t2, t3⟩ := tablesOf_at hnd hp2
    rw [t1, t2, t3]
    exact ⟨rfl, hlen, hv⟩

/-- The rules on the body of a function of the program, in a context of the second pass,
are the rules of `FunctionOK`. -/
theorem stmtRules_iff {prog : Program} {pre post : List FunctionDef} {f : FunctionDef}
    {c : SemanticContext} (hnd : (prog.functions.map (·.name)).Nodup)
    (hp : prog.functions = pre ++ f :: post) (hb : AtBody prog f c) :
    StmtRules c false f.body ↔
      (∀ e, SubStmt (.ReturnStmt e) f.body → ReturnOK f.retType e) ∧
      ¬ BreakOutsideLoop f.body ∧
      (∀ n args a, ExprIn (.FuncCall n args) a f.body →
        ∃ g ∈ pre ++ [f], g.name = n ∧ (g.retType = "void" → a = true)) ∧
      (∀ op l a, ExprIn (.BinaryExpr op l (.IntLiteral 0)) a f.body → op ≠ "/" ∧ op ≠ "%") := by
  unfold StmtRules
  rw [hb.2.2.2.1]
  constructor
  · rintro ⟨h1, h2, h3⟩
    refine ⟨h2, h3 rfl, ?_, ?_⟩
    · intro n args a hin
      exact (nodeOK_call_iff hnd hp hb n args a).1 (h1 _ _ hin)
    · intro op l a hin
      exact literalZeroDivisor_eq_false.1 (h1 _ _ hin) rfl
  · rintro ⟨h2, h3, h4, h5⟩
    refine ⟨?_, h2, fun _ => h3⟩
    intro e a hin
    cases e with
    | IntLiteral v => trivial
    | VarRef n => trivial
    | UnaryExpr op x => trivial
    | FuncCall n args => exact (nodeOK_call_iff hnd hp hb n args a).2 (h4 n args a hin)
    | BinaryExpr op l r =>
        refine literalZeroDivisor_eq_false.2 ?_
        rintro rfl
        exact h5 op l a hin

theorem sameGlobal_tablesOf {prog : Program} {c : SemanticContext}
    (hg : SameGlobal (tablesOf prog) c) : c.varScopes = [] ∧ c.inLoop = false := by
  obtain ⟨_, _, _, g4, g5⟩ := hg
  rw [g4, g5]
  exact ⟨(addFunctions_other _ _ _).2, (addFunctions_other _ _ _).1⟩

/-- `checkFunction` in the second pass against `FunctionOK`. -/
theorem checkFunction_iff_functionOK {prog : Program} {pre post : List FunctionDef}
    {f : FunctionDef} {c : SemanticContext} (hnd : (prog.functions.map (·.name)).Nodup)
    (hp : prog.functions = pre ++ f :: post) (hg : SameGlobal (tablesOf prog) c) :
    (∃ c1, checkFunction c f = .ok c1) ↔ FunctionOK pre f := by
  obtain ⟨hsc, hl⟩ := sameGlobal_tablesOf hg
  rw [checkFunction_iff c f hsc, hl, stmtRules_iff hnd hp (atBody_funcEntry f hg)]
  constructor
  · rintro ⟨h1, h2, h3, ⟨h4, h5, h6, h7⟩, h8⟩
    exact ⟨h1, h2, h8, h3, h4, h5, h6, h7⟩
  · rintro ⟨h1, h2, h8, h3, h4, h5, h6, h7⟩
    exact ⟨h1, h2, h3, ⟨h4, h5, h6, h7⟩, h8⟩

theorem checkFunctions_complete {prog : Program}
    (hnd : (prog.functions.map (·.name)).Nodup)
    (hall : ∀ pre f post, prog.functions = pre ++ f :: post → FunctionOK pre f) :
    ∀ (post pre : List FunctionDef) (c : SemanticContext), prog.functions = pre ++ post →
      SameGlobal (tablesOf prog) c → ∃ c1, checkFunctions c post = .ok c1
  | [], _, c, _, _ => ⟨c, rfl⟩
  | f :: rest, pre, c, hp, hg => by
      obtain ⟨c1, h1⟩ := (checkFunction_iff_functionOK hnd hp hg).2 (hall pre f rest hp)
      obtain ⟨c2, h2⟩ := checkFunctions_complete hnd hall rest (pre ++ [f]) c1
        (by rw [hp]; simp) (sameGlobal_trans hg (checkFunction_sameGlobal h1))
      exact ⟨c2, by simp only [checkFunctions, h1, ok_bind, h2]⟩

/-- `analyze` accepts a program exactly when the function names are distinct, there is
one `main`, every `main` returns `int` without parameters, and every function satisfies
the rules of the second pass. -/
theorem analyze_iff (prog : Program) :
    analyze prog = .ok () ↔
      (prog.functions.map (·.name)).Nodup ∧ countMain prog.functions = 1 ∧
        (∀ f ∈ prog.functions, MainOK f) ∧
        ∀ pre f post, prog.functions = pre ++ f :: post → FunctionOK pre f := by
  constructor
  · intro h
    obtain ⟨h1, h2, h3, c, h4⟩ := analyze_ok_register h
    refine ⟨h1, h3, h2, ?_⟩
    intro pre f post hp
    have hf : f ∈ prog.functions := by rw [hp]; simp
    obtain ⟨c0, c1, hg, hc⟩ := checkFunctions_mem _ _ _ h4 f hf
    exact (checkFunction_iff_functionOK h1 hp hg).1 ⟨c1, hc⟩
  · rintro ⟨h1, h3, h2, hall⟩
    obtain ⟨c, hc⟩ := checkFunctions_complete h1 hall prog.functions [] (tablesOf prog)
      (by simp) (sameGlobal_refl _)
    refine analyze_eq_ok.2 ⟨tablesOf prog, 0 + prog.functions.length, c, ?_, hc⟩
    rw [registerFunctions_eq_ok]
    refine ⟨fun f _ => by simp, h1, h2, ?_⟩
    simp [tablesOf, h3]

/-! ## The node at which an expression error is raised -/

mutual
theorem checkExpr_error_node : ∀ (e : Expr) (ctx : SemanticContext) (a : Bool)
    (err : SemanticError), checkExpr ctx e a = .error err →
      ∃ e1 a1, ExprOccurs e1 a1 e a ∧ NodeError ctx e1 a1 err
  | .IntLiteral _, ctx, a, err, h => by simp [checkExpr, pure_eq_ok] at h
  | .VarRef n, ctx, a, err, h => by
      simp only [checkExpr, failIf_eq_error, Bool.not_eq_true_eq_eq_false] at h
      exact ⟨_, _, .root _ _, h.2, by simpa using h.1⟩
  | .BinaryExpr op l r, ctx, a, err, h => by
      simp only [checkExpr, bind_eq_error, failIf_eq_error] at h
      rcases h with h | ⟨_, _, h | ⟨_, _, h⟩⟩
      · obtain ⟨e1, a1, ho, hn⟩ := checkExpr_error_node l ctx false err h
        exact ⟨e1, a1, .lhs op l r a ho, hn⟩
      · obtain ⟨e1, a1, ho, hn⟩ := checkExpr_error_node r ctx false err h
        exact ⟨e1, a1, .rhs op l r a ho, hn⟩
      · exact ⟨_, _, .root _ _, h.2, h.1⟩
  | .UnaryExpr op x, ctx, a, err, h => by
      simp only [checkExpr] at h
      obtain ⟨e1, a1, ho, hn⟩ := checkExpr_error_node x ctx false err h
      exact ⟨e1, a1, .operand op x a ho, hn⟩
  | .FuncCall g args, ctx, a, err, h => by
      simp only [checkExpr, bind_eq_error, failIf_eq_error, failIf_eq_ok] at h
      rcases h with h | ⟨_, h1, h | ⟨_, h2, h | ⟨_, h3, h⟩⟩⟩
      · exact ⟨_, _, .root _ _, Or.inl ⟨h.2, by simpa using h.1⟩⟩
      · exact ⟨_, _, .root _ _, Or.inr (Or.inl ⟨h.2, by simpa using h1, by simpa using h.1⟩)⟩
      · refine ⟨_, _, .root _ _, Or.inr (Or.inr ⟨h.2, by simpa using h1, ?_⟩)⟩
        simpa using h.1
      · obtain ⟨x, hx, e1, a1, ho, hn⟩ := checkArgs_error_node args ctx err h
        exact ⟨e1, a1, .arg g args x a hx ho, hn⟩
theorem checkArgs_error_node : ∀ (args : List Expr) (ctx : SemanticContext)
    (err : SemanticError), checkArgs ctx args = .error err →
      ∃ x ∈ args, ∃ e1 a1, ExprOccurs e1 a1 x false ∧ NodeError ctx e1 a1 err
  | [], ctx, err, h => by simp [checkArgs, pure_eq_ok] at h
  | x :: rest, ctx, err, h => by
      simp only [checkArgs, bind_eq_error] at h
      rcases h with h | ⟨_, _, h⟩
      · obtain ⟨e1, a1, ho, hn⟩ := checkExpr_error_node x ctx false err h
        exact ⟨x, List.mem_cons_self _ _, e1, a1, ho, hn⟩
      · obtain ⟨y, hy, e1, a1, ho, hn⟩ := checkArgs_error_node rest ctx err h
        exact ⟨y, List.mem_cons_of_mem _ hy, e1, a1, ho, hn⟩
end

theorem absurd_fromCallOrDiv {p : Prop} {err err1 : SemanticError} (h : err = err1)
    (hc : err.fromCallOrDiv = true) (h1 : err1.fromCallOrDiv = false) : p := by
  rw [h, h1] at hc
  cases hc

mutual
theorem checkStmt_error_node : ∀ (s : Stmt) (ctx : SemanticContext) (err : SemanticError),
    checkStmt ctx s = .error err → err.fromCallOrDiv = true →
      ∃ c e a, SameFunc ctx c ∧ ExprIn e a s ∧ NodeError c e a err
  | .Block stmts, ctx, err, h, hc => by
      simp only [checkStmt, bind_eq_error, pure_eq_ok] at h
      rcases h with h | ⟨_, _, h⟩
      · obtain ⟨s, hs, c, e, a, h1, h2, h3⟩ := checkStmts_error_node stmts _ err h hc
        exact ⟨c, e, a, sameFunc_trans ⟨rfl, rfl, rfl, rfl⟩ h1,
          exprIn_of_sub h2 (fun _ hu => .block stmts s hs hu), h3⟩
      · cases h
  | .VarDecl ty name initExpr, ctx, err, h, hc => by
      simp only [checkStmt, bind_eq_error, failIf_eq_error, pure_eq_ok] at h
      rcases h with h | ⟨_, _, h | ⟨_, _, h⟩⟩
      · exact absurd_fromCallOrDiv h.2 hc rfl
      · cases initExpr with
        | none => simp [checkExprOpt, pure_eq_ok] at h
        | some e0 =>
            obtain ⟨e1, a1, ho, hn⟩ := checkExpr_error_node e0 ctx false err h
            exact ⟨ctx, e1, a1, sameFunc_refl _, ⟨_, e0, false, .root _, .initExpr ty name e0, ho⟩,
              hn⟩
      · cases h
  | .Assign name expr, ctx, err, h, hc => by
      simp only [checkStmt, bind_eq_error, failIf_eq_error, pure_eq_ok] at h
      rcases h with h | ⟨_, _, h | ⟨_, _, h⟩⟩
      · exact absurd_fromCallOrDiv h.2 hc rfl
      · obtain ⟨e1, a1, ho, hn⟩ := checkExpr_error_node expr ctx false err h
        exact ⟨ctx, e1, a1, sameFunc_refl _, ⟨_, expr, false, .root _, .assigned name expr, ho⟩,
          hn⟩
      · cases h
  | .ReturnStmt expr, ctx, err, h, hc => by
      simp only [checkStmt, bind_eq_error, failIf_eq_error, pure_eq_ok] at h
      rcases h with h | ⟨_, _, h | ⟨_, _, h | ⟨_, _, h⟩⟩⟩
      · exact absurd_fromCallOrDiv h.2 hc rfl
      · exact absurd_fromCallOrDiv h.2 hc rfl
      · cases expr with
        | none => simp [checkExprOpt, pure_eq_ok] at h
        | some e0 =>
            obtain ⟨e1, a1, ho, hn⟩ := checkExpr_error_node e0 _ false err h
            exact ⟨{ ctx with hasReturn := true }, e1, a1, ⟨rfl, rfl, rfl, rfl⟩,
              ⟨_, e0, false, .root _, .returned e0, ho⟩, hn⟩
      · cases h
  | .ExprStmt expr, ctx, err, h, hc => by
      simp only [checkStmt, bind_eq_error, pure_eq_ok] at h
      rcases h with h | ⟨_, _, h⟩
      · obtain ⟨e1, a1, ho, hn⟩ := checkExpr_error_node expr ctx true err h
        exact ⟨ctx, e1, a1, sameFunc_refl _, ⟨_, expr, true, .root _, .discarded expr, ho⟩, hn⟩
      · cases h
  | .IfStmt cond thenStmt elseStmt, ctx, err, h, hc => by
      simp only [checkStmt, bind_eq_error] at h
      rcases h with h | ⟨_, _, h | ⟨c1, h1, h⟩⟩
      · obtain ⟨e1, a1, ho, hn⟩ := checkExpr_error_node cond ctx false err h
        exact ⟨ctx, e1, a1, sameFunc_refl _,
          ⟨_, cond, false, .root _, .ifCond cond thenStmt elseStmt, ho⟩, hn⟩
      · obtain ⟨c, e, a, k1, k2, k3⟩ := checkStmt_error_node thenStmt ctx err h hc
        exact ⟨c, e, a, k1, exprIn_of_sub k2 (fun _ hu => .thenStmt cond thenStmt elseStmt hu), k3⟩
      · cases elseStmt with
        | none => simp [checkElse, pure_eq_ok] at h
        | some s =>
            simp only [checkElse] at h
            obtain ⟨c, e, a, k1, k2, k3⟩ := checkStmt_error_node s c1 err h hc
            exact ⟨c, e, a, sameFunc_trans (checkStmt_keeps _ _ _ h1).1 k1,
              exprIn_of_sub k2 (fun _ hu => .elseStmt cond thenStmt s hu), k3⟩
  | .WhileStmt cond body, ctx, err, h, hc => by
      simp only [checkStmt, bind_eq_error, pure_eq_ok] at h
      rcases h with h | ⟨_, _, h | ⟨_, _, h⟩⟩
      · obtain ⟨e1, a1, ho, hn⟩ := checkExpr_error_node cond ctx false err h
        exact ⟨ctx, e1, a1, sameFunc_refl _,
          ⟨_, cond, false, .root _, .whileCond cond body, ho⟩, hn⟩
      · obtain ⟨c, e, a, k1, k2, k3⟩ := checkStmt_error_node body _ err h hc
        exact ⟨c, e, a, sameFunc_trans ⟨rfl, rfl, rfl, rfl⟩ k1,
          exprIn_of_sub k2 (fun _ hu => .body cond body hu), k3⟩
      · cases h
  | .BreakStmt, ctx, err, h, hc => by
      simp only [checkStmt, bind_eq_error, failIf_eq_error, pure_eq_ok] at h
      rcases h with h | ⟨_, _, h⟩
      · exact absurd_fromCallOrDiv h.2 hc rfl
      · cases h
  | .ContinueStmt, ctx, err, h, hc => by
      simp only [checkStmt, bind_eq_error, failIf_eq_error, pure_eq_ok] at h
      rcases h with h | ⟨_, _, h⟩
      · exact absurd_fromCallOrDiv h.2 hc rfl
      · cases h
theorem checkStmts_error_node : ∀ (ss : List Stmt) (ctx : SemanticContext)
    (err : SemanticError), checkStmts ctx ss = .error err → err.fromCallOrDiv = true →
      ∃ s ∈ ss, ∃ c e a, SameFunc ctx c ∧ ExprIn e a s ∧ NodeError c e a err
  | [], ctx, err, h, _ => by simp [checkStmts, pure_eq_ok] at h
  | x :: rest, ctx, err, h, hc => by
      simp only [checkStmts, bind_eq_error] at h
      rcases h with h | ⟨c1, h1, h⟩
      · obtain ⟨c, e, a, k1, k2, k3⟩ := checkStmt_error_node x ctx err h hc
        exact ⟨x, List.mem_cons_self _ _, c, e, a, k1, k2, k3⟩
      · obtain ⟨s, hs, c, e, a, k1, k2, k3⟩ := checkStmts_error_node rest c1 err h hc
        exact ⟨s, List.mem_cons_of_mem _ hs, c, e, a,
          sameFunc_trans (checkStmt_keeps _ _ _ h1).1 k1, k2, k3⟩
end

/-! ## Errors of the call and division rules at the level of the program -/

theorem literalZeroDivisor_eq_true {op : String} {r : Expr}
    (h : literalZeroDivisor op r = true) : (op = "/" ∨ op = "%") ∧ r = .IntLiteral 0 := by
  cases r with
  | IntLiteral v =>
      simp only [literalZeroDivisor, Bool.and_eq_true, Bool.or_eq_true, beq_iff_eq] at h
      exact ⟨h.1, by rw [h.2]⟩
  | _ => simp [literalZeroDivisor] at h

/-- An error of the call or division rules that `analyze` reports was raised at an
expression node in the body of a function of the program, in a context of the second
pass. -/
theorem analyze_error_node {prog : Program} {err : SemanticError}
    (h : analyze prog = .error err) (hc : err.fromCallOrDiv = true) :
    (prog.functions.map (·.name)).Nodup ∧
      ∃ pre f post c c1 e a, prog.functions = pre ++ f :: post ∧ AtBody prog f c ∧
        SameFunc c c1 ∧ ExprIn e a f.body ∧ NodeError c1 e a err := by
  obtain ⟨hnd, pre, f, post, c, hp, hb, hs⟩ := analyze_error_body h
    (fun n hn => absurd_fromCallOrDiv hn hc rfl) (fun hn => absurd_fromCallOrDiv hn hc rfl)
    (fun hn => absurd_fromCallOrDiv hn hc rfl) (fun hn => absurd_fromCallOrDiv hn hc rfl)
    (fun n hn => absurd_fromCallOrDiv hn hc rfl) (fun n hn => absurd_fromCallOrDiv hn hc rfl)
  obtain ⟨c1, e, a, k1, k2, k3⟩ := checkStmt_error_node _ _ _ hs hc
  exact ⟨hnd, pre, f, post, c, c1, e, a, hp, hb, k1, k2, k3⟩

/-- The divide-by-zero error is reported only for a `/` or `%` node whose right operand
is the literal 0. -/
theorem analyze_divideByZero {prog : Program} (h : analyze prog = .error .divideByZero) :
    ∃ f ∈ prog.functions, ∃ op l a, (op = "/" ∨ op = "%") ∧
      ExprIn (.BinaryExpr op l (.IntLiteral 0)) a f.body := by
  obtain ⟨_, pre, f, post, c, c1, e, a, hp, _, _, hin, hn⟩ := analyze_error_node h rfl
  refine ⟨f, by rw [hp]; simp, ?_⟩
  cases e with
  | IntLiteral v => cases hn
  | UnaryExpr op x => cases hn
  | VarRef n => cases hn.1
  | FuncCall n args =>
      rcases hn with hn | hn | hn <;> cases hn.1
  | BinaryExpr op l r =>
      obtain ⟨hop, rfl⟩ := literalZeroDivisor_eq_true hn.2
      exact ⟨op, l, a, hop, hin⟩

/-- The void-call error is reported only for a call of a `void` function of the program
in a position where the result is used. -/
theorem analyze_voidCallAsValue {prog : Program} {n : String}
    (h : analyze prog = .error (.voidCallAsValue n)) :
    ∃ f ∈ prog.functions, ∃ g ∈ prog.functions, ∃ args, g.name = n ∧ g.retType = "void" ∧
      ExprIn (.FuncCall n args) false f.body := by
  obtain ⟨hnd, pre, f, post, c, c1, e, a, hp, hb, hs, hin, hn⟩ := analyze_error_node h rfl
  cases e with
  | IntLiteral v => cases hn
  | UnaryExpr op x => cases hn
  | VarRef m => cases hn.1
  | BinaryExpr op l r => cases hn.1
  | FuncCall m args =>
      rcases hn with hn | hn | hn
      · cases hn.1
      · cases hn.1
      · obtain ⟨h1, h2, h3, rfl⟩ := hn
        cases h1
        obtain ⟨s1, s2, _⟩ := atBody_sameFunc hb hs n
        rw [s1] at h2
        rw [s2] at h3
        obtain ⟨g, hg, rfl⟩ := tablesOf_declared h2
        obtain ⟨p1, p2, hp2⟩ := List.append_of_mem hg
        rw [(tablesOf_at hnd hp2).2.1] at h3
        exact ⟨f, by rw [hp]; simp, g, hg, args, rfl, h3, hin⟩

/-! ## Errors of the scope rules -/

theorem exprResolved_occurs {sc : List (List String)} {e1 e : Expr} {a1 a : Bool}
    (hocc : ExprOccurs e1 a1 e a) (h : exprResolved sc e = true) : exprResolved sc e1 = true := by
  induction hocc with
  | root => exact h
  | lhs op l r a _ ih =>
      simp only [exprResolved, Bool.and_eq_true] at h
      exact ih h.1
  | rhs op l r a _ ih =>
      simp only [exprResolved, Bool.and_eq_true] at h
      exact ih h.2
  | operand op x a _ ih =>
      simp only [exprResolved] at h
      exact ih h
  | arg name args x a hx _ ih =>
      simp only [exprResolved] at h
      apply ih
      clear ih
      induction args with
      | nil => simp at hx
      | cons y rest ih2 =>
          simp only [argsResolved, Bool.and_eq_true] at h
          rcases List.mem_cons.1 hx with rfl | hx
          · exact h.1
          · exact ih2 hx h.2

/-- An undeclared-variable error of `checkExpr` means that some `VarRef` of the expression
does not resolve. -/
theorem checkExpr_undeclared {ctx : SemanticContext} {e : Expr} {a : Bool} {n : String}
    (h : checkExpr ctx e a = .error (.undeclaredVar n)) :
    exprResolved ctx.varScopes e = false := by
  obtain ⟨e1, a1, ho, hn⟩ := checkExpr_error_node e ctx a _ h
  cases hr : exprResolved ctx.varScopes e with
  | false => rfl
  | true =>
      have h1 := exprResolved_occurs ho hr
      cases e1 with
      | IntLiteral v => cases hn
      | UnaryExpr op x => cases hn
      | BinaryExpr op l r => cases hn.1
      | FuncCall m args => rcases hn with hn | hn | hn <;> cases hn.1
      | VarRef m =>
          simp only [exprResolved] at h1
          rw [← isVarDeclared_eq, hn.2] at h1
          cases h1

theorem checkExprOpt_undeclared {ctx : SemanticContext} {o : Option Expr} {n : String}
    (h : checkExprOpt ctx o = .error (.undeclaredVar n)) :
    optResolved ctx.varScopes o = false := by
  cases o with
  | none => simp [checkExprOpt, pure_eq_ok] at h
  | some e => exact checkExpr_undeclared h

theorem checkExpr_ne_duplicateVar {ctx : SemanticContext} {e : Expr} {a : Bool} {n : String} :
    checkExpr ctx e a ≠ .error (.duplicateVar n) := by
  intro h
  have := checkExpr_error_fromExpr e ctx a _ h
  cases this

theorem checkExprOpt_ne_duplicateVar {ctx : SemanticContext} {o : Option Expr} {n : String} :
    checkExprOpt ctx o ≠ .error (.duplicateVar n) := by
  intro h
  have := checkExprOpt_error_fromExpr h
  cases this

mutual
theorem checkStmt_scope_error : ∀ (s : Stmt) (ctx : SemanticContext) (err : SemanticError),
    checkStmt ctx s = .error err →
      ((∃ n, err = .undeclaredVar n) → stmtResolved ctx.varScopes s = false) ∧
      ((∃ n, err = .duplicateVar n) → stmtFresh ctx.varScopes s = false)
  | .Block stmts, ctx, err, h => by
      simp only [checkStmt, bind_eq_error, pure_eq_ok] at h
      rcases h with h | ⟨_, _, h⟩
      · simpa [stmtResolved, stmtFresh] using checkStmts_scope_error stmts _ err h
      · cases h
  | .VarDecl ty name initExpr, ctx, err, h => by
      simp only [checkStmt, bind_eq_error, failIf_eq_error, pure_eq_ok] at h
      rcases h with h | ⟨_, _, h | ⟨_, _, h⟩⟩
      · obtain ⟨h1, rfl⟩ := h
        refine ⟨fun ⟨n, hn⟩ => (by cases hn), fun _ => ?_⟩
        simpa [stmtFresh, SemanticContext.inInnermost] using h1
      · refine ⟨fun ⟨n, hn⟩ => ?_, fun ⟨n, hn⟩ => ?_⟩
        · subst hn
          simpa [stmtResolved] using checkExprOpt_undeclared h
        · subst hn
          exact absurd h checkExprOpt_ne_duplicateVar
      · cases h
  | .Assign name expr, ctx, err, h => by
      simp only [checkStmt, bind_eq_error, failIf_eq_error, pure_eq_ok] at h
      rcases h with h | ⟨_, h0, h | ⟨_, _, h⟩⟩
      · obtain ⟨h1, rfl⟩ := h
        refine ⟨fun _ => ?_, fun ⟨n, hn⟩ => (by cases hn)⟩
        have : visible name ctx.varScopes = false := by
          rw [← isVarDeclared_eq]; simpa using h1
        simp [stmtResolved, this]
      · refine ⟨fun ⟨n, hn⟩ => ?_, fun ⟨n, hn⟩ => ?_⟩
        · subst hn
          simp [stmtResolved, checkExpr_undeclared h]
        · subst hn
          exact absurd h checkExpr_ne_duplicateVar
      · cases h
  | .ReturnStmt expr, ctx, err, h => by
      simp only [checkStmt, bind_eq_error, failIf_eq_error, pure_eq_ok] at h
      rcases h with h | ⟨_, _, h | ⟨_, _, h | ⟨_, _, h⟩⟩⟩
      · obtain ⟨_, rfl⟩ := h
        exact ⟨fun ⟨n, hn⟩ => (by cases hn), fun ⟨n, hn⟩ => (by cases hn)⟩
      · obtain ⟨_, rfl⟩ := h
        exact ⟨fun ⟨n, hn⟩ => (by cases hn), fun ⟨n, hn⟩ => (by cases hn)⟩
      · refine ⟨fun ⟨n, hn⟩ => ?_, fun ⟨n, hn⟩ => ?_⟩
        · subst hn
          simpa [stmtResolved] using checkExprOpt_undeclared h
        · subst hn
          exact absurd h checkExprOpt_ne_duplicateVar
      · cases h
  | .ExprStmt expr, ctx, err, h => by
      simp only [checkStmt, bind_eq_error, pure_eq_ok] at h
      rcases h with h | ⟨_, _, h⟩
      · refine ⟨fun ⟨n, hn⟩ => ?_, fun ⟨n, hn⟩ => ?_⟩
        · subst hn
          simpa [stmtResolved] using checkExpr_undeclared h
        · subst hn
          exact absurd h checkExpr_ne_duplicateVar
      · cases h
  | .IfStmt cond thenStmt elseStmt, ctx, err, h => by
      simp only [checkStmt, bind_eq_error] at h
      rcases h with h | ⟨_, _, h | ⟨c1, h1, h⟩⟩
      · refine ⟨fun ⟨n, hn⟩ => ?_, fun ⟨n, hn⟩ => ?_⟩
        · subst hn
          simp [stmtResolved, checkExpr_undeclared h]
        · subst hn
          exact absurd h checkExpr_ne_duplicateVar
      · obtain ⟨a1, a2⟩ := checkStmt_scope_error thenStmt ctx err h
        exact ⟨fun hn => by simp [stmtResolved, a1 hn], fun hn => by simp [stmtFresh, a2 hn]⟩
      · have hsc := (checkStmt_scopes _ _ _ h1).2.2
        cases elseStmt with
        | none => simp [checkElse, pure_eq_ok] at h
        | some s =>
            simp only [checkElse] at h
            obtain ⟨a1, a2⟩ := checkStmt_scope_error s c1 err h
            rw [hsc] at a1 a2
            exact ⟨fun hn => by simp [stmtResolved, elseResolved, a1 hn],
              fun hn => by simp [stmtFresh, elseFresh, a2 hn]⟩
  | .WhileStmt cond body, ctx, err, h => by
      simp only [checkStmt, bind_eq_error, pure_eq_ok] at h
      rcases h with h | ⟨_, _, h | ⟨_, _, h⟩⟩
      · refine ⟨fun ⟨n, hn⟩ => ?_, fun ⟨n, hn⟩ => ?_⟩
        · subst hn
          simp [stmtResolved, checkExpr_undeclared h]
        · subst hn
          exact absurd h checkExpr_ne_duplicateVar
      · obtain ⟨a1, a2⟩ := checkStmt_scope_error body _ err h
        exact ⟨fun hn => by simp [stmtResolved, a1 hn],
          fun hn => by simpa [stmtFresh] using a2 hn⟩
      · cases h
  | .BreakStmt, ctx, err, h => by
      simp only [checkStmt, bind_eq_error, failIf_eq_error, pure_eq_ok] at h
      rcases h with h | ⟨_, _, h⟩
      · obtain ⟨_, rfl⟩ := h
        exact ⟨fun ⟨n, hn⟩ => (by cases hn), fun ⟨n, hn⟩ => (by cases hn)⟩
      · cases h
  | .ContinueStmt, ctx, err, h => by
      simp only [checkStmt, bind_eq_error, failIf_eq_error, pure_eq_ok] at h
      rcases h with h | ⟨_, _, h⟩
      · obtain ⟨_, rfl⟩ := h
        exact ⟨fun ⟨n, hn⟩ => (by cases hn), fun ⟨n, hn⟩ => (by cases hn)⟩
      · cases h
theorem checkStmts_scope_error : ∀ (ss : List Stmt) (ctx : SemanticContext)
    (err : SemanticError), checkStmts ctx ss = .error err →
      ((∃ n, err = .undeclaredVar n) → stmtsResolved ctx.varScopes ss = false) ∧
      ((∃ n, err = .duplicateVar n) → stmtsFresh ctx.varScopes ss = false)
  | [], ctx, err, h => by simp [checkStmts, pure_eq_ok] at h
  | x :: rest, ctx, err, h => by
      simp only [checkStmts, bind_eq_error] at h
      rcases h with h | ⟨c1, h1, h⟩
      · obtain ⟨a1, a2⟩ := checkStmt_scope_error x ctx err h
        exact ⟨fun hn => by simp [stmtsResolved, a1 hn], fun hn => by simp [stmtsFresh, a2 hn]⟩
      · have hsc := (checkStmt_scopes _ _ _ h1).2.2
        obtain ⟨a1, a2⟩ := checkStmts_scope_error rest c1 err h
        rw [hsc] at a1 a2
        exact ⟨fun hn => by simp [stmtsResolved, a1 hn], fun hn => by simp [stmtsFresh, a2 hn]⟩
end

/-- An error of the scope rules that `analyze` reports was raised by `checkStmt` on the
body of a function, entered with the scope of its parameters alone. -/
theorem analyze_scope_error {prog : Program} {e : SemanticError} (h : analyze prog = .error e)
    (he : (∃ n, e = .undeclaredVar n) ∨ ∃ n, e = .duplicateVar n) :
    ∃ f ∈ prog.functions, ∃ c, c.varScopes = [paramScope f] ∧ checkStmt c f.body = .error e := by
  have hk : ∀ e1 : SemanticError, e = e1 →
      (∀ n, e1 ≠ .undeclaredVar n) → (∀ n, e1 ≠ .duplicateVar n) → False := by
    intro e1 h1 h2 h3
    rcases he with ⟨n, hn⟩ | ⟨n, hn⟩
    · exact h2 n (h1 ▸ hn)
    · exact h3 n (h1 ▸ hn)
  simp only [analyze, bind_eq_error, failIf_eq_error, pure_eq_ok, Prod.exists] at h
  rcases h with h | ⟨ctx1, mc, n, hr, h | ⟨_, _, h | ⟨_, _, h⟩⟩⟩
  · rcases registerFunctions_eq_error _ _ _ _ _ h with ⟨f, _, hf⟩ | ⟨hf | hf, _⟩
    · exact (hk _ hf (fun n hn => by cases hn) (fun n hn => by cases hn)).elim
    · exact (hk _ hf (fun n hn => by cases hn) (fun n hn => by cases hn)).elim
    · exact (hk _ hf (fun n hn => by cases hn) (fun n hn => by cases hn)).elim
  · exact (hk _ h.2 (fun n hn => by cases hn) (fun n hn => by cases hn)).elim
  · obtain ⟨_, hnd, _, a4⟩ := (registerFunctions_eq_ok _ _ _ _ _).1 hr
    simp only [Prod.mk.injEq] at a4
    obtain ⟨rfl, _, _⟩ := a4
    obtain ⟨f, hf, c, hg, hc⟩ := checkFunctions_error _ _ _ h
    rcases checkFunction_error hc with ⟨n, hn⟩ | hn | ⟨c2, hd, hb⟩
    · exact (hk _ hn (fun n hn => by cases hn) (fun n hn => by cases hn)).elim
    · exact (hk _ hn (fun n hn => by cases hn) (fun n hn => by cases hn)).elim
    · have hg' : SameGlobal (tablesOf prog) c := hg
      have hentry : (funcEntry c f).varScopes = [[]] := by
        simp [funcEntry, SemanticContext.enterScope, (sameGlobal_tablesOf hg').1]
      obtain ⟨_, _, a3⟩ := declareParams_ok _ _ _ _ hentry hd
      simp only [List.append_nil] at a3
      exact ⟨f, hf, c2, a3, hb⟩
  · cases h

/-! ## The code generator appends lines -/

theorem emit_eq_write (g : CodeGenerator) (i : Instr) : g.emit i = g.write [.instr i] := rfl

theorem emitLabel_eq_write (g : CodeGenerator) (n : String) :
    g.emitLabel n = g.write [.label n] := rfl

theorem emitComment_eq_write (g : CodeGenerator) (t : String) :
    g.emitComment t = g.write [.comment t] := rfl

theorem write_write (g : CodeGenerator) (a b : List Line) :
    (g.write a).write b = g.write (a ++ b) := by
  simp [CodeGenerator.write, List.append_assoc]

theorem write_nil (g : CodeGenerator) : g.write [] = g := by
  cases g
  simp [CodeGenerator.write]

theorem write_output (g : CodeGenerator) (a : List Line) :
    (g.write a).output = g.output ++ a := rfl

theorem write_symbolTable (g : CodeGenerator) (a : List Line) :
    (g.write a).symbolTable = g.symbolTable := rfl

theorem write_labelCounter (g : CodeGenerator) (a : List Line) :
    (g.write a).labelCounter = g.labelCounter := rfl

theorem write_functions (g : CodeGenerator) (a : List Line) :
    (g.write a).functions = g.functions := rfl

theorem write_currentFunction (g : CodeGenerator) (a : List Line) :
    (g.write a).currentFunction = g.currentFunction := rfl

theorem generateArithmeticOp_eq_write (g : CodeGenerator) (op : String) :
    g.generateArithmeticOp op "a0" "t0" "t1" = g.write (arithLines op) := by
  unfold CodeGenerator.generateArithmeticOp arithLines
  split_ifs <;> first | rfl | exact (write_nil g).symm

theorem foldl_emit_eq_write (f : Nat → Instr) : ∀ (l : List Nat) (g : CodeGenerator),
    l.foldl (fun g i => g.emit (f i)) g = g.write (l.map (fun i => Line.instr (f i)))
  | [], g => (write_nil g).symm
  | x :: rest, g => by
      simp only [List.foldl_cons, List.map_cons]
      rw [foldl_emit_eq_write f rest, emit_eq_write, write_write]
      rfl

theorem loadArgs_eq_write (g : CodeGenerator) (argc : Nat) :
    g.loadArgs argc = g.write (loadLines argc) :=
  foldl_emit_eq_write _ _ g

theorem generateFunctionPrologue_eq_write (g : CodeGenerator) :
    g.generateFunctionPrologue =
      g.write [.comment "函数序言", .instr (.addi "sp" "sp" (-16)), .instr (.sw "ra" 12 "sp"),
        .instr (.sw "s0" 8 "sp"), .instr (.addi "s0" "sp" 16)] := by
  simp [CodeGenerator.generateFunctionPrologue, emit_eq_write, emitComment_eq_write, write_write]

theorem generateFunctionEpilogue_eq_write (g : CodeGenerator) :
    g.generateFunctionEpilogue =
      g.write [.comment "函数尾声", .instr (.lw "ra" 12 "sp"), .instr (.lw "s0" 8 "sp"),
        .instr (.addi "sp" "sp" 16), .instr .ret] := by
  simp [CodeGenerator.generateFunctionEpilogue, emit_eq_write, emitComment_eq_write, write_write]

mutual
theorem visitExpr_eq_write : ∀ (e : Expr) (g : CodeGenerator),
    g.visitExpr e = g.write (exprLines g.symbolTable e)
  | .IntLiteral v, g => by
      simp [CodeGenerator.visitExpr, exprLines, emit_eq_write, emitComment_eq_write, write_write]
  | .VarRef n, g => by
      simp only [CodeGenerator.visitExpr, exprLines, emitComment_eq_write, write_symbolTable]
      cases g.symbolTable.lookup n with
      | none => rfl
      | some sym => simp [emit_eq_write, write_write]
  | .BinaryExpr op l r, g => by
      simp only [CodeGenerator.visitExpr, exprLines, emitComment_eq_write,
        generateArithmeticOp_eq_write, emit_eq_write]
      rw [visitExpr_eq_write l, write_write, write_write, visitExpr_eq_write r]
      simp [write_write, write_symbolTable]
  | .UnaryExpr op x, g => by
      simp only [CodeGenerator.visitExpr, exprLines, emitComment_eq_write, emit_eq_write]
      rw [visitExpr_eq_write x, write_write]
      unfold unaryLines
      split_ifs <;> simp [write_write, write_symbolTable]
  | .FuncCall name args, g => by
      simp only [CodeGenerator.visitExpr, exprLines, emitComment_eq_write, emit_eq_write,
        loadArgs_eq_write]
      rw [visitArgs_eq_write args, write_write, write_write, write_write]
      simp [write_symbolTable]
theorem visitArgs_eq_write : ∀ (args : List Expr) (g : CodeGenerator) (i : Nat),
    g.visitArgs i args = g.write (argsLines g.symbolTable i args)
  | [], g, i => by
      simp [CodeGenerator.visitArgs, argsLines, write_nil]
  | x :: rest, g, i => by
      simp only [CodeGenerator.visitArgs, argsLines, emit_eq_write]
      rw [visitExpr_eq_write x, write_write, visitArgs_eq_write rest]
      simp [write_write, write_symbolTable]
end

theorem exprCode_eq (g : CodeGenerator) (e : Expr) : exprCode g e = exprLines g.symbolTable e := by
  simp [exprCode, visitExpr_eq_write, write_output]


/-! ## Decimal numerals and generated labels -/

theorem digitsValue_append (xs ys : List Char) :
    digitsValue (xs ++ ys) =
      ys.foldl (fun acc c => acc * 10 + (c.toNat - 48)) (digitsValue xs) := by
  simp [digitsValue, List.foldl_append]

theorem digitChar_value : ∀ m : Nat, m < 10 → (Nat.digitChar m).toNat - 48 = m := by
  decide

theorem toDigitsCore_value : ∀ (fuel n : Nat) (ds : List Char), n < fuel →
    ∃ pre, Nat.toDigitsCore 10 fuel n ds = pre ++ ds ∧ digitsValue pre = n
  | 0, n, ds, h => by omega
  | fuel + 1, n, ds, h => by
    rw [Nat.toDigitsCore]
    by_cases h0 : n / 10 = 0
    · simp only [h0, if_true]
      refine ⟨[Nat.digitChar (n % 10)], rfl, ?_⟩
      have : n % 10 = n := by omega
      have hv := digitChar_value (n % 10) (Nat.mod_lt _ (by decide))
      rw [this] at hv ⊢
      simp [digitsValue, hv]
    · simp only [h0, if_false]
      obtain ⟨pre, h1, h2⟩ := toDigitsCore_value fuel (n / 10) (Nat.digitChar (n % 10) :: ds)
        (by omega)
      refine ⟨pre ++ [Nat.digitChar (n % 10)], by simp [h1], ?_⟩
      rw [digitsValue_append, h2]
      simp only [List.foldl_cons, List.foldl_nil,
        digitChar_value (n % 10) (Nat.mod_lt _ (by decide))]
      omega

theorem digitsValue_toString (n : Nat) : digitsValue (toString n).data = n := by
  obtain ⟨pre, h1, h2⟩ := toDigitsCore_value (n + 1) n [] (by omega)
  have : (toString n).data = pre := by
    show (Nat.repr n).data = pre
    simp [Nat.repr, Nat.toDigits, h1, List.asString]
  rw [this, h2]

theorem toString_nat_injective {m n : Nat} (h : toString m = toString n) : m = n := by
  rw [← digitsValue_toString m, ← digitsValue_toString n, h]

theorem split_at_underscore : ∀ (a c b d : List Char), '_' ∉ a → '_' ∉ c →
    a ++ '_' :: b = c ++ '_' :: d → a = c ∧ b = d
  | [], [], b, d, _, _, h => by simpa using h
  | [], y :: c, b, d, _, hc, h => by
    simp only [List.nil_append, List.cons_append, List.cons.injEq] at h
    exact absurd (h.1 ▸ List.mem_cons_self _ _) hc
  | x :: a, [], b, d, ha, _, h => by
    simp only [List.nil_append, List.cons_append, List.cons.injEq] at h
    exact absurd (h.1 ▸ List.mem_cons_self _ _) ha
  | x :: a, y :: c, b, d, ha, hc, h => by
    simp only [List.cons_append, List.cons.injEq] at h
    obtain ⟨h1, h2⟩ := split_at_underscore a c b d
      (fun hm => ha (List.mem_cons_of_mem _ hm)) (fun hm => hc (List.mem_cons_of_mem _ hm)) h.2
    exact ⟨by rw [h.1, h1], h2⟩

theorem genPrefixes_no_underscore : ∀ p ∈ genPrefixes, '_' ∉ p.data := by
  decide

theorem toString_natCast (n : Nat) : toString (n : Int) = toString n := rfl

theorem genLabel_data (p : String × Nat) :
    (genLabel p).data = p.1.data ++ '_' :: (toString p.2).data := by
  simp [genLabel, labelText, String.data_append, toString_natCast]

theorem genLabel_injective {p q : String × Nat} (hp : p.1 ∈ genPrefixes)
    (hq : q.1 ∈ genPrefixes) (h : genLabel p = genLabel q) : p = q := by
  have hd := congrArg String.data h
  rw [genLabel_data, genLabel_data] at hd
  obtain ⟨h1, h2⟩ := split_at_underscore _ _ _ _ (genPrefixes_no_underscore _ hp)
    (genPrefixes_no_underscore _ hq) hd
  have h3 : p.1 = q.1 := String.ext h1
  have h4 : p.2 = q.2 := toString_nat_injective (String.ext h2)
  exact Prod.ext h3 h4

/-! ## Steps of the generator and the labels they write -/

theorem labelDefs_append (xs ys : List Line) :
    labelDefs (xs ++ ys) = labelDefs xs ++ labelDefs ys := by
  simp [labelDefs, List.filterMap_append]

theorem targets_append (xs ys : List Line) :
    targets (xs ++ ys) = targets xs ++ targets ys := by
  simp [targets, List.filterMap_append]

theorem labelStep_of_eq {g g1 : CodeGenerator} (ho : g1.output = g.output)
    (hc : g1.labelCounter = g.labelCounter) : LabelStep g g1 [] [] 0 :=
  ⟨[], by simp [ho], rfl, rfl, by simp [hc]⟩

theorem labelStep_counter {g g1 : CodeGenerator} {defs tgts : List String} {n : Nat}
    (h : LabelStep g g1 defs tgts n) : g1.labelCounter = g.labelCounter + n := by
  obtain ⟨_, _, _, _, h4⟩ := h
  exact h4

theorem labelStep_trans {g g1 g2 : CodeGenerator} {d1 t1 d2 t2 : List String} {n1 n2 : Nat}
    (h1 : LabelStep g g1 d1 t1 n1) (h2 : LabelStep g1 g2 d2 t2 n2) :
    LabelStep g g2 (d1 ++ d2) (t1 ++ t2) (n1 + n2) := by
  obtain ⟨l1, a1, b1, c1, e1⟩ := h1
  obtain ⟨l2, a2, b2, c2, e2⟩ := h2
  refine ⟨l1 ++ l2, by rw [a2, a1, List.append_assoc], by rw [labelDefs_append, b1, b2],
    by rw [targets_append, c1, c2], by push_cast; omega⟩

theorem labelStep_cast {g g1 : CodeGenerator} {d1 t1 d2 t2 : List String} {n1 n2 : Nat}
    (h : LabelStep g g1 d1 t1 n1) (hd : d1 = d2) (ht : t1 = t2) (hn : n1 = n2) :
    LabelStep g g1 d2 t2 n2 := by
  subst hd ht hn
  exact h

theorem labelStep_write (g : CodeGenerator) (lines : List Line) :
    LabelStep g (g.write lines) (labelDefs lines) (targets lines) 0 :=
  ⟨lines, rfl, rfl, rfl, by simp [write_labelCounter]⟩

theorem labelStep_emitComment (g : CodeGenerator) (text : String) :
    LabelStep g (g.emitComment text) [] [] 0 :=
  labelStep_write g [.comment text]

theorem labelStep_emitLabel (g : CodeGenerator) (name : String) :
    LabelStep g (g.emitLabel name) [name] [] 0 :=
  labelStep_write g [.label name]

theorem labelStep_emit (g : CodeGenerator) (i : Instr) :
    LabelStep g (g.emit i) [] (targets [.instr i]) 0 :=
  labelStep_write g [.instr i]

theorem arithLines_labels (op : String) :
    labelDefs (arithLines op) = [] ∧ targets (arithLines op) = [] := by
  unfold arithLines
  split_ifs <;> exact ⟨rfl, rfl⟩

theorem unaryLines_labels (op : String) :
    labelDefs (unaryLines op) = [] ∧ targets (unaryLines op) = [] := by
  unfold unaryLines
  split_ifs <;> exact ⟨rfl, rfl⟩

theorem loadLines_labels (n : Nat) :
    labelDefs (loadLines n) = [] ∧ targets (loadLines n) = [] := by
  unfold loadLines labelDefs targets
  constructor <;>
  · rw [List.filterMap_map, List.filterMap_eq_nil_iff]
    intro i _
    rfl

mutual
theorem exprLines_labels (st : List (String × Symbol)) :
    ∀ e : Expr, labelDefs (exprLines st e) = [] ∧ targets (exprLines st e) = []
  | .IntLiteral value => ⟨rfl, rfl⟩
  | .VarRef name => by
    rw [exprLines]
    cases st.lookup name <;> exact ⟨rfl, rfl⟩
  | .BinaryExpr op lhs rhs => by
    have h1 := exprLines_labels st lhs
    have h2 := exprLines_labels st rhs
    have h3 := arithLines_labels op
    rw [exprLines]
    constructor
    · rw [show ∀ (c : String) (xs : List Line), labelDefs (.comment c :: xs) = labelDefs xs
        from fun _ _ => rfl, labelDefs_append, h1.1,
        show ∀ (i : Instr) (xs : List Line), labelDefs (.instr i :: xs) = labelDefs xs
        from fun _ _ => rfl, labelDefs_append, h2.1,
        show ∀ (i : Instr) (xs : List Line), labelDefs (.instr i :: xs) = labelDefs xs
        from fun _ _ => rfl, h3.1]
      rfl
    · rw [show ∀ (c : String) (xs : List Line), targets (.comment c :: xs) = targets xs
        from fun _ _ => rfl, targets_append, h1.2,
        show targets (Line.instr (.mv "t0" "a0") :: (exprLines st rhs ++
          .instr (.mv "t1" "a0") :: arithLines op)) =
          targets (exprLines st rhs ++ .instr (.mv "t1" "a0") :: arithLines op) from rfl,
        targets_append, h2.2,
        show targets (Line.instr (.mv "t1" "a0") :: arithLines op) = targets (arithLines op)
        from rfl, h3.2]
      rfl
  | .UnaryExpr op expr => by
    have h1 := exprLines_labels st expr
    have h3 := unaryLines_labels op
    rw [exprLines]
    constructor
    · rw [show ∀ (c : String) (xs : List Line), labelDefs (.comment c :: xs) = labelDefs xs
        from fun _ _ => rfl, labelDefs_append, h1.1, h3.1]
      rfl
    · rw [show ∀ (c : String) (xs : List Line), targets (.comment c :: xs) = targets xs
        from fun _ _ => rfl, targets_append, h1.2, h3.2]
      rfl
  | .FuncCall name args => by
    have h1 := argsLines_labels st 0 args
    have h3 := loadLines_labels args.length
    rw [exprLines]
    constructor
    · rw [show ∀ (c : String) (xs : List Line), labelDefs (.comment c :: xs) = labelDefs xs
        from fun _ _ => rfl, labelDefs_append, labelDefs_append, h1.1, h3.1]
      rfl
    · rw [show ∀ (c : String) (xs : List Line), targets (.comment c :: xs) = targets xs
        from fun _ _ => rfl, targets_append, targets_append, h1.2, h3.2]
      rfl
theorem argsLines_labels (st : List (String × Symbol)) :
    ∀ (i : Nat) (args : List Expr),
      labelDefs (argsLines st i args) = [] ∧ targets (argsLines st i args) = []
  | _, [] => ⟨rfl, rfl⟩
  | i, arg :: rest => by
    have h1 := exprLines_labels st arg
    have h2 := argsLines_labels st (i + 1) rest
    rw [argsLines]
    constructor
    · rw [labelDefs_append, h1.1,
        show ∀ (j : Instr) (xs : List Line), labelDefs (.instr j :: xs) = labelDefs xs
        from fun _ _ => rfl, h2.1]
      rfl
    · rw [targets_append, h1.2,
        show targets (Line.instr (.sw "a0" (argOffset i) "sp") :: argsLines st (i + 1) rest) =
          targets (argsLines st (i + 1) rest) from rfl, h2.2]
      rfl
end

theorem labelStep_visitExpr (g : CodeGenerator) (e : Expr) :
    LabelStep g (g.visitExpr e) [] [] 0 := by
  rw [visitExpr_eq_write]
  exact labelStep_cast (labelStep_write g _) (exprLines_labels _ e).1 (exprLines_labels _ e).2 rfl

theorem labelStep_epilogue (g : CodeGenerator) :
    LabelStep g g.generateFunctionEpilogue [] [] 0 := by
  rw [generateFunctionEpilogue_eq_write]
  exact labelStep_write g _

theorem labelStep_prologue (g : CodeGenerator) :
    LabelStep g g.generateFunctionPrologue [] [] 0 := by
  rw [generateFunctionPrologue_eq_write]
  exact labelStep_write g _

theorem allocateStackSpace_output (g : CodeGenerator) (size : Int) :
    (g.allocateStackSpace size).2.output = g.output ∧
      (g.allocateStackSpace size).2.labelCounter = g.labelCounter := by
  cases hc : g.currentFunction with
  | none => simp [CodeGenerator.allocateStackSpace, hc]
  | some name =>
    cases hl : g.functions.lookup name <;> simp [CodeGenerator.allocateStackSpace, hc, hl]

/-! ## The shape of the visit of an `if` and of a `while` -/

theorem visitStmt_if (g : CodeGenerator) (c : Expr) (t : Stmt) (e : Option Stmt) :
    g.visitStmt (.IfStmt c t e) =
      ((CodeGenerator.visitElse
        ((((((({ g with labelCounter := toInt32 (toInt32 (g.labelCounter + 1) + 1) } :
          CodeGenerator).emitComment "if语句开始").visitExpr c).emit
            (.beqz "a0" (labelText "else" g.labelCounter))).visitStmt t).emit
              (.j (labelText "endif" (toInt32 (g.labelCounter + 1))))).emitLabel
                (labelText "else" g.labelCounter)) e).emitLabel
                  (labelText "endif" (toInt32 (g.labelCounter + 1)))).emitComment
                    "if语句结束" := by
  rw [CodeGenerator.visitStmt]
  rfl

theorem visitStmt_while (g : CodeGenerator) (cond : Expr) (body : Stmt) :
    g.visitStmt (.WhileStmt cond body) =
      ((((g.atWhileBody cond).visitStmt body).emit
        (.j (labelText "while" g.labelCounter))).emitLabel
          (labelText "endwhile" (toInt32 (g.labelCounter + 1)))).emitComment
            "while循环结束" := by
  rw [CodeGenerator.visitStmt]
  rfl

theorem atWhileBody_eq (g : CodeGenerator) (cond : Expr) :
    g.atWhileBody cond =
      ({ g with labelCounter := toInt32 (toInt32 (g.labelCounter + 1) + 1) } :
        CodeGenerator).write
        (.comment "while循环开始" :: .label (labelText "while" g.labelCounter) ::
          (exprLines g.symbolTable cond ++
            [.instr (.beqz "a0" (labelText "endwhile" (toInt32 (g.labelCounter + 1))))])) := by
  simp only [CodeGenerator.atWhileBody, CodeGenerator.generateLabel, emitComment_eq_write,
    emitLabel_eq_write, emit_eq_write, visitExpr_eq_write, write_write, write_symbolTable]
  rfl

/-! ## Every `ret` closes an epilogue -/

theorem framed_plain {lines : List Line} (h : lines.all isPlain = true) : Framed 0 lines :=
  ⟨[], lines, rfl, rfl, h, rfl⟩

theorem framed_epilogue : Framed 1 epilogueLines :=
  ⟨[[]], [], rfl, rfl, rfl, rfl⟩

theorem framed_append {n m : Nat} {a b : List Line} (ha : Framed n a) (hb : Framed m b) :
    Framed (n + m) (a ++ b) := by
  obtain ⟨sa, ra, la, pa, qa, ea⟩ := ha
  obtain ⟨sb, rb, lb, pb, qb, eb⟩ := hb
  cases sb with
  | nil =>
    refine ⟨sa, ra ++ rb, by simp at lb; omega, pa, by simp [List.all_append, qa, qb], ?_⟩
    rw [ea, eb]
    simp
  | cons s0 rest =>
    simp only [List.all_cons, Bool.and_eq_true] at pb
    refine ⟨sa ++ (ra ++ s0) :: rest, rb, by simp at lb ⊢; omega, ?_, qb, ?_⟩
    · simp only [List.all_append, List.all_cons, Bool.and_eq_true]
      exact ⟨pa, ⟨qa, pb.1⟩, pb.2⟩
    · rw [ea, eb]
      simp [List.append_assoc]

theorem framedStep_of_eq {g g1 : CodeGenerator} (h : g1.output = g.output) :
    FramedStep g g1 0 :=
  ⟨[], by simp [h], framed_plain rfl⟩

theorem framedStep_trans {g g1 g2 : CodeGenerator} {n m : Nat} (h1 : FramedStep g g1 n)
    (h2 : FramedStep g1 g2 m) : FramedStep g g2 (n + m) := by
  obtain ⟨l1, a1, f1⟩ := h1
  obtain ⟨l2, a2, f2⟩ := h2
  exact ⟨l1 ++ l2, by rw [a2, a1, List.append_assoc], framed_append f1 f2⟩

theorem framedStep_cast {g g1 : CodeGenerator} {n m : Nat} (h : FramedStep g g1 n)
    (e : n = m) : FramedStep g g1 m := e ▸ h

theorem framedStep_write (g : CodeGenerator) (lines : List Line)
    (h : lines.all isPlain = true) : FramedStep g (g.write lines) 0 :=
  ⟨lines, rfl, framed_plain h⟩

theorem framedStep_emitComment (g : CodeGenerator) (text : String) :
    FramedStep g (g.emitComment text) 0 :=
  framedStep_write g [.comment text] rfl

theorem framedStep_emitLabel (g : CodeGenerator) (name : String) :
    FramedStep g (g.emitLabel name) 0 :=
  framedStep_write g [.label name] rfl

theorem framedStep_epilogue (g : CodeGenerator) : FramedStep g g.generateFunctionEpilogue 1 := by
  rw [generateFunctionEpilogue_eq_write]
  exact ⟨_, rfl, framed_epilogue⟩

theorem arithLines_plain (op : String) : (arithLines op).all isPlain = true := by
  unfold arithLines
  split_ifs <;> rfl

theorem unaryLines_plain (op : String) : (unaryLines op).all isPlain = true := by
  unfold unaryLines
  split_ifs <;> rfl

theorem loadLines_plain (n : Nat) : (loadLines n).all isPlain = true := by
  unfold loadLines
  rw [List.all_eq_true]
  intro l hl
  obtain ⟨i, _, rfl⟩ := List.mem_map.1 hl
  rfl

mutual
theorem exprLines_plain (st : List (String × Symbol)) :
    ∀ e : Expr, (exprLines st e).all isPlain = true
  | .IntLiteral value => rfl
  | .VarRef name => by
    rw [exprLines]
    cases st.lookup name <;> rfl
  | .BinaryExpr op lhs rhs => by
    have h1 := exprLines_plain st lhs
    have h2 := exprLines_plain st rhs
    have h3 := arithLines_plain op
    rw [exprLines]
    simp only [List.all_cons, List.all_append, h1, h2, h3, isPlain, Bool.and_self]
  | .UnaryExpr op expr => by
    have h1 := exprLines_plain st expr
    have h3 := unaryLines_plain op
    rw [exprLines]
    simp only [List.all_cons, List.all_append, h1, h3, isPlain, Bool.and_self]
  | .FuncCall name args => by
    have h1 := argsLines_plain st 0 args
    have h3 := loadLines_plain args.length
    rw [exprLines]
    simp only [List.all_cons, List.all_append, List.all_nil, h1, h3, isPlain, Bool.and_self]
theorem argsLines_plain (st : List (String × Symbol)) :
    ∀ (i : Nat) (args : List Expr), (argsLines st i args).all isPlain = true
  | _, [] => rfl
  | i, arg :: rest => by
    have h1 := exprLines_plain st arg
    have h2 := argsLines_plain st (i + 1) rest
    rw [argsLines]
    simp only [List.all_cons, List.all_append, h1, h2, isPlain, Bool.and_self]
end

theorem framedStep_visitExpr (g : CodeGenerator) (e : Expr) :
    FramedStep g (g.visitExpr e) 0 := by
  rw [visitExpr_eq_write]
  exact framedStep_write g _ (exprLines_plain _ e)

mutual
theorem visitStmt_framed : ∀ (s : Stmt) (g : CodeGenerator),
    FramedStep g (g.visitStmt s) (returnCount s)
  | .Block stmts, g => by
    rw [CodeGenerator.visitStmt, returnCount]
    exact visitStmts_framed stmts g
  | .VarDecl type name none, g => by
    have h1 := framedStep_emitComment g ("变量声明: " ++ name)
    have ha := allocateStackSpace_output (g.emitComment ("变量声明: " ++ name)) 4
    have h2 : FramedStep (g.emitComment ("变量声明: " ++ name))
        (g.visitStmt (.VarDecl type name none)) 0 := by
      rw [CodeGenerator.visitStmt]
      exact framedStep_of_eq ha.1
    exact framedStep_trans h1 h2
  | .VarDecl type name (some e), g => by
    have h1 := framedStep_emitComment g ("变量声明: " ++ name)
    have ha := allocateStackSpace_output (g.emitComment ("变量声明: " ++ name)) 4
    have h2 : FramedStep (g.emitComment ("变量声明: " ++ name))
        (g.visitStmt (.VarDecl type name (some e))) 0 := by
      rw [CodeGenerator.visitStmt]
      exact framedStep_trans (framedStep_trans
        (framedStep_of_eq ha.1 :
          FramedStep _ { ((g.emitComment ("变量声明: " ++ name)).allocateStackSpace 4).2 with
            symbolTable := (name, ⟨name, type,
              ((g.emitComment ("变量声明: " ++ name)).allocateStackSpace 4).1, false⟩) ::
              ((g.emitComment ("变量声明: " ++ name)).allocateStackSpace 4).2.symbolTable } 0)
        (framedStep_visitExpr _ e)) (framedStep_write _ [.instr (.sw "a0" _ "sp")] rfl)
    exact framedStep_trans h1 h2
  | .Assign name e, g => by
    have h1 := framedStep_trans (framedStep_emitComment g ("赋值: " ++ name))
      (framedStep_visitExpr _ e)
    rw [CodeGenerator.visitStmt]
    cases h : ((g.emitComment ("赋值: " ++ name)).visitExpr e).symbolTable.lookup name with
    | none => simpa only [h] using h1
    | some sym =>
      simpa only [h] using framedStep_trans h1
        (framedStep_write _ [.instr (.sw "a0" sym.offset "sp")] rfl)
  | .IfStmt c t e, g => by
    have s4 : FramedStep g
        (((({ g with labelCounter := toInt32 (toInt32 (g.labelCounter + 1) + 1) } :
          CodeGenerator).emitComment "if语句开始").visitExpr c).emit
            (.beqz "a0" (labelText "else" g.labelCounter))) 0 :=
      framedStep_trans (framedStep_trans (framedStep_trans
        (framedStep_of_eq rfl :
          FramedStep g ({ g with labelCounter := toInt32 (toInt32 (g.labelCounter + 1) + 1) } :
            CodeGenerator) 0)
        (framedStep_emitComment _ _)) (framedStep_visitExpr _ c))
        (framedStep_write _ [.instr (.beqz "a0" (labelText "else" g.labelCounter))] rfl)
    have s6 := framedStep_trans (framedStep_trans
      (visitStmt_framed t
        (((({ g with labelCounter := toInt32 (toInt32 (g.labelCounter + 1) + 1) } :
          CodeGenerator).emitComment "if语句开始").visitExpr c).emit
            (.beqz "a0" (labelText "else" g.labelCounter))))
      (framedStep_write _ [.instr (.j (labelText "endif" (toInt32 (g.labelCounter + 1))))] rfl))
      (framedStep_emitLabel _ (labelText "else" g.labelCounter))
    have s8 := framedStep_trans (framedStep_trans
      (visitElse_framed e
        ((((((({ g with labelCounter := toInt32 (toInt32 (g.labelCounter + 1) + 1) } :
          CodeGenerator).emitComment "if语句开始").visitExpr c).emit
            (.beqz "a0" (labelText "else" g.labelCounter))).visitStmt t).emit
              (.j (labelText "endif" (toInt32 (g.labelCounter + 1))))).emitLabel
                (labelText "else" g.labelCounter)))
      (framedStep_emitLabel _ (labelText "endif" (toInt32 (g.labelCounter + 1)))))
      (framedStep_emitComment _ "if语句结束")
    rw [visitStmt_if]
    refine framedStep_cast (framedStep_trans (framedStep_trans s4 s6) s8) ?_
    simp only [returnCount]
    omega
  | .WhileStmt c b, g => by
    have s4 : FramedStep g (g.atWhileBody c) 0 := by
      rw [atWhileBody_eq]
      refine ⟨_, rfl, framed_plain ?_⟩
      simp only [List.all_cons, List.all_append, List.all_nil, exprLines_plain, isPlain,
        Bool.and_self]
    have s8 := framedStep_trans (framedStep_trans (framedStep_trans
      (visitStmt_framed b (g.atWhileBody c))
      (framedStep_write _ [.instr (.j (labelText "while" g.labelCounter))] rfl))
      (framedStep_emitLabel _ (labelText "endwhile" (toInt32 (g.labelCounter + 1)))))
      (framedStep_emitComment _ "while循环结束")
    rw [visitStmt_while]
    refine framedStep_cast (framedStep_trans s4 s8) ?_
    simp only [returnCount]
    omega
  | .BreakStmt, g => framedStep_emitComment g _
  | .ContinueStmt, g => framedStep_emitComment g _
  | .ReturnStmt none, g =>
    framedStep_trans (framedStep_emitComment g "return语句") (framedStep_epilogue _)
  | .ReturnStmt (some e), g =>
    framedStep_trans (framedStep_trans (framedStep_emitComment g "return语句")
      (framedStep_visitExpr _ e)) (framedStep_epilogue _)
  | .ExprStmt e, g => framedStep_visitExpr g e
theorem visitStmts_framed : ∀ (stmts : List Stmt) (g : CodeGenerator),
    FramedStep g (CodeGenerator.visitStmts g stmts) (returnsCount stmts)
  | [], g => framedStep_of_eq rfl
  | s :: rest, g => by
    rw [CodeGenerator.visitStmts, returnsCount]
    exact framedStep_trans (visitStmt_framed s g) (visitStmts_framed rest _)
theorem visitElse_framed : ∀ (e : Option Stmt) (g : CodeGenerator),
    FramedStep g (CodeGenerator.visitElse g e) (elseReturnCount e)
  | none, g => framedStep_of_eq rfl
  | some s, g => by
    rw [CodeGenerator.visitElse, elseReturnCount]
    exact visitStmt_framed s g
end

theorem visitStmt_output (g : CodeGenerator) (s : Stmt) :
    (g.visitStmt s).output = g.output ++ stmtCode g s := by
  obtain ⟨lines, ho, _⟩ := visitStmt_framed s g
  rw [stmtCode, ho, List.drop_left]

theorem visitFunctionDef_eq (g : CodeGenerator) (f : FunctionDef) :
    g.visitFunctionDef f =
      { ((g.atFunctionBody f).visitStmt f.body).generateFunctionEpilogue with
        currentFunction := none } := rfl

theorem atFunctionBody_output (g : CodeGenerator) (f : FunctionDef) :
    (g.atFunctionBody f).output =
      g.output ++ (.instr (.directive "") :: .comment ("函数定义: " ++ f.name) ::
        .label f.name :: prologueLines) := by
  simp only [CodeGenerator.atFunctionBody, generateFunctionPrologue_eq_write, emit_eq_write,
    emitComment_eq_write, emitLabel_eq_write, write_output, CodeGenerator.write, prologueLines,
    List.append_assoc, List.singleton_append, List.cons_append, List.nil_append]

theorem visitFunctionDef_output (g : CodeGenerator) (f : FunctionDef) :
    (g.visitFunctionDef f).output =
      g.output ++ (.instr (.directive "") :: .comment ("函数定义: " ++ f.name) ::
        .label f.name ::
          (prologueLines ++ (stmtCode (g.atFunctionBody f) f.body ++ epilogueLines))) := by
  rw [visitFunctionDef_eq]
  show (((g.atFunctionBody f).visitStmt f.body).generateFunctionEpilogue).output = _
  rw [generateFunctionEpilogue_eq_write, write_output, visitStmt_output,
    atFunctionBody_output]
  simp [epilogueLines, List.append_assoc]

theorem funcText_eq (g : CodeGenerator) (f : FunctionDef) :
    funcText g f =
      .instr (.directive "") :: .comment ("函数定义: " ++ f.name) :: .label f.name ::
        (prologueLines ++ (stmtCode (g.atFunctionBody f) f.body ++ epilogueLines)) := by
  rw [funcText, visitFunctionDef_output, List.drop_left]

theorem visitFunctionDef_appends (g : CodeGenerator) (f : FunctionDef) :
    (g.visitFunctionDef f).output = g.output ++ funcText g f := by
  rw [funcText_eq, visitFunctionDef_output]

theorem stmtCode_framed (g : CodeGenerator) (s : Stmt) : Framed (returnCount s) (stmtCode g s) := by
  obtain ⟨lines, ho, hf⟩ := visitStmt_framed s g
  have : stmtCode g s = lines := by rw [stmtCode, ho, List.drop_left]
  rw [this]
  exact hf

theorem retCount_append (a b : List Line) : retCount (a ++ b) = retCount a + retCount b := by
  simp [retCount, List.count_append]

theorem retCount_plain {s : List Line} (h : s.all isPlain = true) : retCount s = 0 := by
  rw [retCount, List.count_eq_zero]
  intro hm
  have := List.all_eq_true.1 h _ hm
  exact absurd this (by decide)

theorem retCount_segments : ∀ (segs : List (List Line)),
    segs.all (fun s => s.all isPlain) = true →
      retCount (segs.map (· ++ epilogueLines)).flatten = segs.length
  | [], _ => rfl
  | s :: rest, h => by
    simp only [List.all_cons, Bool.and_eq_true] at h
    rw [List.map_cons, List.flatten_cons, retCount_append, retCount_append,
      retCount_plain h.1, retCount_segments rest h.2, List.length_cons,
      show retCount epilogueLines = 1 from by decide]
    omega

theorem funcText_segments (g : CodeGenerator) (f : FunctionDef) :
    ∃ segs : List (List Line),
      segs.length = 1 + returnCount f.body ∧ segs.all (fun s => s.all isPlain) = true ∧
        funcText g f =
          .instr (.directive "") :: .comment ("函数定义: " ++ f.name) :: .label f.name ::
            (prologueLines ++ (segs.map (· ++ epilogueLines)).flatten) := by
  obtain ⟨segs, rest, hl, hp, hr, he⟩ := stmtCode_framed (g.atFunctionBody f) f.body
  refine ⟨segs ++ [rest], by simp [hl]; omega, ?_, ?_⟩
  · simp only [List.all_append, List.all_cons, List.all_nil, Bool.and_true, Bool.and_eq_true]
    exact ⟨hp, hr⟩
  · rw [funcText_eq, he]
    simp [List.append_assoc]

theorem funcText_retCount (g : CodeGenerator) (f : FunctionDef) :
    retCount (funcText g f) = 1 + returnCount f.body := by
  obtain ⟨segs, hl, hp, he⟩ := funcText_segments g f
  rw [he, show ∀ (a b c : Line) (t : List Line), a :: b :: c :: t = [a, b, c] ++ t
    from fun _ _ _ _ => rfl, retCount_append, retCount_append, retCount_segments segs hp, hl,
    show retCount prologueLines = 0 from by decide]
  simp [retCount]

theorem funcTexts_state : ∀ (fs : List FunctionDef) (g : CodeGenerator),
    List.Forall₂ (fun f text => ∃ g1 : CodeGenerator, text = funcText g1 f) fs (funcTexts g fs)
  | [], _ => List.Forall₂.nil
  | _ :: rest, g => List.Forall₂.cons ⟨g, rfl⟩ (funcTexts_state rest _)

/-! ## The label counter -/

theorem toInt32_of_range {v : Int} (h1 : -2 ^ 31 ≤ v) (h2 : v < 2 ^ 31) : toInt32 v = v := by
  unfold toInt32
  omega

theorem counterAfter_add (k : Int) (n : Nat) :
    ∀ m : Nat, counterAfter (counterAfter k n) m = counterAfter k (n + m)
  | 0 => rfl
  | m + 1 => by
    rw [counterAfter, counterAfter_add k n m]
    rfl

theorem counterStep_of_eq {g g1 : CodeGenerator} (h : g1.labelCounter = g.labelCounter) :
    CounterStep g g1 0 := h

theorem counterStep_trans {g g1 g2 : CodeGenerator} {n m : Nat} (h1 : CounterStep g g1 n)
    (h2 : CounterStep g1 g2 m) : CounterStep g g2 (n + m) := by
  unfold CounterStep at *
  rw [h2, h1, counterAfter_add]

theorem counterStep_cast {g g1 : CodeGenerator} {n m : Nat} (h : CounterStep g g1 n)
    (e : n = m) : CounterStep g g1 m := e ▸ h

theorem counterStep_write (g : CodeGenerator) (lines : List Line) :
    CounterStep g (g.write lines) 0 := rfl

theorem counterStep_visitExpr (g : CodeGenerator) (e : Expr) :
    CounterStep g (g.visitExpr e) 0 := by
  rw [visitExpr_eq_write]
  exact counterStep_write g _

theorem counterStep_two (g : CodeGenerator) :
    CounterStep g ({ g with labelCounter := toInt32 (toInt32 (g.labelCounter + 1) + 1) } :
      CodeGenerator) 2 := by
  unfold CounterStep
  rfl

theorem counterStep_epilogue (g : CodeGenerator) :
    CounterStep g g.generateFunctionEpilogue 0 := by
  rw [generateFunctionEpilogue_eq_write]
  exact counterStep_write g _

mutual
theorem visitStmt_counterStep : ∀ (s : Stmt) (g : CodeGenerator),
    CounterStep g (g.visitStmt s) (stmtLabelCount s)
  | .Block stmts, g => by
    rw [CodeGenerator.visitStmt, stmtLabelCount]
    exact visitStmts_counterStep stmts g
  | .VarDecl type name none, g => by
    have ha := allocateStackSpace_output (g.emitComment ("变量声明: " ++ name)) 4
    rw [CodeGenerator.visitStmt]
    exact counterStep_of_eq ha.2
  | .VarDecl type name (some e), g => by
    have ha := allocateStackSpace_output (g.emitComment ("变量声明: " ++ name)) 4
    rw [CodeGenerator.visitStmt]
    exact counterStep_trans (counterStep_trans
      (counterStep_of_eq ha.2 :
        CounterStep g { ((g.emitComment ("变量声明: " ++ name)).allocateStackSpace 4).2 with
          symbolTable := (name, ⟨name, type,
            ((g.emitComment ("变量声明: " ++ name)).allocateStackSpace 4).1, false⟩) ::
            ((g.emitComment ("变量声明: " ++ name)).allocateStackSpace 4).2.symbolTable } 0)
      (counterStep_visitExpr _ e)) (counterStep_write _ [.instr (.sw "a0" _ "sp")])
  | .Assign name e, g => by
    have h1 : CounterStep g ((g.emitComment ("赋值: " ++ name)).visitExpr e) 0 :=
      counterStep_trans (counterStep_write g [.comment ("赋值: " ++ name)])
        (counterStep_visitExpr _ e)
    rw [CodeGenerator.visitStmt]
    cases h : ((g.emitComment ("赋值: " ++ name)).visitExpr e).symbolTable.lookup name with
    | none => simpa only [h] using h1
    | some sym =>
      simpa only [h] using counterStep_trans h1
        (counterStep_write _ [.instr (.sw "a0" sym.offset "sp")])
  | .IfStmt c t e, g => by
    have s4 : CounterStep g
        (((({ g with labelCounter := toInt32 (toInt32 (g.labelCounter + 1) + 1) } :
          CodeGenerator).emitComment "if语句开始").visitExpr c).emit
            (.beqz "a0" (labelText "else" g.labelCounter))) 2 :=
      counterStep_trans (counterStep_trans (counterStep_trans
        (counterStep_two g)
        (counterStep_write _ [.comment "if语句开始"])) (counterStep_visitExpr _ c))
        (counterStep_write _ [.instr (.beqz "a0" (labelText "else" g.labelCounter))])
    have s6 := counterStep_trans (counterStep_trans
      (visitStmt_counterStep t
        (((({ g with labelCounter := toInt32 (toInt32 (g.labelCounter + 1) + 1) } :
          CodeGenerator).emitComment "if语句开始").visitExpr c).emit
            (.beqz "a0" (labelText "else" g.labelCounter))))
      (counterStep_write _ [.instr (.j (labelText "endif" (toInt32 (g.labelCounter + 1))))]))
      (counterStep_write _ [.label (labelText "else" g.labelCounter)])
    have s8 := counterStep_trans (counterStep_trans
      (visitElse_counterStep e
        ((((((({ g with labelCounter := toInt32 (toInt32 (g.labelCounter + 1) + 1) } :
          CodeGenerator).emitComment "if语句开始").visitExpr c).emit
            (.beqz "a0" (labelText "else" g.labelCounter))).visitStmt t).emit
              (.j (labelText "endif" (toInt32 (g.labelCounter + 1))))).emitLabel
                (labelText "else" g.labelCounter)))
      (counterStep_write _ [.label (labelText "endif" (toInt32 (g.labelCounter + 1)))]))
      (counterStep_write _ [.comment "if语句结束"])
    rw [visitStmt_if]
    refine counterStep_cast (counterStep_trans (counterStep_trans s4 s6) s8) ?_
    simp only [stmtLabelCount]
    omega
  | .WhileStmt c b, g => by
    have s4 : CounterStep g (g.atWhileBody c) 2 := by
      rw [atWhileBody_eq]
      rfl
    have s8 := counterStep_trans (counterStep_trans (counterStep_trans
      (visitStmt_counterStep b (g.atWhileBody c))
      (counterStep_write _ [.instr (.j (labelText "while" g.labelCounter))]))
      (counterStep_write _ [.label (labelText "endwhile" (toInt32 (g.labelCounter + 1)))]))
      (counterStep_write _ [.comment "while循环结束"])
    rw [visitStmt_while]
    refine counterStep_cast (counterStep_trans s4 s8) ?_
    simp only [stmtLabelCount]
    omega
  | .BreakStmt, g => counterStep_write g _
  | .ContinueStmt, g => counterStep_write g _
  | .ReturnStmt none, g =>
    counterStep_trans (counterStep_write g [.comment "return语句"]) (counterStep_epilogue _)
  | .ReturnStmt (some e), g =>
    counterStep_trans (counterStep_trans (counterStep_write g [.comment "return语句"])
      (counterStep_visitExpr _ e)) (counterStep_epilogue _)
  | .ExprStmt e, g => counterStep_visitExpr g e
theorem visitStmts_counterStep : ∀ (stmts : List Stmt) (g : CodeGenerator),
    CounterStep g (CodeGenerator.visitStmts g stmts) (stmtsLabelCount stmts)
  | [], g => counterStep_of_eq rfl
  | s :: rest, g => by
    rw [CodeGenerator.visitStmts, stmtsLabelCount]
    exact counterStep_trans (visitStmt_counterStep s g) (visitStmts_counterStep rest _)
theorem visitElse_counterStep : ∀ (e : Option Stmt) (g : CodeGenerator),
    CounterStep g (CodeGenerator.visitElse g e) (elseLabelCount e)
  | none, g => counterStep_of_eq rfl
  | some s, g => by
    rw [CodeGenerator.visitElse, elseLabelCount]
    exact visitStmt_counterStep s g
end

theorem toInt32_succ_cast {k : Nat} (h : k + 1 < 2 ^ 31) :
    toInt32 ((k : Int) + 1) = ((k + 1 : Nat) : Int) := by
  rw [toInt32_of_range (by omega) (by omega)]
  push_cast
  rfl

theorem toInt32_succ_succ_cast {k : Nat} (h : k + 2 < 2 ^ 31) :
    toInt32 (toInt32 ((k : Int) + 1) + 1) = ((k + 2 : Nat) : Int) := by
  rw [toInt32_succ_cast (by omega), toInt32_of_range (by omega) (by omega)]
  push_cast
  omega

mutual
theorem visitStmt_labelStep : ∀ (s : Stmt) (g : CodeGenerator) (k : Nat),
    g.labelCounter = (k : Int) → k + stmtLabelCount s < 2 ^ 31 →
      LabelStep g (g.visitStmt s) ((stmtLabels k s).map genLabel)
        ((stmtTargets k s).map genLabel) (stmtLabelCount s)
  | .Block stmts, g, k, hk, hb => by
    rw [CodeGenerator.visitStmt, stmtLabels, stmtTargets, stmtLabelCount]
    rw [stmtLabelCount] at hb
    exact visitStmts_labelStep stmts g k hk hb
  | .VarDecl type name none, g, _, _, _ => by
    have h1 := labelStep_emitComment g ("变量声明: " ++ name)
    have ha := allocateStackSpace_output (g.emitComment ("变量声明: " ++ name)) 4
    have h2 : LabelStep (g.emitComment ("变量声明: " ++ name))
        (g.visitStmt (.VarDecl type name none)) [] [] 0 := by
      rw [CodeGenerator.visitStmt]
      exact labelStep_of_eq ha.1 ha.2
    exact labelStep_trans h1 h2
  | .VarDecl type name (some e), g, _, _, _ => by
    have h1 := labelStep_emitComment g ("变量声明: " ++ name)
    have ha := allocateStackSpace_output (g.emitComment ("变量声明: " ++ name)) 4
    have h2 : LabelStep (g.emitComment ("变量声明: " ++ name))
        (g.visitStmt (.VarDecl type name (some e))) [] [] 0 := by
      rw [CodeGenerator.visitStmt]
      exact labelStep_trans (labelStep_trans
        (labelStep_of_eq ha.1 ha.2 :
          LabelStep _ { ((g.emitComment ("变量声明: " ++ name)).allocateStackSpace 4).2 with
            symbolTable := (name, ⟨name, type,
              ((g.emitComment ("变量声明: " ++ name)).allocateStackSpace 4).1, false⟩) ::
              ((g.emitComment ("变量声明: " ++ name)).allocateStackSpace 4).2.symbolTable }
            [] [] 0)
        (labelStep_visitExpr _ e)) (labelStep_emit _ _)
    exact labelStep_trans h1 h2
  | .Assign name e, g, _, _, _ => by
    have h1 := labelStep_trans (labelStep_emitComment g ("赋值: " ++ name))
      (labelStep_visitExpr _ e)
    rw [CodeGenerator.visitStmt]
    cases h : ((g.emitComment ("赋值: " ++ name)).visitExpr e).symbolTable.lookup name with
    | none => simpa only [h] using h1
    | some sym => simpa only [h] using labelStep_trans h1 (labelStep_emit _ (.sw "a0" sym.offset "sp"))
  | .IfStmt c t e, g, k, hk, hb => by
    simp only [stmtLabelCount] at hb
    have e1 : toInt32 (g.labelCounter + 1) = ((k + 1 : Nat) : Int) := by
      rw [hk]
      exact toInt32_succ_cast (by omega)
    have e2 : toInt32 (toInt32 (g.labelCounter + 1) + 1) = ((k + 2 : Nat) : Int) := by
      rw [hk]
      exact toInt32_succ_succ_cast (by omega)
    rw [visitStmt_if, e2, e1, hk]
    let g2 : CodeGenerator := { g with labelCounter := ((k + 2 : Nat) : Int) }
    let g4 := ((g2.emitComment "if语句开始").visitExpr c).emit
      (.beqz "a0" (labelText "else" (k : Int)))
    let g6 := ((g4.visitStmt t).emit (.j (labelText "endif" ((k + 1 : Nat) : Int)))).emitLabel
      (labelText "else" (k : Int))
    have s2 : LabelStep g g2 [] [] 2 :=
      ⟨[], by simp [g2], rfl, rfl, by
        show ((k + 2 : Nat) : Int) = g.labelCounter + ((2 : Nat) : Int)
        rw [hk]
        push_cast
        rfl⟩
    have s4 : LabelStep g2 g4 [] [genLabel ("else", k)] 0 :=
      labelStep_trans (labelStep_trans (labelStep_emitComment _ _) (labelStep_visitExpr _ c))
        (labelStep_emit _ _)
    have k4 : g4.labelCounter = ((k + 2 : Nat) : Int) := by
      have h4 := labelStep_counter (labelStep_trans s2 s4)
      rw [h4, hk]
      push_cast
      omega
    have st := visitStmt_labelStep t g4 (k + 2) k4 (by omega)
    have s6 : LabelStep g4 g6 _ _ _ :=
      labelStep_trans (labelStep_trans st
        (labelStep_emit _ (.j (labelText "endif" ((k + 1 : Nat) : Int)))))
        (labelStep_emitLabel _ (labelText "else" (k : Int)))
    have k6 : g6.labelCounter = ((k + 2 + stmtLabelCount t : Nat) : Int) := by
      have h6 := labelStep_counter s6
      rw [h6, k4]
      push_cast
      omega
    have se := visitElse_labelStep e g6 (k + 2 + stmtLabelCount t) k6 (by omega)
    have s8 := labelStep_trans (labelStep_trans se
      (labelStep_emitLabel _ (labelText "endif" ((k + 1 : Nat) : Int))))
      (labelStep_emitComment _ "if语句结束")
    refine labelStep_cast (labelStep_trans (labelStep_trans (labelStep_trans s2 s4) s6) s8)
      ?_ ?_ ?_
    · simp [stmtLabels, genLabel]
    · simp [stmtTargets, genLabel, targets, Line.target]
    · simp only [stmtLabelCount]
      omega
  | .WhileStmt c b, g, k, hk, hb => by
    simp only [stmtLabelCount] at hb
    have e1 : toInt32 (g.labelCounter + 1) = ((k + 1 : Nat) : Int) := by
      rw [hk]
      exact toInt32_succ_cast (by omega)
    have e2 : toInt32 (toInt32 (g.labelCounter + 1) + 1) = ((k + 2 : Nat) : Int) := by
      rw [hk]
      exact toInt32_succ_succ_cast (by omega)
    let g2 : CodeGenerator := { g with labelCounter := ((k + 2 : Nat) : Int) }
    let g4 := ((((g2.emitComment "while循环开始").emitLabel (labelText "while" (k : Int))).visitExpr
      c).emit (.beqz "a0" (labelText "endwhile" ((k + 1 : Nat) : Int))))
    have h4 : g.atWhileBody c = g4 := by
      rw [atWhileBody_eq, e2, e1, hk]
      simp only [g4, g2, emitComment_eq_write, emitLabel_eq_write, emit_eq_write,
        visitExpr_eq_write, write_write, write_symbolTable]
      rfl
    have s2 : LabelStep g g2 [] [] 2 :=
      ⟨[], by simp [g2], rfl, rfl, by
        show ((k + 2 : Nat) : Int) = g.labelCounter + ((2 : Nat) : Int)
        rw [hk]
        push_cast
        rfl⟩
    have s4 : LabelStep g2 g4 [genLabel ("while", k)] [genLabel ("endwhile", k + 1)] 0 :=
      labelStep_trans (labelStep_trans (labelStep_trans (labelStep_emitComment _ _)
        (labelStep_emitLabel _ _)) (labelStep_visitExpr _ c)) (labelStep_emit _ _)
    have k4 : g4.labelCounter = ((k + 2 : Nat) : Int) := by
      have h := labelStep_counter (labelStep_trans s2 s4)
      rw [h, hk]
      push_cast
      omega
    have sb := visitStmt_labelStep b g4 (k + 2) k4 (by omega)
    have s8 := labelStep_trans (labelStep_trans (labelStep_trans sb
      (labelStep_emit _ (.j (labelText "while" (k : Int)))))
      (labelStep_emitLabel _ (labelText "endwhile" ((k + 1 : Nat) : Int))))
      (labelStep_emitComment _ "while循环结束")
    rw [visitStmt_while, h4, e1, hk]
    refine labelStep_cast (labelStep_trans (labelStep_trans s2 s4) s8) ?_ ?_ ?_
    · simp [stmtLabels, genLabel]
    · simp [stmtTargets, genLabel, targets, Line.target]
    · simp only [stmtLabelCount]
      omega
  | .BreakStmt, g, _, _, _ => labelStep_emitComment g _
  | .ContinueStmt, g, _, _, _ => labelStep_emitComment g _
  | .ReturnStmt none, g, _, _, _ =>
    labelStep_trans (labelStep_emitComment g "return语句") (labelStep_epilogue _)
  | .ReturnStmt (some e), g, _, _, _ =>
    labelStep_trans (labelStep_trans (labelStep_emitComment g "return语句")
      (labelStep_visitExpr _ e)) (labelStep_epilogue _)
  | .ExprStmt e, g, _, _, _ => labelStep_visitExpr g e
theorem visitStmts_labelStep : ∀ (stmts : List Stmt) (g : CodeGenerator) (k : Nat),
    g.labelCounter = (k : Int) → k + stmtsLabelCount stmts < 2 ^ 31 →
      LabelStep g (CodeGenerator.visitStmts g stmts) ((stmtsLabels k stmts).map genLabel)
        ((stmtsTargets k stmts).map genLabel) (stmtsLabelCount stmts)
  | [], g, _, _, _ => labelStep_of_eq rfl rfl
  | s :: rest, g, k, hk, hb => by
    rw [stmtsLabelCount] at hb
    have h1 := visitStmt_labelStep s g k hk (by omega)
    have hk1 : (g.visitStmt s).labelCounter = ((k + stmtLabelCount s : Nat) : Int) := by
      rw [labelStep_counter h1, hk]
      push_cast
      rfl
    have h2 := visitStmts_labelStep rest (g.visitStmt s) (k + stmtLabelCount s) hk1 (by omega)
    rw [CodeGenerator.visitStmts, stmtsLabels, stmtsTargets, stmtsLabelCount, List.map_append,
      List.map_append]
    exact labelStep_trans h1 h2
theorem visitElse_labelStep : ∀ (e : Option Stmt) (g : CodeGenerator) (k : Nat),
    g.labelCounter = (k : Int) → k + elseLabelCount e < 2 ^ 31 →
      LabelStep g (CodeGenerator.visitElse g e) ((elseLabels k e).map genLabel)
        ((elseTargets k e).map genLabel) (elseLabelCount e)
  | none, g, _, _, _ => labelStep_of_eq rfl rfl
  | some s, g, k, hk, hb => by
    rw [CodeGenerator.visitElse, elseLabels, elseTargets, elseLabelCount]
    rw [elseLabelCount] at hb
    exact visitStmt_labelStep s g k hk hb
end

/-! ## The generated labels of a tree -/

mutual
theorem stmtTargets_perm : ∀ (s : Stmt) (k : Nat), (stmtTargets k s).Perm (stmtLabels k s)
  | .Block stmts, k => by
    rw [stmtTargets, stmtLabels]
    exact stmtsTargets_perm stmts k
  | .IfStmt c t e, k => by
    have h1 := stmtTargets_perm t (k + 2)
    have h2 := elseTargets_perm e (k + 2 + stmtLabelCount t)
    rw [stmtTargets, stmtLabels]
    exact (List.Perm.cons _ (h1.append ((h2.cons _).trans
      (List.perm_append_singleton _ _).symm))).trans List.perm_middle.symm
  | .WhileStmt c b, k => by
    have h1 := stmtTargets_perm b (k + 2)
    rw [stmtTargets, stmtLabels]
    exact ((List.perm_append_singleton _ _).cons _).trans ((List.Perm.swap _ _ _).trans
      (((h1.cons _).trans (List.perm_append_singleton _ _).symm).cons _))
  | .VarDecl _ _ _, _ => List.Perm.refl _
  | .Assign _ _, _ => List.Perm.refl _
  | .BreakStmt, _ => List.Perm.refl _
  | .ContinueStmt, _ => List.Perm.refl _
  | .ReturnStmt _, _ => List.Perm.refl _
  | .ExprStmt _, _ => List.Perm.refl _
theorem stmtsTargets_perm : ∀ (stmts : List Stmt) (k : Nat),
    (stmtsTargets k stmts).Perm (stmtsLabels k stmts)
  | [], _ => List.Perm.refl _
  | s :: rest, k => by
    rw [stmtsTargets, stmtsLabels]
    exact (stmtTargets_perm s k).append (stmtsTargets_perm rest _)
theorem elseTargets_perm : ∀ (e : Option Stmt) (k : Nat),
    (elseTargets k e).Perm (elseLabels k e)
  | none, _ => List.Perm.refl _
  | some s, k => by
    rw [elseTargets, elseLabels]
    exact stmtTargets_perm s k
end

mutual
theorem stmtLabels_kind : ∀ (s : Stmt) (k : Nat), ∀ p ∈ stmtLabels k s, p.1 ∈ genPrefixes
  | .Block stmts, k, p, hp => by
    rw [stmtLabels] at hp
    exact stmtsLabels_kind stmts k p hp
  | .IfStmt c t e, k, p, hp => by
    simp only [stmtLabels, List.mem_append, List.mem_cons, List.mem_singleton,
      List.not_mem_nil, or_false] at hp
    rcases hp with hp | hp | hp | hp
    · exact stmtLabels_kind t _ p hp
    · subst hp; simp [genPrefixes]
    · exact elseLabels_kind e _ p hp
    · subst hp; simp [genPrefixes]
  | .WhileStmt c b, k, p, hp => by
    simp only [stmtLabels, List.mem_append, List.mem_cons, List.mem_singleton,
      List.not_mem_nil, or_false] at hp
    rcases hp with hp | hp | hp
    · subst hp; simp [genPrefixes]
    · exact stmtLabels_kind b _ p hp
    · subst hp; simp [genPrefixes]
  | .VarDecl _ _ _, _, _, hp => by simp [stmtLabels] at hp
  | .Assign _ _, _, _, hp => by simp [stmtLabels] at hp
  | .BreakStmt, _, _, hp => by simp [stmtLabels] at hp
  | .ContinueStmt, _, _, hp => by simp [stmtLabels] at hp
  | .ReturnStmt _, _, _, hp => by simp [stmtLabels] at hp
  | .ExprStmt _, _, _, hp => by simp [stmtLabels] at hp
theorem stmtsLabels_kind : ∀ (stmts : List Stmt) (k : Nat), ∀ p ∈ stmtsLabels k stmts,
    p.1 ∈ genPrefixes
  | [], _, _, hp => by simp [stmtsLabels] at hp
  | s :: rest, k, p, hp => by
    simp only [stmtsLabels, List.mem_append] at hp
    rcases hp with hp | hp
    · exact stmtLabels_kind s k p hp
    · exact stmtsLabels_kind rest _ p hp
theorem elseLabels_kind : ∀ (e : Option Stmt) (k : Nat), ∀ p ∈ elseLabels k e,
    p.1 ∈ genPrefixes
  | none, _, _, hp => by simp [elseLabels] at hp
  | some s, k, p, hp => by
    rw [elseLabels] at hp
    exact stmtLabels_kind s k p hp
end

mutual
theorem stmtLabels_counters (c : Nat) : ∀ (s : Stmt) (k : Nat),
    ((stmtLabels k s).map Prod.snd).count c =
      if k ≤ c ∧ c < k + stmtLabelCount s then 1 else 0
  | .Block stmts, k => by
    rw [stmtLabels, stmtLabelCount]
    exact stmtsLabels_counters c stmts k
  | .IfStmt _ t e, k => by
    have h1 := stmtLabels_counters c t (k + 2)
    have h2 := elseLabels_counters c e (k + 2 + stmtLabelCount t)
    simp only [stmtLabels, stmtLabelCount, List.map_append, List.map_cons, List.map_nil,
      List.count_cons, List.count_append, List.count_nil, h1, h2, beq_iff_eq]
    split_ifs <;> omega
  | .WhileStmt _ b, k => by
    have h1 := stmtLabels_counters c b (k + 2)
    simp only [stmtLabels, stmtLabelCount, List.map_append, List.map_cons, List.map_nil,
      List.count_cons, List.count_append, List.count_nil, h1, beq_iff_eq]
    split_ifs <;> omega
  | .VarDecl _ _ _, k => by
    simp only [stmtLabels, stmtLabelCount, List.map_nil, List.count_nil]
    split_ifs <;> omega
  | .Assign _ _, k => by
    simp only [stmtLabels, stmtLabelCount, List.map_nil, List.count_nil]
    split_ifs <;> omega
  | .BreakStmt, k => by
    simp only [stmtLabels, stmtLabelCount, List.map_nil, List.count_nil]
    split_ifs <;> omega
  | .ContinueStmt, k => by
    simp only [stmtLabels, stmtLabelCount, List.map_nil, List.count_nil]
    split_ifs <;> omega
  | .ReturnStmt _, k => by
    simp only [stmtLabels, stmtLabelCount, List.map_nil, List.count_nil]
    split_ifs <;> omega
  | .ExprStmt _, k => by
    simp only [stmtLabels, stmtLabelCount, List.map_nil, List.count_nil]
    split_ifs <;> omega
theorem stmtsLabels_counters (c : Nat) : ∀ (stmts : List Stmt) (k : Nat),
    ((stmtsLabels k stmts).map Prod.snd).count c =
      if k ≤ c ∧ c < k + stmtsLabelCount stmts then 1 else 0
  | [], k => by
    simp only [stmtsLabels, stmtsLabelCount, List.map_nil, List.count_nil]
    split_ifs <;> omega
  | s :: rest, k => by
    have h1 := stmtLabels_counters c s k
    have h2 := stmtsLabels_counters c rest (k + stmtLabelCount s)
    simp only [stmtsLabels, stmtsLabelCount, List.map_append, List.count_append, h1, h2]
    split_ifs <;> omega
theorem elseLabels_counters (c : Nat) : ∀ (e : Option Stmt) (k : Nat),
    ((elseLabels k e).map Prod.snd).count c =
      if k ≤ c ∧ c < k + elseLabelCount e then 1 else 0
  | none, k => by
    simp only [elseLabels, elseLabelCount, List.map_nil, List.count_nil]
    split_ifs <;> omega
  | some s, k => by
    rw [elseLabels, elseLabelCount]
    exact stmtLabels_counters c s k
end

theorem funcsLabels_counters (c : Nat) : ∀ (fs : List FunctionDef) (k : Nat),
    ((funcsLabels k fs).map Prod.snd).count c =
      if k ≤ c ∧ c < k + funcsLabelCount fs then 1 else 0
  | [], k => by
    simp only [funcsLabels, funcsLabelCount, List.map_nil, List.count_nil]
    split_ifs <;> omega
  | f :: rest, k => by
    have h1 := stmtLabels_counters c f.body k
    have h2 := funcsLabels_counters c rest (k + stmtLabelCount f.body)
    simp only [funcsLabels, funcsLabelCount, List.map_append, List.count_append, h1, h2]
    split_ifs <;> omega

theorem funcsLabels_kind : ∀ (fs : List FunctionDef) (k : Nat), ∀ p ∈ funcsLabels k fs,
    p.1 ∈ genPrefixes
  | [], _, _, hp => by simp [funcsLabels] at hp
  | f :: rest, k, p, hp => by
    simp only [funcsLabels, List.mem_append] at hp
    rcases hp with hp | hp
    · exact stmtLabels_kind f.body k p hp
    · exact funcsLabels_kind rest _ p hp

theorem nodup_of_counters {l : List (String × Nat)}
    (h : ∀ c, (l.map Prod.snd).count c ≤ 1) : l.Nodup :=
  List.Nodup.of_map Prod.snd (List.nodup_iff_count_le_one.2 h)

theorem genLabel_nodup {l : List (String × Nat)} (hp : ∀ p ∈ l, p.1 ∈ genPrefixes)
    (hn : l.Nodup) : (l.map genLabel).Nodup :=
  List.Nodup.map_on (fun x hx y hy h => genLabel_injective (hp x hx) (hp y hy) h) hn

theorem funcsLabels_nodup (fs : List FunctionDef) (k : Nat) :
    ((funcsLabels k fs).map genLabel).Nodup :=
  genLabel_nodup (funcsLabels_kind fs k)
    (nodup_of_counters (fun c => by rw [funcsLabels_counters]; split_ifs <;> omega))

theorem stmtLabels_nodup (s : Stmt) (k : Nat) : ((stmtLabels k s).map genLabel).Nodup :=
  genLabel_nodup (stmtLabels_kind s k)
    (nodup_of_counters (fun c => by rw [stmtLabels_counters]; split_ifs <;> omega))

/-! ## The labels of the text of a function and of a program -/

theorem labelStep_drop {g g1 : CodeGenerator} {defs tgts : List String} {n : Nat}
    (h : LabelStep g g1 defs tgts n) :
    g1.output = g.output ++ g1.output.drop g.output.length ∧
      labelDefs (g1.output.drop g.output.length) = defs ∧
      targets (g1.output.drop g.output.length) = tgts := by
  obtain ⟨lines, a, b, c, _⟩ := h
  have hd : g1.output.drop g.output.length = lines := by rw [a, List.drop_left]
  rw [hd]
  exact ⟨a, b, c⟩

theorem visitFunctionDef_labelStep (g : CodeGenerator) (f : FunctionDef) (k : Nat)
    (hk : g.labelCounter = (k : Int)) (hb : k + stmtLabelCount f.body < 2 ^ 31) :
    LabelStep g (g.visitFunctionDef f) (f.name :: (stmtLabels k f.body).map genLabel)
      ((stmtTargets k f.body).map genLabel) (stmtLabelCount f.body) := by
  let g1 := (g.emit (.directive "")).emitComment ("函数定义: " ++ f.name)
  let funcInfo : FunctionInfo :=
    { name := f.name, returnType := f.retType,
      paramNames := f.params.map (·.2), paramTypes := f.params.map (·.1) }
  let g2 : CodeGenerator :=
    { g1 with functions := (f.name, funcInfo) :: g1.functions,
              currentFunction := some f.name }
  let g4 := (g2.emitLabel f.name).generateFunctionPrologue
  have hv : g.visitFunctionDef f =
      { (g4.visitStmt f.body).generateFunctionEpilogue with currentFunction := none } := rfl
  have s1 : LabelStep g g1 [] [] 0 :=
    labelStep_trans (labelStep_emit g (.directive "")) (labelStep_emitComment _ _)
  have s2 : LabelStep g1 g2 [] [] 0 := labelStep_of_eq rfl rfl
  have s4 : LabelStep g2 g4 [f.name] [] 0 :=
    labelStep_trans (labelStep_emitLabel _ _) (labelStep_prologue _)
  have k4 : g4.labelCounter = (k : Int) := by
    have h := labelStep_counter (labelStep_trans (labelStep_trans s1 s2) s4)
    rw [h, hk]
    simp
  have sb := visitStmt_labelStep f.body g4 k k4 hb
  have s7 : LabelStep (g4.visitStmt f.body).generateFunctionEpilogue
      { (g4.visitStmt f.body).generateFunctionEpilogue with currentFunction := none } [] [] 0 :=
    labelStep_of_eq rfl rfl
  rw [hv]
  refine labelStep_cast (labelStep_trans (labelStep_trans (labelStep_trans (labelStep_trans
    (labelStep_trans s1 s2) s4) sb) (labelStep_epilogue _)) s7) ?_ ?_ ?_
  · simp
  · simp
  · omega

theorem funcText_spec (g : CodeGenerator) (f : FunctionDef) (k : Nat)
    (hk : g.labelCounter = (k : Int)) (hb : k + stmtLabelCount f.body < 2 ^ 31) :
    labelDefs (funcText g f) = f.name :: (stmtLabels k f.body).map genLabel ∧
      targets (funcText g f) = (stmtTargets k f.body).map genLabel :=
  (labelStep_drop (visitFunctionDef_labelStep g f k hk hb)).2

theorem visitFunctionDef_counter (g : CodeGenerator) (f : FunctionDef) (k : Nat)
    (hk : g.labelCounter = (k : Int)) (hb : k + stmtLabelCount f.body < 2 ^ 31) :
    (g.visitFunctionDef f).labelCounter = ((k + stmtLabelCount f.body : Nat) : Int) := by
  rw [labelStep_counter (visitFunctionDef_labelStep g f k hk hb), hk]
  push_cast
  rfl

theorem foldl_visitFunctionDef_output : ∀ (fs : List FunctionDef) (g : CodeGenerator),
    (fs.foldl CodeGenerator.visitFunctionDef g).output = g.output ++ (funcTexts g fs).flatten
  | [], g => by simp [funcTexts]
  | f :: rest, g => by
    rw [List.foldl_cons, foldl_visitFunctionDef_output rest, visitFunctionDef_appends g f,
      funcTexts, List.flatten_cons, List.append_assoc]

theorem funcTexts_length : ∀ (fs : List FunctionDef) (g : CodeGenerator),
    (funcTexts g fs).length = fs.length
  | [], _ => rfl
  | f :: rest, g => by rw [funcTexts, List.length_cons, funcTexts_length rest, List.length_cons]

theorem funcTexts_forall : ∀ (fs : List FunctionDef) (g : CodeGenerator) (k : Nat),
    g.labelCounter = (k : Int) → k + funcsLabelCount fs < 2 ^ 31 →
    List.Forall₂ (fun f text => ∃ k1,
      labelDefs text = f.name :: (stmtLabels k1 f.body).map genLabel ∧
        targets text = (stmtTargets k1 f.body).map genLabel) fs (funcTexts g fs)
  | [], _, _, _, _ => List.Forall₂.nil
  | f :: rest, g, k, hk, hb => by
    rw [funcsLabelCount] at hb
    exact List.Forall₂.cons ⟨k, funcText_spec g f k hk (by omega)⟩
      (funcTexts_forall rest _ (k + stmtLabelCount f.body)
        (visitFunctionDef_counter g f k hk (by omega)) (by omega))

theorem funcTexts_labelDefs_count (t : String) :
    ∀ (fs : List FunctionDef) (g : CodeGenerator) (k : Nat),
      g.labelCounter = (k : Int) → k + funcsLabelCount fs < 2 ^ 31 →
      (labelDefs (funcTexts g fs).flatten).count t =
        (fs.map (·.name)).count t + ((funcsLabels k fs).map genLabel).count t
  | [], _, _, _, _ => rfl
  | f :: rest, g, k, hk, hb => by
    rw [funcsLabelCount] at hb
    have ih := funcTexts_labelDefs_count t rest (g.visitFunctionDef f)
      (k + stmtLabelCount f.body) (visitFunctionDef_counter g f k hk (by omega)) (by omega)
    rw [funcTexts, List.flatten_cons, labelDefs_append, (funcText_spec g f k hk (by omega)).1,
      funcsLabels, List.map_append, List.map_cons, List.count_append, List.count_append,
      List.count_cons, List.count_cons, ih]
    omega

theorem funcTexts_targets_mem :
    ∀ (fs : List FunctionDef) (g : CodeGenerator) (k : Nat) (t : String),
      g.labelCounter = (k : Int) → k + funcsLabelCount fs < 2 ^ 31 →
      t ∈ targets (funcTexts g fs).flatten → t ∈ (funcsLabels k fs).map genLabel
  | [], _, _, t, _, _, h => by simp [funcTexts, targets] at h
  | f :: rest, g, k, t, hk, hb, h => by
    rw [funcsLabelCount] at hb
    rw [funcTexts, List.flatten_cons, targets_append, (funcText_spec g f k hk (by omega)).2,
      List.mem_append] at h
    rw [funcsLabels, List.map_append, List.mem_append]
    rcases h with h | h
    · exact Or.inl ((stmtTargets_perm f.body _).map genLabel |>.mem_iff.1 h)
    · exact Or.inr (funcTexts_targets_mem rest (g.visitFunctionDef f)
        (k + stmtLabelCount f.body) t (visitFunctionDef_counter g f k hk (by omega))
        (by omega) h)

theorem compile_eq (prog : Program) :
    compile prog =
      CodeGenerator.init.output ++
        .comment "程序开始" :: ((functionTexts prog).flatten ++ [.comment "程序结束"]) := by
  show ((prog.functions.foldl CodeGenerator.visitFunctionDef
    (CodeGenerator.init.emitComment "程序开始")).emitComment "程序结束").output = _
  rw [emitComment_eq_write, write_output, foldl_visitFunctionDef_output, emitComment_eq_write,
    write_output, functionTexts, emitComment_eq_write]
  simp

theorem compile_labelDefs (prog : Program) :
    labelDefs (compile prog) = labelDefs (functionTexts prog).flatten := by
  rw [compile_eq, labelDefs_append,
    show labelDefs CodeGenerator.init.output = [] from by decide,
    show ∀ (c : String) (xs : List Line), labelDefs (.comment c :: xs) = labelDefs xs
      from fun _ _ => rfl, labelDefs_append]
  simp [labelDefs, Line.labelDef]

theorem compile_targets (prog : Program) :
    targets (compile prog) = targets (functionTexts prog).flatten := by
  rw [compile_eq, targets_append,
    show targets CodeGenerator.init.output = [] from by decide,
    show ∀ (c : String) (xs : List Line), targets (.comment c :: xs) = targets xs
      from fun _ _ => rfl, targets_append]
  simp [targets, Line.target]

theorem compile_target_count (prog : Program) (hb : funcsLabelCount prog.functions < 2 ^ 31)
    (t : String) (h : t ∈ targets (compile prog)) :
    (labelDefs (compile prog)).count t = 1 + (prog.functions.map (·.name)).count t := by
  rw [compile_targets] at h
  have hk : (CodeGenerator.init.emitComment "程序开始").labelCounter = ((0 : Nat) : Int) := rfl
  have hm := funcTexts_targets_mem prog.functions _ 0 t hk (by omega) h
  have hc := funcTexts_labelDefs_count t prog.functions
    (CodeGenerator.init.emitComment "程序开始") 0 hk (by omega)
  have h1 := List.count_eq_one_of_mem (funcsLabels_nodup prog.functions _) hm
  rw [compile_labelDefs, functionTexts, hc, h1]
  omega

/-! ## Running the code of an expression -/

/-- C1, as stated, fails: `int main(){ break; return 0; }` has exactly one `main`,
returning `int` without parameters, has no variable reference at all, so (a) holds, and
its body returns on all paths, so (b) holds; yet `analyze` rejects it, for the `break`
outside a loop. -/
theorem C1_counterexample :
    ((progBreakOnly.functions.filter (fun f => f.name == "main")).length = 1 ∧
      ∀ f ∈ progBreakOnly.functions, f.name = "main" → f.retType = "int" ∧ f.params = []) ∧
    (∀ f ∈ progBreakOnly.functions, stmtResolved [paramScope f] f.body = true) ∧
    (∀ f ∈ progBreakOnly.functions, f.retType = "int" → ReturnsOnAllPaths f.body) ∧
    analyze progBreakOnly = .error .breakContinueOutsideLoop := by
  refine ⟨⟨by decide, by decide⟩, by decide, ?_, by decide⟩
  intro f hf _
  simp only [progBreakOnly, List.mem_singleton] at hf
  subst hf
  exact (checkAllPathsReturn_iff _).1 (by decide)

/-- C1, amended: for every program with exactly one function named `main`, returning
`int` and taking no parameters, `analyze` accepts the program if and only if the function
names are pairwise distinct and every function satisfies `FunctionOK`: (a) every variable
reference resolves to a declaration made before it in an enclosing scope (parameters
included), (b) the body of an `int` function returns on all paths, and besides: the
parameter names are distinct, no `VarDecl` repeats a name of its innermost scope, every
`ReturnStmt` matches the return type, `break` and `continue` occur only inside loops,
every call names a function declared at the same or an earlier position (a `void` one
only as an expression statement), and no `/` or `%` has the literal 0 as right operand. -/
theorem C1_accept_iff (prog : Program)
    (hmain : (prog.functions.filter (fun f => f.name == "main")).length = 1 ∧
      ∀ f ∈ prog.functions, f.name = "main" → f.retType = "int" ∧ f.params = []) :
    analyze prog = .ok () ↔
      (prog.functions.map (·.name)).Nodup ∧
        ∀ pre f post, prog.functions = pre ++ f :: post → FunctionOK pre f := by
  rw [analyze_iff]
  have hcount : countMain prog.functions = 1 := by
    unfold countMain
    rw [List.countP_eq_length_filter]
    exact hmain.1
  constructor
  · rintro ⟨h1, _, _, h4⟩
    exact ⟨h1, h4⟩
  · rintro ⟨h1, h4⟩
    exact ⟨h1, hcount, hmain.2, h4⟩

/-- C1 (amended) at `int main(){ if (1) { return 0; } else { return 1; } }`. -/
theorem C1_accept_iff_witness :
    analyze progIfElse = .ok () ↔
      (progIfElse.functions.map (·.name)).Nodup ∧
        ∀ pre f post, progIfElse.functions = pre ++ f :: post → FunctionOK pre f :=
  C1_accept_iff progIfElse ⟨by decide, by decide⟩

/-- C2: `checkAllPathsReturn` agrees with the reference definition on every statement
tree (a `ReturnStmt` returns, a `Block` returns iff one of its statements does, an
`IfStmt` returns iff it has an else branch and both branches return, nothing else
returns); `analyze` rejects every program with an int-returning function whose body
fails the predicate; `int main(){ if (1) { return 0; } }` is rejected for the missing
return and becomes accepted once `else { return 1; }` is added. -/
theorem C2_allPathsReturn :
    (∀ s : Stmt, checkAllPathsReturn s = true ↔ ReturnsOnAllPaths s) ∧
    (∀ e : Option Expr, checkAllPathsReturn (.ReturnStmt e) = true) ∧
    (∀ stmts : List Stmt, checkAllPathsReturn (.Block stmts) = true ↔
      ∃ s ∈ stmts, checkAllPathsReturn s = true) ∧
    (∀ (c : Expr) (t : Stmt) (e : Option Stmt), checkAllPathsReturn (.IfStmt c t e) = true ↔
      ∃ e1, e = some e1 ∧ checkAllPathsReturn t = true ∧ checkAllPathsReturn e1 = true) ∧
    (∀ (c : Expr) (b : Stmt), checkAllPathsReturn (.WhileStmt c b) = false) ∧
    (∀ (t n : String) (i : Option Expr), checkAllPathsReturn (.VarDecl t n i) = false) ∧
    (∀ (n : String) (e : Expr), checkAllPathsReturn (.Assign n e) = false) ∧
    (∀ e : Expr, checkAllPathsReturn (.ExprStmt e) = false) ∧
    checkAllPathsReturn .BreakStmt = false ∧ checkAllPathsReturn .ContinueStmt = false ∧
    (∀ (prog : Program) (f : FunctionDef), f ∈ prog.functions → f.retType = "int" →
      ¬ ReturnsOnAllPaths f.body → (analyze prog).rejected = true) ∧
    analyze progIfNoElse = .error (.notAllPathsReturn "main") ∧
    analyze progIfElse = .ok () := by
  refine ⟨checkAllPathsReturn_iff, fun _ => rfl, ?_, ?_, fun _ _ => rfl, fun _ _ _ => rfl,
    fun _ _ => rfl, fun _ => rfl, rfl, rfl, ?_, by decide, by decide⟩
  · intro stmts
    constructor
    · intro h
      obtain ⟨s, hs, hr⟩ := anyPathsReturn_sound stmts (by simpa [checkAllPathsReturn] using h)
      exact ⟨s, hs, checkAllPathsReturn_complete hr⟩
    · rintro ⟨s, hs, hr⟩
      simpa [checkAllPathsReturn] using anyPathsReturn_of_mem stmts s hs hr
  · intro c t e
    cases e with
    | none => simp [checkAllPathsReturn]
    | some e1 => simp [checkAllPathsReturn]
  · intro prog f hf hint hnot
    rw [analyze_rejected_iff]
    intro hok
    obtain ⟨c, c1, hc⟩ := analyze_ok_checkFunction hok hf
    obtain ⟨_, _, _, _, h4, _⟩ := checkFunction_eq_ok.1 hc
    exact hnot ((checkAllPathsReturn_iff _).1 (h4 hint))

/-- C2 at `int main(){ if (1) { return 0; } }`: the body does not return on all paths
and the program is rejected. -/
theorem C2_allPathsReturn_witness : (analyze progIfNoElse).rejected = true :=
  C2_allPathsReturn.2.2.2.2.2.2.2.2.2.2.1 progIfNoElse
    ⟨"int", "main", [],
      .Block [.IfStmt (.IntLiteral 1) (.Block [.ReturnStmt (some (.IntLiteral 0))]) none]⟩
    (by simp [progIfNoElse]) rfl
    (fun h => by
      have := (C2_allPathsReturn.1 _).2 h
      revert this
      decide)

/-- C5, as stated, fails: `void main(){ } void main(){ }` consists of two functions of
the same name, and `void main(){} int f(){ return 0; } int f(){ return 0; }` has two
functions named `f`; for both programs the failure reported is "main must return int",
not the duplicate-function-name error. -/
theorem C5_counterexample :
    (∃ pre f mid g post, progTwoVoidMains.functions = pre ++ f :: (mid ++ g :: post) ∧
      f.name = g.name) ∧
    analyze progTwoVoidMains = .error .mainMustReturnInt ∧
    (∃ pre f mid g post, progVoidMainDupF.functions = pre ++ f :: (mid ++ g :: post) ∧
      f.name = g.name) ∧
    analyze progVoidMainDupF = .error .mainMustReturnInt ∧
    (∀ n, analyze progTwoVoidMains ≠ .error (.duplicateFunction n)) ∧
    ∀ n, analyze progVoidMainDupF ≠ .error (.duplicateFunction n) := by
  have h1 : analyze progTwoVoidMains = .error .mainMustReturnInt := by decide
  have h2 : analyze progVoidMainDupF = .error .mainMustReturnInt := by decide
  refine ⟨⟨[], ⟨"void", "main", [], .Block []⟩, [], ⟨"void", "main", [], .Block []⟩, [],
      rfl, rfl⟩, h1,
    ⟨[⟨"void", "main", [], .Block []⟩],
      ⟨"int", "f", [], .Block [.ReturnStmt (some (.IntLiteral 0))]⟩, [],
      ⟨"int", "f", [], .Block [.ReturnStmt (some (.IntLiteral 0))]⟩, [], rfl, rfl⟩, h2, ?_, ?_⟩
  · intro n h
    rw [h1] at h
    cases h
  · intro n h
    rw [h2] at h
    cases h

/-- C5, amended: a program with two FunctionDefs of the same name (whatever their return
types, parameters and bodies) is rejected by the first pass; the failure is the
duplicate-function-name error for a name of the program whenever every function named
`main` in the program returns `int` and has no parameters, and otherwise it is that error
or one of the two errors of the main rule. -/
theorem C5_duplicate_function_rejected (prog : Program) (pre mid post : List FunctionDef)
    (f g : FunctionDef) (hprog : prog.functions = pre ++ f :: (mid ++ g :: post))
    (hname : f.name = g.name) :
    ∃ e, analyze prog = .error e ∧
      ((∃ h ∈ prog.functions, e = .duplicateFunction h.name) ∨
        ((e = .mainMustReturnInt ∨ e = .mainParamsNotEmpty) ∧
          ∃ h ∈ prog.functions, h.name = "main" ∧ ¬ (h.retType = "int" ∧ h.params = []))) ∧
      ((∀ h ∈ prog.functions, h.name = "main" → h.retType = "int" ∧ h.params = []) →
        ∃ h ∈ prog.functions, e = .duplicateFunction h.name) := by
  have hnd : ¬ (prog.functions.map (·.name)).Nodup := by
    rw [hprog]
    simp only [List.map_append, List.map_cons, List.nodup_append, List.nodup_cons,
      List.mem_append, List.mem_cons, not_and, not_or]
    intro _ h2
    have h3 := h2.1
    simp only [List.mem_map, not_exists, not_and] at h3
    exact absurd hname h3.2.1
  cases hr : registerFunctions ({}, 0, 0) prog.functions with
  | ok st =>
      exact absurd ((registerFunctions_eq_ok _ _ _ _ _).1 hr).2.1 hnd
  | error e =>
      refine ⟨e, analyze_eq_error_of_register hr, ?_, ?_⟩
      · rcases registerFunctions_eq_error _ _ _ _ _ hr with h | ⟨h1, h, hh, h2⟩
        · exact Or.inl h
        · refine Or.inr ⟨h1, h, hh, ?_⟩
          unfold MainOK at h2
          by_cases hm : h.name = "main"
          · exact ⟨hm, fun hc => h2 (fun _ => hc)⟩
          · exact absurd (fun hc => absurd hc hm) h2
      · intro hall
        rcases registerFunctions_eq_error _ _ _ _ _ hr with h | ⟨_, h, hh, h2⟩
        · exact h
        · exact absurd (hall h hh) h2

/-- C5 (amended) at `int f(){ return 0; } int f(){ return 1; } int main(){ return 0; }`. -/
theorem C5_duplicate_function_rejected_witness :
    ∃ e, analyze progDupF = .error e ∧
      ((∃ h ∈ progDupF.functions, e = .duplicateFunction h.name) ∨
        ((e = .mainMustReturnInt ∨ e = .mainParamsNotEmpty) ∧
          ∃ h ∈ progDupF.functions, h.name = "main" ∧
            ¬ (h.retType = "int" ∧ h.params = []))) ∧
      ((∀ h ∈ progDupF.functions, h.name = "main" → h.retType = "int" ∧ h.params = []) →
        ∃ h ∈ progDupF.functions, e = .duplicateFunction h.name) :=
  C5_duplicate_function_rejected progDupF []
    [] [mainReturns0]
    ⟨"int", "f", [], .Block [.ReturnStmt (some (.IntLiteral 0))]⟩
    ⟨"int", "f", [], .Block [.ReturnStmt (some (.IntLiteral 1))]⟩ rfl rfl

/-- C6: every program accepted by `analyze` has exactly one FunctionDef named `main`, and
every function named `main` returns `int` and has an empty parameter list; a program
without a `main`, with a `void` main, or with a main that has parameters is rejected
whatever else it contains. -/
theorem C6_main_rule :
    (∀ prog : Program, analyze prog = .ok () →
      (prog.functions.filter (fun f => f.name == "main")).length = 1 ∧
      ∀ f ∈ prog.functions, f.name = "main" → f.retType = "int" ∧ f.params = []) ∧
    (∀ prog : Program, (∀ f ∈ prog.functions, f.name ≠ "main") →
      (analyze prog).rejected = true) ∧
    (∀ (prog : Program) (f : FunctionDef), f ∈ prog.functions → f.name = "main" →
      f.retType = "void" → (analyze prog).rejected = true) ∧
    (∀ (prog : Program) (f : FunctionDef), f ∈ prog.functions → f.name = "main" →
      f.params ≠ [] → (analyze prog).rejected = true) := by
  have key : ∀ prog : Program, analyze prog = .ok () →
      (prog.functions.filter (fun f => f.name == "main")).length = 1 ∧
      ∀ f ∈ prog.functions, f.name = "main" → f.retType = "int" ∧ f.params = [] := by
    intro prog h
    obtain ⟨_, h2, h3, _⟩ := analyze_ok_register h
    refine ⟨?_, h2⟩
    rw [← List.countP_eq_length_filter]
    exact h3
  refine ⟨key, ?_, ?_, ?_⟩
  · intro prog hno
    rw [analyze_rejected_iff]
    intro hok
    have h1 := (key prog hok).1
    have : prog.functions.filter (fun f => f.name == "main") = [] := by
      rw [List.filter_eq_nil_iff]
      intro f hf
      simpa using hno f hf
    rw [this] at h1
    simp at h1
  · intro prog f hf hm hv
    rw [analyze_rejected_iff]
    intro hok
    have h1 := ((key prog hok).2 f hf hm).1
    rw [hv] at h1
    revert h1
    decide
  · intro prog f hf hm hp
    rw [analyze_rejected_iff]
    intro hok
    exact hp ((key prog hok).2 f hf hm).2

/-- C6 at `int main(){ if (1) { return 0; } else { return 1; } }`, an accepted program. -/
theorem C6_main_rule_witness :
    (progIfElse.functions.filter (fun f => f.name == "main")).length = 1 ∧
      ∀ f ∈ progIfElse.functions, f.name = "main" → f.retType = "int" ∧ f.params = [] :=
  C6_main_rule.1 progIfElse (by decide)

/-- C7: a program is rejected when a `ReturnStmt` with a value occurs anywhere in the
body of a `void` function, or a `ReturnStmt` without a value occurs anywhere in the body
of an `int` function; the function `int f(){ return 0; }` passes the checks of the second
pass in every context.  `void f(){ return 1; }` and `int f(){ return; }` are rejected
alone, and next to a well-formed `main` they are rejected with the errors of the return
rule; `int f(){ return 0; }` next to `main` is accepted. -/
theorem C7_return_value_rule :
    (∀ (prog : Program) (f : FunctionDef) (e : Expr), f ∈ prog.functions →
      f.retType = "void" → SubStmt (.ReturnStmt (some e)) f.body →
      (analyze prog).rejected = true) ∧
    (∀ (prog : Program) (f : FunctionDef), f ∈ prog.functions →
      f.retType = "int" → SubStmt (.ReturnStmt none) f.body →
      (analyze prog).rejected = true) ∧
    (∀ ctx : SemanticContext, (checkFunction ctx intFReturn0).accepted = true) ∧
    (analyze ⟨[voidFReturn1]⟩).rejected = true ∧
    (analyze ⟨[intFReturnNothing]⟩).rejected = true ∧
    analyze ⟨[voidFReturn1, mainReturns0]⟩ = .error (.voidReturnWithValue "f") ∧
    analyze ⟨[intFReturnNothing, mainReturns0]⟩ = .error (.intReturnWithoutValue "f") ∧
    analyze ⟨[intFReturn0, mainReturns0]⟩ = .ok () := by
  refine ⟨?_, ?_, fun ctx => rfl, by decide, by decide, by decide, by decide, by decide⟩
  · intro prog f e hf hv hsub
    rw [analyze_rejected_iff]
    intro hok
    obtain ⟨c, c1, hb, hc⟩ := analyze_ok_body hok hf
    obtain ⟨c2, c3, hs, h2⟩ := subStmt_ok hsub c c1 hc
    have h3 := (checkStmt_return_ok h2).1 (by rw [← hs.2.2.2, hb.2.2.2.1, hv])
    cases h3
  · intro prog f hf hi hsub
    rw [analyze_rejected_iff]
    intro hok
    obtain ⟨c, c1, hb, hc⟩ := analyze_ok_body hok hf
    obtain ⟨c2, c3, hs, h2⟩ := subStmt_ok hsub c c1 hc
    exact (checkStmt_return_ok h2).2 (by rw [← hs.2.2.2, hb.2.2.2.1, hi]) rfl

/-- C7 at `void f(){ return 1; } int main(){ return 0; }`. -/
theorem C7_return_value_rule_witness :
    (analyze ⟨[voidFReturn1, mainReturns0]⟩).rejected = true :=
  C7_return_value_rule.1 ⟨[voidFReturn1, mainReturns0]⟩ voidFReturn1 (.IntLiteral 1)
    (List.mem_cons_self _ _) rfl
    (SubStmt.block _ _ (List.mem_cons_self _ _) (SubStmt.root _))

/-- C8: a program is rejected when some expression of a function body contains a
`BinaryExpr` with operator `/` or `%` whose right operand is the literal 0; when the right
operand is not an integer literal the division test of the node does not fire, the node
is accepted exactly when its two operands are, and the divide-by-zero error is reported
only for a program with a literal 0 divisor.  `int main(){ return 1/0; }` is rejected
with the divide-by-zero error, `int main(){ int x = 0; return 1/x; }` is accepted. -/
theorem C8_literal_zero_divisor :
    (∀ (prog : Program) (f : FunctionDef) (op : String) (l : Expr) (a : Bool),
      f ∈ prog.functions → (op = "/" ∨ op = "%") →
      ExprIn (.BinaryExpr op l (.IntLiteral 0)) a f.body → (analyze prog).rejected = true) ∧
    (∀ (ctx : SemanticContext) (op : String) (l r : Expr) (a : Bool),
      (∀ v, r ≠ .IntLiteral v) →
      checkExpr ctx (.BinaryExpr op l r) a =
        (checkExpr ctx l false >>= fun _ => checkExpr ctx r false)) ∧
    (∀ prog : Program, analyze prog = .error .divideByZero →
      ∃ f ∈ prog.functions, ∃ op l a, (op = "/" ∨ op = "%") ∧
        ExprIn (.BinaryExpr op l (.IntLiteral 0)) a f.body) ∧
    analyze progDivZero = .error .divideByZero ∧
    analyze progDivVar = .ok () := by
  refine ⟨?_, ?_, fun prog h => analyze_divideByZero h, by decide, by decide⟩
  · intro prog f op l a hf hop hin
    rw [analyze_rejected_iff]
    intro hok
    obtain ⟨c, c1, _, hc⟩ := analyze_ok_body hok hf
    obtain ⟨c2, _, h2⟩ := exprIn_ok hin hc
    have h3 := (checkExpr_binary_ok.1 h2).2.2
    rcases hop with rfl | rfl <;> simp [literalZeroDivisor] at h3
  · intro ctx op l r a hr
    have hz : literalZeroDivisor op r = false := by
      cases r with
      | IntLiteral v => exact absurd rfl (hr v)
      | _ => simp [literalZeroDivisor]
    simp only [checkExpr, hz, failIf_false]
    cases checkExpr ctx l false with
    | error e => rfl
    | ok u =>
        simp only [ok_bind]
        cases checkExpr ctx r false with
        | error e => rfl
        | ok u => rfl

/-- C8 at `int main(){ return 1/0; }`. -/
theorem C8_literal_zero_divisor_witness : (analyze progDivZero).rejected = true :=
  C8_literal_zero_divisor.1 progDivZero
    ⟨"int", "main", [],
      .Block [.ReturnStmt (some (.BinaryExpr "/" (.IntLiteral 1) (.IntLiteral 0)))]⟩
    "/" (.IntLiteral 1) false (List.mem_cons_self _ _) (Or.inl rfl)
    ⟨_, _, _, SubStmt.block _ _ (List.mem_cons_self _ _) (SubStmt.root _),
      StmtExpr.returned _, ExprOccurs.root _ _⟩

/-- C9: for a function `g` whose registered return type is `void`, a call of `g` passes
`checkExpr` exactly when it is checked as the whole expression of an `ExprStmt` and
satisfies the other call rules (declared, not declared after the current function,
arguments accepted).  The call is rejected as operand of a unary or binary expression, as
argument of another call, as if or while condition, as initializer, as assigned value and
as returned value, and a program with such a call anywhere in a function body is
rejected; the void-call error is reported only for such a call.
`void f(){ } int main(){ f(); return 0; }` is accepted and
`void f(){ } int main(){ return f(); }` is rejected with the void-call error. -/
theorem C9_void_call_only_as_statement :
    (∀ (ctx : SemanticContext) (g : String) (args : List Expr) (a : Bool),
      ctx.retTypeOf g = "void" →
      (checkExpr ctx (.FuncCall g args) a = .ok () ↔
        a = true ∧ ctx.funcDeclared g = true ∧ ctx.orderOf g ≤ ctx.orderOf ctx.curFunc ∧
          checkArgs ctx args = .ok ())) ∧
    (∀ (ctx : SemanticContext) (g : String) (args : List Expr),
      ctx.retTypeOf g = "void" →
      ((checkStmt ctx (.ExprStmt (.FuncCall g args))).accepted = true ↔
        ctx.funcDeclared g = true ∧ ctx.orderOf g ≤ ctx.orderOf ctx.curFunc ∧
          checkArgs ctx args = .ok ())) ∧
    (∀ (ctx : SemanticContext) (g : String) (args : List Expr),
      ctx.retTypeOf g = "void" →
      (∀ op a, (checkExpr ctx (.UnaryExpr op (.FuncCall g args)) a).rejected = true) ∧
      (∀ op r a, (checkExpr ctx (.BinaryExpr op (.FuncCall g args) r) a).rejected = true) ∧
      (∀ op l a, (checkExpr ctx (.BinaryExpr op l (.FuncCall g args)) a).rejected = true) ∧
      (∀ h pre post a,
        (checkExpr ctx (.FuncCall h (pre ++ .FuncCall g args :: post)) a).rejected = true) ∧
      (∀ t e, (checkStmt ctx (.IfStmt (.FuncCall g args) t e)).rejected = true) ∧
      (∀ b, (checkStmt ctx (.WhileStmt (.FuncCall g args) b)).rejected = true) ∧
      (∀ ty n, (checkStmt ctx (.VarDecl ty n (some (.FuncCall g args)))).rejected = true) ∧
      (∀ n, (checkStmt ctx (.Assign n (.FuncCall g args))).rejected = true) ∧
      (checkStmt ctx (.ReturnStmt (some (.FuncCall g args)))).rejected = true) ∧
    (∀ (prog : Program) (f g : FunctionDef) (args : List Expr), f ∈ prog.functions →
      g ∈ prog.functions → g.retType = "void" →
      ExprIn (.FuncCall g.name args) false f.body → (analyze prog).rejected = true) ∧
    (∀ (prog : Program) (n : String), analyze prog = .error (.voidCallAsValue n) →
      ∃ f ∈ prog.functions, ∃ g ∈ prog.functions, ∃ args, g.name = n ∧ g.retType = "void" ∧
        ExprIn (.FuncCall n args) false f.body) ∧
    analyze progVoidCallStmt = .ok () ∧
    analyze progVoidCallValue = .error (.voidCallAsValue "f") := by
  refine ⟨?_, ?_, ?_, ?_, fun prog n h => analyze_voidCallAsValue h, by decide, by decide⟩
  · intro ctx g args a hv
    rw [checkExpr_call_ok]
    constructor
    · rintro ⟨h1, h2, h3, h4⟩
      exact ⟨h3 hv, h1, h2, h4⟩
    · rintro ⟨h1, h2, h3, h4⟩
      exact ⟨h2, h3, fun _ => h1, h4⟩
  · intro ctx g args hv
    rw [accepted_iff]
    constructor
    · rintro ⟨c1, h⟩
      simp only [checkStmt, bind_eq_ok] at h
      obtain ⟨_, h1, _⟩ := h
      have h2 := checkExpr_call_ok.1 h1
      exact ⟨h2.1, h2.2.1, h2.2.2.2⟩
    · rintro ⟨h1, h2, h4⟩
      have h5 : checkExpr ctx (.FuncCall g args) true = .ok () :=
        checkExpr_call_ok.2 ⟨h1, h2, fun _ => rfl, h4⟩
      exact ⟨ctx, by simp only [checkStmt, h5, ok_bind, pure_eq_ok]⟩
  · intro ctx g args hv
    refine ⟨?_, ?_, ?_, ?_, ?_, ?_, ?_, ?_, ?_⟩
    · exact fun op a => voidCall_rejected_expr hv (.operand op _ a (.root _ _))
    · exact fun op r a => voidCall_rejected_expr hv (.lhs op _ r a (.root _ _))
    · exact fun op l a => voidCall_rejected_expr hv (.rhs op l _ a (.root _ _))
    · exact fun h pre post a =>
        voidCall_rejected_expr hv (.arg h _ (.FuncCall g args) a (by simp) (.root _ _))
    · exact fun t e => voidCall_rejected_stmt hv ⟨_, _, _, .root _, .ifCond _ t e, .root _ _⟩
    · exact fun b => voidCall_rejected_stmt hv ⟨_, _, _, .root _, .whileCond _ b, .root _ _⟩
    · exact fun ty n =>
        voidCall_rejected_stmt hv ⟨_, _, _, .root _, .initExpr ty n _, .root _ _⟩
    · exact fun n => voidCall_rejected_stmt hv ⟨_, _, _, .root _, .assigned n _, .root _ _⟩
    · exact voidCall_rejected_stmt hv ⟨_, _, _, .root _, .returned _, .root _ _⟩
  · intro prog f g args hf hg hv hin
    rw [analyze_rejected_iff]
    intro hok
    have hnd := (analyze_ok_register hok).1
    obtain ⟨p1, p2, hp⟩ := List.append_of_mem hg
    have h3 := (analyze_ok_call hok hf hin).2.2
    rw [(tablesOf_at hnd hp).2.1] at h3
    cases h3 hv

/-- C9 at `void f(){ } int main(){ return f(); }`. -/
theorem C9_void_call_only_as_statement_witness :
    (analyze progVoidCallValue).rejected = true :=
  C9_void_call_only_as_statement.2.2.2.1 progVoidCallValue mainReturnsF voidF []
    (by simp [progVoidCallValue]) (by simp [progVoidCallValue]) rfl
    ⟨_, _, _, SubStmt.block _ _ (List.mem_cons_self _ _) (SubStmt.root _),
      StmtExpr.returned _, ExprOccurs.root _ _⟩

/-- C10: a program is rejected when a function body contains a `break` or `continue`
outside every `while` body, and the break/continue error is raised only for such a body;
a `BreakStmt` or `ContinueStmt` is accepted exactly when the loop flag is set, and a
`WhileStmt` never raises the error: its body is checked with the flag set, at any depth of
blocks, ifs and loops.  Every accepted statement, a `WhileStmt` in particular, leaves the
flag as it found it, so a `break` or `continue` that follows a loop outside every loop is
rejected; and the body of every function that the second pass reaches is entered with the
flag not set. -/
theorem C10_break_continue_inside_loop :
    (∀ (prog : Program) (f : FunctionDef), f ∈ prog.functions → BreakOutsideLoop f.body →
      (analyze prog).rejected = true) ∧
    (∀ prog : Program, analyze prog = .error .breakContinueOutsideLoop →
      ∃ f ∈ prog.functions, BreakOutsideLoop f.body) ∧
    (∀ ctx : SemanticContext,
      ((checkStmt ctx .BreakStmt).accepted = true ↔ ctx.inLoop = true) ∧
      ((checkStmt ctx .ContinueStmt).accepted = true ↔ ctx.inLoop = true)) ∧
    (∀ (ctx : SemanticContext) (s : Stmt), ctx.inLoop = true →
      checkStmt ctx s ≠ .error .breakContinueOutsideLoop) ∧
    (∀ (ctx : SemanticContext) (cond : Expr) (body : Stmt),
      checkStmt ctx (.WhileStmt cond body) ≠ .error .breakContinueOutsideLoop) ∧
    (∀ (ctx ctx1 : SemanticContext) (cond : Expr) (body : Stmt),
      checkStmt ctx (.WhileStmt cond body) = .ok ctx1 →
      (∃ c1, checkStmt { ctx with inLoop := true } body = .ok c1) ∧
        ctx1.inLoop = ctx.inLoop) ∧
    (∀ (ctx ctx1 : SemanticContext) (s : Stmt), checkStmt ctx s = .ok ctx1 →
      ctx1.inLoop = ctx.inLoop) ∧
    (∀ (ctx : SemanticContext) (cond : Expr) (body : Stmt), ctx.inLoop = false →
      (checkStmt ctx (.Block [.WhileStmt cond body, .BreakStmt])).rejected = true ∧
      (checkStmt ctx (.Block [.WhileStmt cond body, .ContinueStmt])).rejected = true) ∧
    (∀ (prog : Program) (ctx1 : SemanticContext) (mc n : Nat) (pre : List FunctionDef)
      (c : SemanticContext) (f : FunctionDef) (c2 : SemanticContext),
      registerFunctions ({}, 0, 0) prog.functions = .ok (ctx1, mc, n) →
      checkFunctions ctx1 pre = .ok c →
      declareParams (funcEntry c f) f.params = .ok c2 → c2.inLoop = false) ∧
    analyze progBreakAfterLoop = .error .breakContinueOutsideLoop ∧
    analyze progBreakInLoop = .ok () := by
  refine ⟨?_, ?_, ?_, ?_, ?_, ?_, ?_, ?_, ?_, by decide, by decide⟩
  · intro prog f hf hout
    rw [analyze_rejected_iff]
    intro hok
    obtain ⟨c, c1, hb, hc⟩ := analyze_ok_body hok hf
    have := breakOutsideLoop_rejected hout c hb.2.2.2.2
    rw [hc] at this
    cases this
  · intro prog h
    obtain ⟨_, pre, f, post, c, hp, _, hc⟩ := analyze_error_body h (fun n hn => by cases hn)
      (fun hn => by cases hn) (fun hn => by cases hn) (fun hn => by cases hn)
      (fun n hn => by cases hn) (fun n hn => by cases hn)
    exact ⟨f, by rw [hp]; simp, (checkStmt_break_error _ _ hc).2⟩
  · intro ctx
    cases hl : ctx.inLoop <;>
      simp [checkStmt, hl, failIf, Check.accepted, pure_eq_ok, ok_bind, error_bind]
  · intro ctx s hl h
    have := (checkStmt_break_error s ctx h).1
    rw [hl] at this
    cases this
  · intro ctx cond body h
    obtain ⟨_, hb⟩ := checkStmt_break_error _ ctx h
    cases hb
  · intro ctx ctx1 cond body h
    refine ⟨?_, (checkStmt_keeps _ _ _ h).2.1⟩
    simp only [checkStmt, bind_eq_ok] at h
    obtain ⟨_, _, c1, h1, _⟩ := h
    exact ⟨c1, h1⟩
  · intro ctx ctx1 s h
    exact (checkStmt_keeps _ _ _ h).2.1
  · intro ctx cond body hl
    exact ⟨breakOutsideLoop_rejected (.block _ .BreakStmt (by simp) .breakStmt) ctx hl,
      breakOutsideLoop_rejected (.block _ .ContinueStmt (by simp) .continueStmt) ctx hl⟩
  · intro prog ctx1 mc n pre c f c2 hr hc hd
    rw [(declareParams_keeps _ _ _ hd).2.1]
    simp only [funcEntry, SemanticContext.enterScope]
    rw [(checkFunctions_sameGlobal _ _ _ hc).2.2.2.1]
    obtain ⟨_, _, _, a4⟩ := (registerFunctions_eq_ok _ _ _ _ _).1 hr
    simp only [Prod.mk.injEq] at a4
    rw [a4.1]
    exact (addFunctions_other _ _ _).1

/-- C10 at `int main(){ while (1) { break; } break; return 0; }`: the second `break` is
outside every loop. -/
theorem C10_break_continue_inside_loop_witness :
    (analyze progBreakAfterLoop).rejected = true :=
  C10_break_continue_inside_loop.1 progBreakAfterLoop
    ⟨"int", "main", [],
      .Block [.WhileStmt (.IntLiteral 1) (.Block [.BreakStmt]), .BreakStmt,
        .ReturnStmt (some (.IntLiteral 0))]⟩
    (List.mem_cons_self _ _)
    (.block _ .BreakStmt (by simp) .breakStmt)

/-- C11: `checkStmt` raises the duplicate-declaration error on a `VarDecl` exactly when
the innermost scope already holds its name; when it does not, the declaration is accepted
as soon as its initializer is, whether or not an outer scope holds the name (shadowing),
and binds the name in the innermost scope; a name can always be declared afresh inside a
new block, and an accepted `Block` leaves the scope stack as it found it, so the outer
binding is the visible one again.  A program is rejected when a body has a declaration
that repeats a name of its innermost scope, and the duplicate-declaration error is
reported only for such a body.  `int main(){ int x = 1; { int x = 2; x = 3; } return x; }`
is accepted, `int main(){ int x = 1; int x = 2; return x; }` is rejected. -/
theorem C11_duplicate_declaration :
    (∀ (ctx : SemanticContext) (ty n : String) (init : Option Expr),
      checkStmt ctx (.VarDecl ty n init) = .error (.duplicateVar n) ↔
        n ∈ ctx.varScopes.headD []) ∧
    (∀ (ctx : SemanticContext) (ty n : String) (init : Option Expr),
      n ∉ ctx.varScopes.headD [] →
      checkStmt ctx (.VarDecl ty n init) =
        (checkExprOpt ctx init >>= fun _ => pure (ctx.declareVar n)) ∧
      (ctx.declareVar n).varScopes = bindVar n ctx.varScopes) ∧
    (∀ (ctx : SemanticContext) (ty n : String),
      (checkStmt ctx (.Block [.VarDecl ty n none])).accepted = true) ∧
    (∀ (ctx ctx1 : SemanticContext) (stmts : List Stmt),
      checkStmt ctx (.Block stmts) = .ok ctx1 → ctx1.varScopes = ctx.varScopes) ∧
    (∀ (prog : Program) (f : FunctionDef), f ∈ prog.functions →
      stmtFresh [paramScope f] f.body = false → (analyze prog).rejected = true) ∧
    (∀ (prog : Program) (n : String), analyze prog = .error (.duplicateVar n) →
      ∃ f ∈ prog.functions, stmtFresh [paramScope f] f.body = false) ∧
    analyze progShadow = .ok () ∧
    analyze progDupDecl = .error (.duplicateVar "x") := by
  refine ⟨?_, ?_, ?_, ?_, ?_, ?_, by decide, by decide⟩
  · intro ctx ty n init
    constructor
    · intro h
      have := (checkStmt_scope_error _ ctx _ h).2 ⟨n, rfl⟩
      simpa [stmtFresh] using this
    · intro h
      have h1 : ctx.inInnermost n = true := by simpa [SemanticContext.inInnermost] using h
      simp only [checkStmt, h1, failIf_true, error_bind]
  · intro ctx ty n init h
    have h1 : ctx.inInnermost n = false := by simpa [SemanticContext.inInnermost] using h
    exact ⟨by simp only [checkStmt, h1, failIf_false, ok_bind], declareVar_varScopes ctx n⟩
  · intro ctx ty n
    rfl
  · intro ctx ctx1 stmts h
    simpa [scopesAfter] using (checkStmt_scopes _ _ _ h).2.2
  · intro prog f hf hfresh
    rw [analyze_rejected_iff]
    intro hok
    obtain ⟨pre, post, hp⟩ := List.append_of_mem hf
    have := ((analyze_iff prog).1 hok).2.2.2 pre f post hp
    rw [this.fresh] at hfresh
    cases hfresh
  · intro prog n h
    obtain ⟨f, hf, c, hsc, hc⟩ := analyze_scope_error h (Or.inr ⟨n, rfl⟩)
    have := (checkStmt_scope_error _ c _ hc).2 ⟨n, rfl⟩
    rw [hsc] at this
    exact ⟨f, hf, this⟩

/-- C11 at `int main(){ int x = 1; int x = 2; return x; }`: the second declaration
repeats a name of its scope. -/
theorem C11_duplicate_declaration_witness : (analyze progDupDecl).rejected = true :=
  C11_duplicate_declaration.2.2.2.2.1 progDupDecl
    ⟨"int", "main", [],
      .Block [.VarDecl "int" "x" (some (.IntLiteral 1)),
        .VarDecl "int" "x" (some (.IntLiteral 2)),
        .ReturnStmt (some (.VarRef "x"))]⟩
    (List.mem_cons_self _ _) (by decide)

/-- C12: a program is rejected when, in the body of some function, an `Assign` target or
a `VarRef` names a variable that is neither a parameter of that function nor declared by
an earlier `VarDecl` of a scope that is still open, and the undeclared-variable error is
reported only for such a body.  A `VarRef` or `Assign` of a name that no scope of the
stack holds raises the error; a name that is not visible before a block is not visible
after it; the body of every function is entered with the scope of its own parameters and
nothing else; the initializer of a declaration is checked before the name is bound. -/
theorem C12_undeclared_variable :
    (∀ (prog : Program) (f : FunctionDef), f ∈ prog.functions →
      stmtResolved [paramScope f] f.body = false → (analyze prog).rejected = true) ∧
    (∀ (prog : Program) (n : String), analyze prog = .error (.undeclaredVar n) →
      ∃ f ∈ prog.functions, stmtResolved [paramScope f] f.body = false) ∧
    (∀ (ctx : SemanticContext) (n : String) (a : Bool), ctx.isVarDeclared n = false →
      checkExpr ctx (.VarRef n) a = .error (.undeclaredVar n)) ∧
    (∀ (ctx : SemanticContext) (n : String) (e : Expr), ctx.isVarDeclared n = false →
      checkStmt ctx (.Assign n e) = .error (.undeclaredVar n)) ∧
    (∀ (ctx : SemanticContext) (inner : List Stmt) (n : String), ctx.isVarDeclared n = false →
      (checkStmts ctx [.Block inner, .ExprStmt (.VarRef n)]).rejected = true) ∧
    (∀ (ctx : SemanticContext) (ty n : String), ctx.isVarDeclared n = false →
      checkStmt ctx (.VarDecl ty n (some (.VarRef n))) = .error (.undeclaredVar n)) ∧
    (∀ (prog : Program) (ctx1 : SemanticContext) (mc k : Nat) (pre : List FunctionDef)
      (c : SemanticContext) (f : FunctionDef) (c2 : SemanticContext),
      registerFunctions ({}, 0, 0) prog.functions = .ok (ctx1, mc, k) →
      checkFunctions ctx1 pre = .ok c →
      declareParams (funcEntry c f) f.params = .ok c2 → c2.varScopes = [paramScope f]) ∧
    analyze progBlockLeak = .error (.undeclaredVar "x") ∧
    analyze progOtherFunction = .error (.undeclaredVar "x") ∧
    analyze progSelfInit = .error (.undeclaredVar "x") ∧
    analyze progParamUse = .ok () := by
  refine ⟨?_, ?_, ?_, ?_, ?_, ?_, ?_, by decide, by decide, by decide, by decide⟩
  · intro prog f hf hres
    rw [analyze_rejected_iff]
    intro hok
    obtain ⟨pre, post, hp⟩ := List.append_of_mem hf
    have := ((analyze_iff prog).1 hok).2.2.2 pre f post hp
    rw [this.resolved] at hres
    cases hres
  · intro prog n h
    obtain ⟨f, hf, c, hsc, hc⟩ := analyze_scope_error h (Or.inl ⟨n, rfl⟩)
    have := (checkStmt_scope_error _ c _ hc).1 ⟨n, rfl⟩
    rw [hsc] at this
    exact ⟨f, hf, this⟩
  · intro ctx n a h
    simp only [checkExpr, h, Bool.not_false, failIf_true]
  · intro ctx n e h
    simp only [checkStmt, h, Bool.not_false, failIf_true, error_bind]
  · intro ctx inner n h
    apply not_ok_of_rejected
    intro c1 hc
    simp only [checkStmts, bind_eq_ok, pure_eq_ok, checkStmt, checkExpr, failIf_eq_ok,
      Bool.not_eq_false_eq_eq_true] at hc
    obtain ⟨c0, ⟨c3, h1, h2⟩, _, ⟨_, h3, _⟩, _⟩ := hc
    have hk := (checkStmts_keeps _ _ _ h1).2.2.1
    have : c0.varScopes = ctx.varScopes := by
      cases h2
      simp only [SemanticContext.leaveScope, hk, SemanticContext.enterScope, List.tail_cons]
    rw [isVarDeclared_eq, this, ← isVarDeclared_eq, h] at h3
    cases h3
  · intro ctx ty n h
    have h1 : ctx.inInnermost n = false := by
      cases hi : ctx.inInnermost n with
      | false => rfl
      | true =>
          have h2 : ctx.isVarDeclared n = true := by
            simp only [SemanticContext.inInnermost, decide_eq_true_eq] at hi
            simp only [SemanticContext.isVarDeclared, List.any_eq_true, decide_eq_true_eq]
            cases hs : ctx.varScopes with
            | nil => rw [hs] at hi; simp at hi
            | cons s rest =>
                rw [hs] at hi
                exact ⟨s, List.mem_cons_self _ _, by simpa using hi⟩
          rw [h] at h2
          cases h2
    simp only [checkStmt, h1, failIf_false, ok_bind, checkExprOpt, checkExpr, h, Bool.not_false,
      failIf_true, error_bind]
  · intro prog ctx1 mc k pre c f c2 hr hc hd
    obtain ⟨_, _, _, a4⟩ := (registerFunctions_eq_ok _ _ _ _ _).1 hr
    simp only [Prod.mk.injEq] at a4
    obtain ⟨rfl, _, _⟩ := a4
    have hg : SameGlobal (tablesOf prog) c := checkFunctions_sameGlobal _ _ _ hc
    have hentry : (funcEntry c f).varScopes = [[]] := by
      simp [funcEntry, SemanticContext.enterScope, (sameGlobal_tablesOf hg).1]
    obtain ⟨_, _, a3⟩ := declareParams_ok _ _ _ _ hentry hd
    simpa [paramScope] using a3

/-- C12 at `int main(){ { int x = 1; } return x; }`: `x` is read after its block has
closed. -/
theorem C12_undeclared_variable_witness : (analyze progBlockLeak).rejected = true :=
  C12_undeclared_variable.1 progBlockLeak
    ⟨"int", "main", [],
      .Block [.Block [.VarDecl "int" "x" (some (.IntLiteral 1))],
        .ReturnStmt (some (.VarRef "x"))]⟩
    (List.mem_cons_self _ _) (by decide)


/-- C13 (code defect): `visitBreakStmt` and `visitContinueStmt` emit a comment line and no
jump, in every state of the generator.  The program
`int main(){ while (1) { break; } return 0; }` is accepted, and in its text the only
branch lines are the `beqz` of the loop test and the `j` back to the loop top: between the
two there is no instruction at all, and no `j endwhile_1` anywhere.  The same holds for
`continue`. -/
theorem C13_break_continue_emit_no_jump :
    (∀ g : CodeGenerator, stmtCode g .BreakStmt = [.comment "break语句"]) ∧
    (∀ g : CodeGenerator, stmtCode g .ContinueStmt = [.comment "continue语句"]) ∧
    analyze progWhileBreak = .ok () ∧
    codeLines (compile progWhileBreak) =
      [.instr (.directive ""), .instr (.directive ".text"), .instr (.directive ".globl main"),
       .instr (.directive ""), .instr (.directive ""),
       .label "main",
       .instr (.addi "sp" "sp" (-16)), .instr (.sw "ra" 12 "sp"), .instr (.sw "s0" 8 "sp"),
       .instr (.addi "s0" "sp" 16),
       .label "while_0",
       .instr (.li "a0" 1), .instr (.beqz "a0" "endwhile_1"),
       .instr (.j "while_0"),
       .label "endwhile_1",
       .instr (.li "a0" 0),
       .instr (.lw "ra" 12 "sp"), .instr (.lw "s0" 8 "sp"), .instr (.addi "sp" "sp" 16),
       .instr .ret,
       .instr (.lw "ra" 12 "sp"), .instr (.lw "s0" 8 "sp"), .instr (.addi "sp" "sp" 16),
       .instr .ret] ∧
    Line.instr (.j "endwhile_1") ∉ compile progWhileBreak ∧
    analyze progWhileContinue = .ok () ∧
    codeLines (compile progWhileContinue) = codeLines (compile progWhileBreak) := by
  refine ⟨fun g => ?_, fun g => ?_, by decide, by decide, by decide, by decide, by decide⟩
  · simp [stmtCode, CodeGenerator.visitStmt, CodeGenerator.emitComment]
  · simp [stmtCode, CodeGenerator.visitStmt, CodeGenerator.emitComment]

/-- C14, counterexample: `int while_0(){ return 0; } int main(){ while (0) { } return 0; }`
is accepted by `analyze`; the label counter starts at 0, so the loop of `main` gets the
labels `while_0` and `endwhile_1`, and the text defines the label `while_0` twice, once for
the function and once for the loop, while `j while_0` is one of its jumps. -/
theorem C14_counterexample :
    analyze progLabelClash = .ok () ∧
    labelDefs (compile progLabelClash) = ["while_0", "main", "while_0", "endwhile_1"] ∧
    targets (compile progLabelClash) = ["endwhile_1", "while_0"] ∧
    Line.instr (.j "while_0") ∈ compile progLabelClash ∧
    (labelDefs (compile progLabelClash)).count "while_0" = 2 := by
  refine ⟨by decide, by decide, by decide, by decide, by decide⟩

/-- C14, amended: for every program, the text of `generate` is the header, one text for
each `FunctionDef` in order, and the footer.  For every program that generates fewer than
`2 ^ 31` labels, so that the 32-bit label counter does not wrap around: the labels that
the text of a function defines are its name, first, and then generated labels only
(`else_N`, `endif_N`, `while_N`, `endwhile_N`), pairwise distinct, and the targets of its
`beqz` and `j` lines are these generated labels, each exactly once.  A label that is the
target of a branch is defined in the whole text once as a generated label, plus once for
every function that bears it as its name: exactly once when no function is named like a
target. -/
theorem C14_generated_labels (prog : Program) :
    compile prog =
      CodeGenerator.init.output ++
        .comment "程序开始" :: ((functionTexts prog).flatten ++ [.comment "程序结束"]) ∧
    (functionTexts prog).length = prog.functions.length ∧
    (funcsLabelCount prog.functions < 2 ^ 31 →
      List.Forall₂ (fun f text => ∃ gens : List (String × Nat),
          (∀ p ∈ gens, p.1 ∈ genPrefixes) ∧
          labelDefs text = f.name :: gens.map genLabel ∧
          (gens.map genLabel).Nodup ∧
          (targets text).Perm (gens.map genLabel))
        prog.functions (functionTexts prog) ∧
      (∀ t ∈ targets (compile prog),
        (labelDefs (compile prog)).count t = 1 + (prog.functions.map (·.name)).count t) ∧
      ((∀ f ∈ prog.functions, f.name ∉ targets (compile prog)) →
        ∀ t ∈ targets (compile prog), (labelDefs (compile prog)).count t = 1)) := by
  refine ⟨compile_eq prog, funcTexts_length _ _, fun hsize => ⟨?_,
    compile_target_count prog hsize, ?_⟩⟩
  · refine List.Forall₂.imp ?_ (funcTexts_forall prog.functions
      (CodeGenerator.init.emitComment "程序开始") 0 rfl (by omega))
    rintro f text ⟨k, h1, h2⟩
    refine ⟨stmtLabels k f.body, stmtLabels_kind _ _, h1, stmtLabels_nodup _ _, ?_⟩
    rw [h2]
    exact (stmtTargets_perm f.body k).map genLabel
  · intro hno t ht
    rw [compile_target_count prog hsize t ht]
    have h0 : (prog.functions.map (·.name)).count t = 0 := by
      refine List.count_eq_zero.2 (fun hm => ?_)
      obtain ⟨f, hf, hft⟩ := List.mem_map.1 hm
      exact hno f hf (hft ▸ ht)
    rw [h0]

/-- C14, witness: in the text of
`int while_0(){ return 0; } int main(){ while (0) { } return 0; }` the target `while_0` is
defined once as a generated label and once for the function of that name; in the text of
`int main(){ while (1) { break; } return 0; }`, where no function is named like a target,
the target `endwhile_1` is defined exactly once.  Both programs generate two labels. -/
theorem C14_generated_labels_witness :
    (funcsLabelCount progLabelClash.functions < 2 ^ 31 ∧
      "while_0" ∈ targets (compile progLabelClash) ∧
      (labelDefs (compile progLabelClash)).count "while_0" =
        1 + (progLabelClash.functions.map (·.name)).count "while_0") ∧
    (funcsLabelCount progWhileBreak.functions < 2 ^ 31 ∧
      (∀ f ∈ progWhileBreak.functions, f.name ∉ targets (compile progWhileBreak)) ∧
      "endwhile_1" ∈ targets (compile progWhileBreak) ∧
      (labelDefs (compile progWhileBreak)).count "endwhile_1" = 1) :=
  ⟨⟨by decide, by decide,
      ((C14_generated_labels progLabelClash).2.2 (by decide)).2.1 "while_0" (by decide)⟩,
    ⟨by decide, by decide, by decide,
      ((C14_generated_labels progWhileBreak).2.2 (by decide)).2.2 (by decide) "endwhile_1"
        (by decide)⟩⟩

/-- C15 (code defect): the left operand of a binary expression is kept in the one register
`t0`, which the code of a right operand that is itself a binary expression overwrites.  For
`1 - (2 - 3)`, in every state of the generator, the emitted instructions are
`li a0,1; mv t0,a0; li a0,2; mv t0,a0; li a0,3; mv t1,a0; sub a0,t0,t1; mv t1,a0;
sub a0,t0,t1`; run from any registers they end with `a0 = 3` (and `t0 = 2`, the inner
left operand), while the value of the expression is 2.  The program
`int main(){ return 1 - (2 - 3); }` is accepted. -/
theorem C15_nested_right_operand_wrong :
    analyze progNestedRight = .ok () ∧
    (∀ g : CodeGenerator, codeLines (exprCode g exprNestedRight) =
      [.instr (.li "a0" 1), .instr (.mv "t0" "a0"),
       .instr (.li "a0" 2), .instr (.mv "t0" "a0"),
       .instr (.li "a0" 3), .instr (.mv "t1" "a0"),
       .instr (.sub "a0" "t0" "t1"),
       .instr (.mv "t1" "a0"),
       .instr (.sub "a0" "t0" "t1")]) ∧
    (∀ (g : CodeGenerator) (r : Regs), run r (exprCode g exprNestedRight) "a0" = 3) ∧
    (∀ (g : CodeGenerator) (r : Regs), run r (exprCode g exprNestedRight) "t0" = 2) ∧
    wrap32 (exprValue exprNestedRight) = 2 := by
  refine ⟨by decide, fun g => ?_, fun g r => ?_, fun g r => ?_, by decide⟩
  · rw [exprCode_eq]; rfl
  · rw [exprCode_eq]; rfl
  · rw [exprCode_eq]; rfl

/-- C16 (code defect): for a comparison or a logical operator nothing is emitted after the
code of the two operands.  `generateArithmeticOp` emits no line for `==`, `!=`, `<`, `<=`,
`>`, `>=`, `&&`, `||`, and the code of a binary expression is the code of the left operand,
`mv t0, a0`, the code of the right operand, `mv t1, a0` and the lines of
`generateArithmeticOp`, in this order, so that the right operand is always evaluated.  For
`2 < 1` the instructions are `li a0,2; mv t0,a0; li a0,1; mv t1,a0` and `a0` ends as 1, the
right operand; for `0 && 1` they are `li a0,0; mv t0,a0; li a0,1; mv t1,a0`, without any
branch, and `a0` ends as 1.  Both programs `int main(){ return 2 < 1; }` and
`int main(){ return 0 && 1; }` are accepted. -/
theorem C16_comparison_logical_emit_nothing :
    (arithLines "==" = [] ∧ arithLines "!=" = [] ∧ arithLines "<" = [] ∧
      arithLines "<=" = [] ∧ arithLines ">" = [] ∧ arithLines ">=" = [] ∧
      arithLines "&&" = [] ∧ arithLines "||" = []) ∧
    (∀ (g : CodeGenerator) (op : String) (lhs rhs : Expr),
      exprCode g (.BinaryExpr op lhs rhs) =
        .comment ("二元表达式: " ++ op) ::
          (exprCode g lhs ++ .instr (.mv "t0" "a0") ::
            (exprCode g rhs ++ .instr (.mv "t1" "a0") :: arithLines op))) ∧
    analyze (progReturning exprLess) = .ok () ∧
    (∀ g : CodeGenerator, codeLines (exprCode g exprLess) =
      [.instr (.li "a0" 2), .instr (.mv "t0" "a0"),
       .instr (.li "a0" 1), .instr (.mv "t1" "a0")]) ∧
    (∀ (g : CodeGenerator) (r : Regs), run r (exprCode g exprLess) "a0" = 1) ∧
    analyze (progReturning exprAnd) = .ok () ∧
    (∀ g : CodeGenerator, codeLines (exprCode g exprAnd) =
      [.instr (.li "a0" 0), .instr (.mv "t0" "a0"),
       .instr (.li "a0" 1), .instr (.mv "t1" "a0")]) ∧
    (∀ g : CodeGenerator, targets (exprCode g exprAnd) = []) ∧
    (∀ (g : CodeGenerator) (r : Regs), run r (exprCode g exprAnd) "a0" = 1) := by
  refine ⟨by decide, fun g op lhs rhs => ?_, by decide, fun g => ?_, fun g r => ?_,
    by decide, fun g => ?_, fun g => ?_, fun g r => ?_⟩
  · simp only [exprCode_eq, exprLines]
  all_goals rw [exprCode_eq]; rfl

/-- C17 (code defect): the prologue reserves 16 bytes whatever the function declares, and
`allocateStackSpace` hands out the offsets -4, -8, ... relative to `sp`, which lie below
the reserved frame `[sp, sp + 16)`.  For `int main(){ int x = 1; return x; }`, an accepted
program, the text is `addi sp, sp, -16` followed by `sw a0, -4(sp)` for `x`; with five
locals the prologue is the same and the offsets are -4, -8, -12, -16, -20. -/
theorem C17_locals_below_frame :
    (∀ g : CodeGenerator, g.generateFunctionPrologue =
      g.write [.comment "函数序言", .instr (.addi "sp" "sp" (-16)), .instr (.sw "ra" 12 "sp"),
        .instr (.sw "s0" 8 "sp"), .instr (.addi "s0" "sp" 16)]) ∧
    (∀ (g : CodeGenerator) (size : Int), (g.allocateStackSpace size).1 =
      match g.currentFunction with
      | none => 0
      | some name =>
          match g.functions.lookup name with
          | none => 0
          | some info => -(info.stackSize + size)) ∧
    analyze progOneLocal = .ok () ∧
    codeLines (compile progOneLocal) =
      [.instr (.directive ""), .instr (.directive ".text"), .instr (.directive ".globl main"),
       .instr (.directive ""), .instr (.directive ""),
       .label "main",
       .instr (.addi "sp" "sp" (-16)), .instr (.sw "ra" 12 "sp"), .instr (.sw "s0" 8 "sp"),
       .instr (.addi "s0" "sp" 16),
       .instr (.li "a0" 1), .instr (.sw "a0" (-4) "sp"),
       .instr (.lw "a0" (-4) "sp"),
       .instr (.lw "ra" 12 "sp"), .instr (.lw "s0" 8 "sp"), .instr (.addi "sp" "sp" 16),
       .instr .ret,
       .instr (.lw "ra" 12 "sp"), .instr (.lw "s0" 8 "sp"), .instr (.addi "sp" "sp" 16),
       .instr .ret] ∧
    offsetsOf (CodeGenerator.init.generate progOneLocal).symbolTable = [-4] ∧
    analyze progFiveLocals = .ok () ∧
    offsetsOf (CodeGenerator.init.generate progFiveLocals).symbolTable =
      [-20, -16, -12, -8, -4] ∧
    (codeLines (compile progFiveLocals)).take 10 = (codeLines (compile progOneLocal)).take 10 := by
  refine ⟨fun g => ?_, fun g size => ?_, by decide, by decide, by decide, by decide,
    by decide, by decide⟩
  · simp only [CodeGenerator.generateFunctionPrologue, emit_eq_write, emitComment_eq_write,
      write_write, List.append_assoc, List.singleton_append, List.cons_append, List.nil_append]
  · unfold CodeGenerator.allocateStackSpace
    rcases hc : g.currentFunction with _ | name
    · simp only
    · rcases hl : g.functions.lookup name with _ | info
      · simp only [hl]
      · simp only [hl, neg_add_rev]

/-- C18 (code defect): every call stores its argument number `i` at the offset that the
`size_t` expression `-(i + 1) * 4` prints, whatever the call and whatever is pending: the
first argument of every call goes to the same slot.  For `f(1, g(2))` the text stores 1 at
`18446744073709551612(sp)`, then stores 2, the argument of `g`, at the same offset, and
after `call g` loads `a0` for `f` from it: `f` receives 2 in place of 1.  On the 32-bit
machine the slot of argument `i` is the word at `sp - 4 * (i + 1)`, the slot of the local
declared in position `i + 1`: in `int main(){ int x = 5; return f(1, x); }` the store of
the first argument overwrites `x`, at `-4(sp)`, before `x` is read.  Both programs are
accepted. -/
theorem C18_argument_slots_shared :
    (∀ (g : CodeGenerator) (name : String) (arg : Expr) (rest : List Expr),
      exprCode g (.FuncCall name (arg :: rest)) =
        .comment ("函数调用: " ++ name) ::
          (exprCode g arg ++ .instr (.sw "a0" (argOffset 0) "sp") ::
            (argsLines g.symbolTable 1 rest ++
              (loadLines (rest.length + 1) ++ [.instr (.call name)])))) ∧
    argOffset 0 = 18446744073709551612 ∧
    analyze progNestedCall = .ok () ∧
    (∀ g : CodeGenerator, codeLines (exprCode g exprNestedCall) =
      [.instr (.li "a0" 1), .instr (.sw "a0" 18446744073709551612 "sp"),
       .instr (.li "a0" 2), .instr (.sw "a0" 18446744073709551612 "sp"),
       .instr (.lw "a0" 18446744073709551612 "sp"), .instr (.call "g"),
       .instr (.sw "a0" 18446744073709551608 "sp"),
       .instr (.lw "a0" 18446744073709551612 "sp"),
       .instr (.lw "a1" 18446744073709551608 "sp"), .instr (.call "f")]) ∧
    (∀ (sp i : Nat), slotAddr sp (argOffset i) = slotAddr sp (-(4 * ((i : Int) + 1)))) ∧
    analyze progArgClobber = .ok () ∧
    offsetsOf (CodeGenerator.init.generate progArgClobber).symbolTable = [-4] ∧
    (codeLines (compile progArgClobber)).drop 24 =
      [.instr (.li "a0" 5), .instr (.sw "a0" (-4) "sp"),
       .instr (.li "a0" 1), .instr (.sw "a0" 18446744073709551612 "sp"),
       .instr (.lw "a0" (-4) "sp"), .instr (.sw "a0" 18446744073709551608 "sp"),
       .instr (.lw "a0" 18446744073709551612 "sp"),
       .instr (.lw "a1" 18446744073709551608 "sp"), .instr (.call "f"),
       .instr (.lw "ra" 12 "sp"), .instr (.lw "s0" 8 "sp"), .instr (.addi "sp" "sp" 16),
       .instr .ret,
       .instr (.lw "ra" 12 "sp"), .instr (.lw "s0" 8 "sp"), .instr (.addi "sp" "sp" 16),
       .instr .ret] := by
  refine ⟨fun g name arg rest => ?_, by decide, by decide, fun g => ?_, fun sp i => ?_,
    by decide, by decide, by decide⟩
  · simp only [exprCode_eq, exprLines, argsLines, List.length_cons, List.append_assoc,
      List.cons_append, zero_add]
  · rw [exprCode_eq]; rfl
  · simp only [slotAddr, argOffset, sizeBits]
    push_cast
    omega

/-- C19, counterexample: the program with the function
`int f(int a1, ..., int a9){ return a9; }` and `int main(){ return f(1, ..., 9); }`, whose
call has nine arguments, is accepted by `analyze`, and the text generated for it has the
line `call f`, after nine stores and eight loads. -/
theorem C19_counterexample :
    analyze progNineArgs = .ok () ∧
    Line.instr (.call "f") ∈ compile progNineArgs ∧
    (codeLines (compile progNineArgs)).drop 24 =
      [.instr (.li "a0" 1), .instr (.sw "a0" (argOffset 0) "sp"),
       .instr (.li "a0" 2), .instr (.sw "a0" (argOffset 1) "sp"),
       .instr (.li "a0" 3), .instr (.sw "a0" (argOffset 2) "sp"),
       .instr (.li "a0" 4), .instr (.sw "a0" (argOffset 3) "sp"),
       .instr (.li "a0" 5), .instr (.sw "a0" (argOffset 4) "sp"),
       .instr (.li "a0" 6), .instr (.sw "a0" (argOffset 5) "sp"),
       .instr (.li "a0" 7), .instr (.sw "a0" (argOffset 6) "sp"),
       .instr (.li "a0" 8), .instr (.sw "a0" (argOffset 7) "sp"),
       .instr (.li "a0" 9), .instr (.sw "a0" (argOffset 8) "sp"),
       .instr (.lw "a0" (argOffset 0) "sp"), .instr (.lw "a1" (argOffset 1) "sp"),
       .instr (.lw "a2" (argOffset 2) "sp"), .instr (.lw "a3" (argOffset 3) "sp"),
       .instr (.lw "a4" (argOffset 4) "sp"), .instr (.lw "a5" (argOffset 5) "sp"),
       .instr (.lw "a6" (argOffset 6) "sp"), .instr (.lw "a7" (argOffset 7) "sp"),
       .instr (.call "f"),
       .instr (.lw "ra" 12 "sp"), .instr (.lw "s0" 8 "sp"), .instr (.addi "sp" "sp" 16),
       .instr .ret,
       .instr (.lw "ra" 12 "sp"), .instr (.lw "s0" 8 "sp"), .instr (.addi "sp" "sp" 16),
       .instr .ret] := by
  refine ⟨by decide, by decide, by decide⟩

/-- C19, amended: a call is never rejected for the number of its arguments.  The call rule
of `analyze` asks only that the callee is declared, not declared after the caller, not
`void` in value position, and that the arguments are accepted; a call of a declared `int`
function with any number of literal arguments is accepted.  The code generator has no
failing path: for a call it emits the code and the store of every argument, then the loads
of the first `min n 8` arguments into `a0` .. `a7`, then the `call`; the arguments past
the eighth are stored and not passed. -/
theorem C19_call_arity_unrestricted :
    (∀ (ctx : SemanticContext) (name : String) (args : List Expr) (a : Bool),
      checkExpr ctx (.FuncCall name args) a = .ok () ↔
        ctx.funcDeclared name = true ∧ ctx.orderOf name ≤ ctx.orderOf ctx.curFunc ∧
          (ctx.retTypeOf name = "void" → a = true) ∧ checkArgs ctx args = .ok ()) ∧
    (∀ (ctx : SemanticContext) (n : Nat) (v : Int),
      checkArgs ctx (List.replicate n (.IntLiteral v)) = .ok ()) ∧
    (∀ (g : CodeGenerator) (name : String) (args : List Expr),
      exprCode g (.FuncCall name args) =
        .comment ("函数调用: " ++ name) ::
          (argsLines g.symbolTable 0 args ++
            (loadLines args.length ++ [.instr (.call name)]))) ∧
    (∀ (st : List (String × Symbol)) (i : Nat) (arg : Expr) (rest : List Expr),
      argsLines st i (arg :: rest) =
        exprLines st arg ++ .instr (.sw "a0" (argOffset i) "sp") :: argsLines st (i + 1) rest) ∧
    (∀ (st : List (String × Symbol)) (i j : Nat) (args : List Expr), j < args.length →
      Line.instr (.sw "a0" (argOffset (i + j)) "sp") ∈ argsLines st i args) ∧
    (∀ n : Nat, loadLines n =
      (List.range (min n 8)).map
        (fun i => Line.instr (.lw ("a" ++ toString i) (argOffset i) "sp"))) ∧
    (∀ n : Nat, (loadLines n).length = min n 8) := by
  refine ⟨fun ctx name args a => checkExpr_call_ok, fun ctx n v => ?_, fun g name args => ?_,
    fun st i arg rest => ?_, fun st i j args => ?_, fun n => rfl, fun n => ?_⟩
  · induction n with
    | zero => rfl
    | succ n ih =>
      rw [List.replicate_succ, checkArgs, bind_eq_ok]
      exact ⟨(), by rw [checkExpr]; rfl, ih⟩
  · rw [exprCode_eq, exprLines]
  · rw [argsLines]
  · induction args generalizing i j with
    | nil => intro h; cases h
    | cons arg rest ih =>
      intro h
      rw [argsLines]
      cases j with
      | zero => simp
      | succ j =>
        have h1 : j < rest.length := by simpa using h
        have := ih (i + 1) j h1
        rw [show i + 1 + j = i + (j + 1) by omega] at this
        simp [this]
  · simp [loadLines]

/-- C19, witness: the store of the ninth argument of the nine-argument call, index 8, is
in the lines of the call. -/
theorem C19_call_arity_unrestricted_witness :
    8 < [Expr.IntLiteral 1, .IntLiteral 2, .IntLiteral 3, .IntLiteral 4, .IntLiteral 5,
          .IntLiteral 6, .IntLiteral 7, .IntLiteral 8, .IntLiteral 9].length ∧
    Line.instr (.sw "a0" (argOffset (0 + 8)) "sp") ∈
      argsLines [] 0 [Expr.IntLiteral 1, .IntLiteral 2, .IntLiteral 3, .IntLiteral 4,
        .IntLiteral 5, .IntLiteral 6, .IntLiteral 7, .IntLiteral 8, .IntLiteral 9] :=
  ⟨by decide, C19_call_arity_unrestricted.2.2.2.2.1 [] 0 8 _ (by decide)⟩

/-- C20 (code defect): `visitFunctionDef` never enters a parameter in the symbol table (it
is left as it was, whatever the parameters), and `visitVarRef` and `visitAssign` emit
nothing but their comment when the lookup misses.  The accepted program
`int f(int a){ return a; } int main(){ return f(1); }` is compiled with an empty symbol
table, and the text of `f` has no `lw a0, off(sp)` for the reference to `a`: the value
register is returned as it stands.  In `int f(int a){ a = 2; return 0; } ...` the
assignment emits `li a0, 2` and no `sw`. -/
theorem C20_parameter_lookup_misses :
    (∀ (g : CodeGenerator) (retType name : String) (params : List (String × String)),
      (g.visitFunctionDef ⟨retType, name, params, .Block []⟩).symbolTable = g.symbolTable) ∧
    (∀ (g : CodeGenerator) (name : String),
      exprCode g (.VarRef name) =
        .comment ("变量引用: " ++ name) ::
          (match g.symbolTable.lookup name with
           | some sym => [.instr (.lw "a0" sym.offset "sp")]
           | none => [])) ∧
    analyze progParamRef = .ok () ∧
    (CodeGenerator.init.generate progParamRef).symbolTable = [] ∧
    (codeLines (compile progParamRef)).take 15 =
      [.instr (.directive ""), .instr (.directive ".text"), .instr (.directive ".globl main"),
       .instr (.directive ""), .instr (.directive ""),
       .label "f",
       .instr (.addi "sp" "sp" (-16)), .instr (.sw "ra" 12 "sp"), .instr (.sw "s0" 8 "sp"),
       .instr (.addi "s0" "sp" 16),
       .instr (.lw "ra" 12 "sp"), .instr (.lw "s0" 8 "sp"), .instr (.addi "sp" "sp" 16),
       .instr .ret,
       .instr (.lw "ra" 12 "sp")] ∧
    analyze progParamAssign = .ok () ∧
    (codeLines (compile progParamAssign)).take 16 =
      [.instr (.directive ""), .instr (.directive ".text"), .instr (.directive ".globl main"),
       .instr (.directive ""), .instr (.directive ""),
       .label "f",
       .instr (.addi "sp" "sp" (-16)), .instr (.sw "ra" 12 "sp"), .instr (.sw "s0" 8 "sp"),
       .instr (.addi "s0" "sp" 16),
       .instr (.li "a0" 2),
       .instr (.li "a0" 0),
       .instr (.lw "ra" 12 "sp"), .instr (.lw "s0" 8 "sp"), .instr (.addi "sp" "sp" 16),
       .instr .ret] := by
  refine ⟨fun g retType name params => rfl, fun g name => ?_, by decide, by decide,
    by decide, by decide, by decide⟩
  rw [exprCode_eq]
  cases h : g.symbolTable.lookup name <;> simp only [exprLines, h]


/-- C21 (code defect): `enterScope` and `exitScope` do nothing, so a block is compiled as
the sequence of its statements and the symbol that a declaration of the block binds stays
bound after the block: in every state, after `{ int x; }` the name `x` resolves to the
symbol of that inner declaration.  In the accepted program
`int main(){ int x = 1; { int x = 2; x = 3; } return x; }` the outer `x` is at `-4(sp)`,
the inner `x` at `-8(sp)`, and the `return x` after the block loads `-8(sp)`. -/
theorem C21_inner_symbol_outlives_block :
    (∀ g : CodeGenerator, g.enterScope = g ∧ g.exitScope = g) ∧
    (∀ (g : CodeGenerator) (stmts : List Stmt),
      g.visitStmt (.Block stmts) = CodeGenerator.visitStmts g stmts) ∧
    (∀ (g : CodeGenerator) (type name : String),
      (g.visitStmt (.Block [.VarDecl type name none])).symbolTable.lookup name =
        some ⟨name, type, ((g.emitComment ("变量声明: " ++ name)).allocateStackSpace 4).1,
          false⟩) ∧
    analyze progShadow = .ok () ∧
    (codeLines (compile progShadow)).drop 10 =
      [.instr (.li "a0" 1), .instr (.sw "a0" (-4) "sp"),
       .instr (.li "a0" 2), .instr (.sw "a0" (-8) "sp"),
       .instr (.li "a0" 3), .instr (.sw "a0" (-8) "sp"),
       .instr (.lw "a0" (-8) "sp"),
       .instr (.lw "ra" 12 "sp"), .instr (.lw "s0" 8 "sp"), .instr (.addi "sp" "sp" 16),
       .instr .ret,
       .instr (.lw "ra" 12 "sp"), .instr (.lw "s0" 8 "sp"), .instr (.addi "sp" "sp" 16),
       .instr .ret] ∧
    offsetsOf (CodeGenerator.init.generate progShadow).symbolTable = [-8, -4] := by
  refine ⟨fun g => ⟨rfl, rfl⟩, fun g stmts => ?_, fun g type name => ?_, by decide, by decide,
    by decide⟩
  · rw [CodeGenerator.visitStmt]
    rfl
  · simp only [CodeGenerator.visitStmt, CodeGenerator.visitStmts, CodeGenerator.enterScope,
      CodeGenerator.exitScope, List.lookup, beq_self_eq_true]
    rfl


/-- C22: in every state of the generator, the text of a function has one `ret` more than
its body has `ReturnStmt` nodes.  After the label and the prologue the text is a sequence
of that many segments, each made of lines that neither return nor write `sp` and closed by
the epilogue: one for every `ReturnStmt` (whose code is the comment, the code of the
value and the epilogue) and one at the end of the function.  The epilogue is always the
same four instructions; it loads `ra` and `s0` from the offsets 12 and 8 at which the
prologue stored them and adds to `sp` the 16 that the prologue subtracted.  The same count
holds for the text of every function of every program. -/
theorem C22_epilogue_at_end_and_returns (g : CodeGenerator) (f : FunctionDef) :
    retCount (funcText g f) = 1 + returnCount f.body ∧
    (∃ segs : List (List Line),
      segs.length = 1 + returnCount f.body ∧ segs.all (fun s => s.all isPlain) = true ∧
        funcText g f =
          .instr (.directive "") :: .comment ("函数定义: " ++ f.name) :: .label f.name ::
            (prologueLines ++ (segs.map (· ++ epilogueLines)).flatten)) ∧
    (∀ g1 : CodeGenerator, g1.generateFunctionPrologue = g1.write prologueLines) ∧
    (∀ g1 : CodeGenerator, g1.generateFunctionEpilogue = g1.write epilogueLines) ∧
    (∀ (g1 : CodeGenerator) (e : Expr),
      stmtCode g1 (.ReturnStmt (some e)) =
        .comment "return语句" :: (exprCode g1 e ++ epilogueLines)) ∧
    (∀ g1 : CodeGenerator,
      stmtCode g1 (.ReturnStmt none) = .comment "return语句" :: epilogueLines) ∧
    (storedAt "ra" prologueLines = [12] ∧ loadedFrom "ra" epilogueLines = [12] ∧
      storedAt "s0" prologueLines = [8] ∧ loadedFrom "s0" epilogueLines = [8] ∧
      spAdjust prologueLines = -16 ∧ spAdjust epilogueLines = 16) ∧
    (∀ prog : Program,
      List.Forall₂ (fun f1 text => retCount text = 1 + returnCount f1.body)
        prog.functions (functionTexts prog)) := by
  refine ⟨funcText_retCount g f, funcText_segments g f, generateFunctionPrologue_eq_write,
    generateFunctionEpilogue_eq_write, fun g1 e => ?_, fun g1 => ?_, by decide, fun prog => ?_⟩
  · rw [stmtCode, CodeGenerator.visitStmt, generateFunctionEpilogue_eq_write,
      visitExpr_eq_write, emitComment_eq_write, write_write, write_write, write_output,
      List.drop_left, exprCode_eq, write_symbolTable]
    rfl
  · rw [stmtCode, CodeGenerator.visitStmt, generateFunctionEpilogue_eq_write,
      emitComment_eq_write, write_write, write_output, List.drop_left]
    rfl
  · refine List.Forall₂.imp ?_ (funcTexts_state prog.functions _)
    rintro f1 text ⟨g1, rfl⟩
    exact funcText_retCount g1 f1

/-- C24 (code defect): the offset of argument `i` is computed in the unsigned type of the
loop index, so what is printed is never the negative decimal `-4 * (i + 1)` but its
wrap-around modulo `2 ^ 64`: `18446744073709551612` for the first argument,
`18446744073709551608` for the second.  In the text of the accepted program
`int f(int a){ return a; } int main(){ return f(1); }` the call is
`li a0, 1`, `sw a0, 18446744073709551612(sp)`, `lw a0, 18446744073709551612(sp)`,
`call f`. -/
theorem C24_argument_offset_printed_unsigned :
    (∀ i : Nat, (argOffset i : Int) ≠ -4 * ((i : Int) + 1)) ∧
    (∀ i : Nat, ((argOffset i : Int) + 4 * ((i : Int) + 1)) % 2 ^ 64 = 0) ∧
    (Instr.sw "a0" (argOffset 0) "sp").text = "sw a0, 18446744073709551612(sp)" ∧
    (Instr.sw "a0" (-4) "sp").text = "sw a0, -4(sp)" ∧
    (Instr.sw "a0" (argOffset 1) "sp").text = "sw a0, 18446744073709551608(sp)" ∧
    (Instr.lw "a0" (argOffset 0) "sp").text = "lw a0, 18446744073709551612(sp)" ∧
    analyze progParamRef = .ok () ∧
    ((codeLines (compile progParamRef)).drop 24).map Line.text =
      ["    li a0, 1", "    sw a0, 18446744073709551612(sp)",
       "    lw a0, 18446744073709551612(sp)", "    call f",
       "    lw ra, 12(sp)", "    lw s0, 8(sp)", "    addi sp, sp, 16", "    ret",
       "    lw ra, 12(sp)", "    lw s0, 8(sp)", "    addi sp, sp, 16", "    ret"] := by
  refine ⟨fun i => ?_, fun i => ?_, by decide, by decide, by decide, by decide, by decide,
    by decide⟩
  · have h : (0 : Int) ≤ (argOffset i : Int) := Int.ofNat_nonneg _
    omega
  · simp only [argOffset, sizeBits]
    push_cast
    omega

end ToyC
